import Mathlib


/-!
# malloc-lab: explicit free list allocator (`mm.c`)

A shallow embedding of `mm.c` and a verification development over it.

* Machine words are 64 bits wide.  All `size_t` and pointer arithmetic is
  taken modulo `2^64` (`add64`, `sub64`, `mul64`).
* Memory is a map from byte addresses to words.  The code only ever makes
  word accesses; an access is *valid* when it is 8-byte aligned and lies
  inside the region handed out by the heap provider, `[lo, brk)`.  Every
  function of the embedding returns a `Run`: `none` means that
  the run made an invalid access (undefined behaviour in C) or that the
  free-list search did not stop within its step budget.
* `mem_sbrk` belongs to `memlib`, which is not part of `mm.c`; it is
  modelled from the specification of the heap provider.
-/

namespace MallocLab

/-! ## Runs -/

/-- The result of running a piece of the allocator: `none` when the run
made an invalid memory access or used up its step budget. -/
def Run (α : Type) : Type := Option α

/-- Sequencing of runs. -/
@[noinline] def Run.bind {α β : Type} (x : Run α) (f : α → Run β) : Run β :=
  match x with
  | none => none
  | some a => f a

instance : Monad Run where
  pure := fun a => some a
  bind := Run.bind

instance {α : Type} [DecidableEq α] : DecidableEq (Run α) :=
  inferInstanceAs (DecidableEq (Option α))

/-! ## Machine arithmetic -/

/-- Number of values of a 64-bit word, `2^64`. -/
abbrev W64 : Nat := 18446744073709551616

/-- Addition of `size_t` / pointer values. -/
def add64 (a b : Nat) : Nat := (a + b) % W64

/-- Subtraction of `size_t` / pointer values (wraps around). -/
def sub64 (a b : Nat) : Nat := (a + (W64 - b % W64)) % W64

/-- Multiplication of `size_t` values. -/
def mul64 (a b : Nat) : Nat := (a * b) % W64

/-- Bitwise complement of a 64-bit word. -/
def not64 (a : Nat) : Nat := W64 - 1 - a % W64

/-! ## Basic constants and macros -/

/-- Word and header/footer size (bytes). -/
abbrev WSIZE : Nat := 8
/-- Doubleword size (bytes). -/
abbrev DSIZE : Nat := 2 * WSIZE
/-- Extend heap by this amount (bytes). -/
abbrev CHUNKSIZE : Nat := 1 <<< 12
/-- Bytes taken by header and footer. -/
abbrev OVERHEAD : Nat := 16
/-- The null pointer. -/
abbrev NULL : Nat := 0

/-- `MAX(x, y)`. -/
def MAX (x y : Nat) : Nat := if x > y then x else y

/-- Pack a size and allocated bit into a word. -/
def PACK (size alloc : Nat) : Nat := size ||| alloc

/-- The allocator state: the memory, the region granted by the heap
provider (`[lo, brk)`, at most up to `max_addr`) and the two globals. -/
structure Heap where
  mem : Nat → Nat
  lo : Nat
  brk : Nat
  max_addr : Nat
  heap_listp : Nat
  free_listp : Nat

/-- A word access at `p` is valid: aligned and inside the granted region. -/
def Heap.valid (s : Heap) (p : Nat) : Prop :=
  p % 8 = 0 ∧ s.lo ≤ p ∧ p + 8 ≤ s.brk

instance (s : Heap) (p : Nat) : Decidable (s.valid p) := by
  unfold Heap.valid; infer_instance

/-- The state with the word at `p` replaced by `v`. -/
def Heap.set (s : Heap) (p v : Nat) : Heap :=
  { s with mem := fun a => if a = p then v else s.mem a }

/-- Read a word at address `p`. -/
def GET (s : Heap) (p : Nat) : Run Nat :=
  if s.valid p then some (s.mem p) else none

/-- Write a word at address `p`. -/
def PUT (s : Heap) (p val : Nat) : Run Heap :=
  if s.valid p then some (s.set p val) else none

/-- Size field of a tag word: `w & ~(DSIZE - 1)`. -/
def sizeOfWord (w : Nat) : Nat := w &&& not64 (DSIZE - 1)

/-- Allocated field of a tag word: `w & 0x1`. -/
def allocOfWord (w : Nat) : Nat := w &&& 1

/-- Read the size field from address `p`. -/
def GET_SIZE (s : Heap) (p : Nat) : Run Nat := do
  let w ← GET s p
  pure (sizeOfWord w)

/-- Read the allocated field from address `p`. -/
def GET_ALLOC (s : Heap) (p : Nat) : Run Nat := do
  let w ← GET s p
  pure (allocOfWord w)

/-- Address of the header of block `bp`. -/
def HDRP (bp : Nat) : Nat := sub64 bp WSIZE

/-- Address of the footer of block `bp`. -/
def FTRP (s : Heap) (bp : Nat) : Run Nat := do
  let sz ← GET_SIZE s (HDRP bp)
  pure (sub64 (add64 bp sz) DSIZE)

/-- Address of the block after `bp`. -/
def NEXT_BLKP (s : Heap) (bp : Nat) : Run Nat := do
  let sz ← GET_SIZE s (sub64 bp WSIZE)
  pure (add64 bp sz)

/-- Address of the block before `bp`. -/
def PREV_BLKP (s : Heap) (bp : Nat) : Run Nat := do
  let sz ← GET_SIZE s (sub64 bp DSIZE)
  pure (sub64 bp sz)

/-- Address of the forward link of free block `p`. -/
def NEXT_PTR (p : Nat) : Nat := add64 p WSIZE

/-- Address of the backward link of free block `p`. -/
def PREV_PTR (p : Nat) : Nat := p

/-- The value `(void *)-1` by which the heap provider signals failure. -/
abbrev SBRK_FAIL : Nat := W64 - 1

/-- Modelled from the spec: the heap provider `mem_sbrk` of `memlib` (not in
`mm.c`).  `grow(n bytes)` returns the base pointer of the new region tail,
contiguous with all bytes granted before, or signals failure when the
resource is exhausted; the region never shrinks. -/
def mem_sbrk (s : Heap) (incr : Nat) : Nat × Heap :=
  if s.brk + incr ≤ s.max_addr then (s.brk, { s with brk := s.brk + incr })
  else (SBRK_FAIL, s)

/-! ## The free list -/

/-- Add a free block pointed by `ptr` to the free list. -/
def add_block_to_list (s : Heap) (ptr : Nat) : Run Heap := do
  let s ← PUT s (NEXT_PTR ptr) s.free_listp
  let s ← PUT s (PREV_PTR s.free_listp) ptr
  let s ← PUT s (PREV_PTR ptr) NULL
  pure { s with free_listp := ptr }

/-- Delete a free block from the free list. -/
def delete_block_from_list (s : Heap) (ptr : Nat) : Run Heap := do
  let pv ← GET s (PREV_PTR ptr)
  let s ← (if pv = NULL then do
      let nx ← GET s (NEXT_PTR ptr)
      pure { s with free_listp := nx }
    else do
      let nx ← GET s (NEXT_PTR ptr)
      PUT s (NEXT_PTR pv) nx)
  let nx ← GET s (NEXT_PTR ptr)
  let pv ← GET s (PREV_PTR ptr)
  PUT s (PREV_PTR nx) pv

/-! ## Internal helper routines -/

/-- Perform boundary tag coalescing.  Returns the address of the coalesced
block. -/
def coalesce (s : Heap) (bp : Nat) : Run (Nat × Heap) := do
  let pb ← PREV_BLKP s bp
  let pf ← FTRP s pb
  let pa ← GET_ALLOC s pf
  let prev_alloc : Bool := pa ≠ 0 || pb = bp
  let nb ← NEXT_BLKP s bp
  let na ← GET_ALLOC s (HDRP nb)
  let next_alloc : Bool := na ≠ 0
  let size ← GET_SIZE s (HDRP bp)
  if prev_alloc && next_alloc then
    let s ← add_block_to_list s bp
    pure (bp, s)
  else if prev_alloc && !next_alloc then
    let nsz ← GET_SIZE s (HDRP nb)
    let size := add64 size nsz
    let s ← delete_block_from_list s nb
    let s ← PUT s (HDRP bp) (PACK size 0)
    let f ← FTRP s bp
    let s ← PUT s f (PACK size 0)
    let s ← add_block_to_list s bp
    pure (bp, s)
  else if !prev_alloc && next_alloc then
    let psz ← GET_SIZE s (HDRP pb)
    let size := add64 size psz
    let s ← delete_block_from_list s pb
    let f ← FTRP s bp
    let s ← PUT s f (PACK size 0)
    let pb ← PREV_BLKP s bp
    let s ← PUT s (HDRP pb) (PACK size 0)
    let bp ← PREV_BLKP s bp
    let s ← add_block_to_list s bp
    pure (bp, s)
  else
    let psz ← GET_SIZE s (HDRP pb)
    let nf ← FTRP s nb
    let nsz ← GET_SIZE s nf
    let size := add64 size (add64 psz nsz)
    let s ← delete_block_from_list s pb
    let nb ← NEXT_BLKP s bp
    let s ← delete_block_from_list s nb
    let pb ← PREV_BLKP s bp
    let s ← PUT s (HDRP pb) (PACK size 0)
    let nb ← NEXT_BLKP s bp
    let nf ← FTRP s nb
    let s ← PUT s nf (PACK size 0)
    let bp ← PREV_BLKP s bp
    let s ← add_block_to_list s bp
    pure (bp, s)

/-- Extend the heap with a free block and return that block's address
(`NULL` when the provider fails). -/
def extend_heap (s : Heap) (words : Nat) : Run (Nat × Heap) := do
  let size := if words % 2 ≠ 0 then mul64 (add64 words 1) WSIZE else mul64 words WSIZE
  let (bp, s) := mem_sbrk s size
  if bp = SBRK_FAIL then pure (NULL, s)
  else
    let s ← PUT s (HDRP bp) (PACK size 0)
    let f ← FTRP s bp
    let s ← PUT s f (PACK size 0)
    let nb ← NEXT_BLKP s bp
    let s ← PUT s (HDRP nb) (PACK 0 1)
    coalesce s bp

/-- The loop of `find_fit`, started at `bp`, with a budget of `fuel`
iterations (`none` when the budget is used up). -/
def find_fit_loop (s : Heap) (asize : Nat) : Nat → Nat → Run Nat
  | 0, _ => none
  | fuel + 1, bp => do
    let a ← GET_ALLOC s (HDRP bp)
    if a = 0 then
      let sz ← GET_SIZE s (HDRP bp)
      if asize ≤ sz then pure bp
      else
        let nx ← GET s (NEXT_PTR bp)
        find_fit_loop s asize fuel nx
    else pure NULL

/-- Find a fit for a block with `asize` bytes.  Returns that block's
address or `NULL` if no suitable block was found.  The loop is given one
iteration per byte of the region, more than a list of distinct blocks
of the region can need. -/
def find_fit (s : Heap) (asize : Nat) : Run Nat :=
  find_fit_loop s asize (s.brk - s.lo) s.free_listp

/-- Place block of `asize` bytes at start of free block `bp` and split if
remainder would be at least minimum block size. -/
def place (s : Heap) (bp asize : Nat) : Run Heap := do
  let csize ← GET_SIZE s (HDRP bp)
  if sub64 csize asize ≥ 2 * DSIZE then
    let s ← PUT s (HDRP bp) (PACK asize 1)
    let f ← FTRP s bp
    let s ← PUT s f (PACK asize 1)
    let s ← delete_block_from_list s bp
    let bp ← NEXT_BLKP s bp
    let s ← PUT s (HDRP bp) (PACK (sub64 csize asize) 0)
    let f ← FTRP s bp
    let s ← PUT s f (PACK (sub64 csize asize) 0)
    let (_, s) ← coalesce s bp
    pure s
  else
    let s ← PUT s (HDRP bp) (PACK csize 1)
    let f ← FTRP s bp
    let s ← PUT s f (PACK csize 1)
    delete_block_from_list s bp

/-! ## The public operations -/

/-- Initialize the memory manager.  Returns 0 if the memory manager was
successfully initialized and -1 otherwise. -/
def mm_init (s : Heap) : Run (Int × Heap) := do
  let (p, s) := mem_sbrk s (8 * WSIZE)
  let s := { s with heap_listp := p }
  if s.heap_listp = NULL then pure (-1, s)
  else
    let s ← PUT s s.heap_listp 0
    let s ← PUT s (add64 s.heap_listp (1 * WSIZE)) (PACK DSIZE 1)
    let s ← PUT s (add64 s.heap_listp (2 * WSIZE)) (PACK DSIZE 1)
    let s ← PUT s (add64 s.heap_listp (3 * WSIZE)) (PACK 0 1)
    let s := { s with heap_listp := add64 s.heap_listp DSIZE }
    let s := { s with free_listp := s.heap_listp }
    let (bp, s) ← extend_heap s (CHUNKSIZE / WSIZE)
    if bp = NULL then pure (-1, s) else pure (0, s)

/-- Allocate a block with at least `size` bytes.  Returns a pointer to the
allocated block if the allocation was successful and `NULL` otherwise. -/
def mm_malloc (s : Heap) (size : Nat) : Run (Nat × Heap) := do
  if size ≤ 0 then pure (NULL, s)
  else
    let asize :=
      if size ≤ DSIZE then add64 DSIZE OVERHEAD
      else mul64 DSIZE (add64 (add64 size OVERHEAD) (DSIZE - 1) / DSIZE)
    let bp ← find_fit s asize
    if bp ≠ NULL then
      let s ← place s bp asize
      pure (bp, s)
    else
      let extendsize := MAX asize CHUNKSIZE
      let (bp, s) ← extend_heap s (extendsize / WSIZE)
      if bp = NULL then pure (NULL, s)
      else
        let s ← place s bp asize
        pure (bp, s)

/-- The adjusted block size that `mm_malloc` computes for a request of
`size` bytes. -/
def adjusted (size : Nat) : Nat :=
  if size ≤ DSIZE then add64 DSIZE OVERHEAD
  else mul64 DSIZE (add64 (add64 size OVERHEAD) (DSIZE - 1) / DSIZE)

/-- Free the block pointed to by `bp`. -/
def mm_free (s : Heap) (bp : Nat) : Run Heap := do
  if bp = NULL then pure s
  else
    let size ← GET_SIZE s (HDRP bp)
    let s ← PUT s (HDRP bp) (PACK size 0)
    let f ← FTRP s bp
    let s ← PUT s f (PACK size 0)
    let (_, s) ← coalesce s bp
    pure s

/-- The library routine `memcpy(dst, src, n)` for `n` a multiple of the word
size: all words of both ranges must be valid and the ranges must not
overlap. -/
def memcpy (s : Heap) (dst src n : Nat) : Run Heap :=
  if n % 8 = 0 ∧ (n = 0 ∨ (s.valid dst ∧ s.valid src ∧ dst + n ≤ s.brk ∧ src + n ≤ s.brk ∧
      (dst + n ≤ src ∨ src + n ≤ dst))) then
    some { s with mem := fun a =>
      if dst ≤ a ∧ a < dst + n then s.mem (src + (a - dst)) else s.mem a }
  else none

/-- The cast `(int)size`: truncation to 32 bits, read in two's complement,
is negative. -/
def intCastNeg (size : Nat) : Bool := size % 4294967296 ≥ 2147483648

/-- Reallocate the block `ptr` to a block with at least `size` bytes of
payload. -/
def mm_realloc (s : Heap) (ptr size : Nat) : Run (Nat × Heap) := do
  if intCastNeg size then pure (NULL, s)
  else if size = 0 then
    let s ← mm_free s ptr
    pure (NULL, s)
  else if ptr = NULL then mm_malloc s size
  else
    let oldsize ← GET_SIZE s (HDRP ptr)
    let newsize := add64 size (2 * WSIZE)
    if newsize ≤ oldsize then pure (ptr, s)
    else
      let nb ← NEXT_BLKP s ptr
      let next_alloc ← GET_ALLOC s (HDRP nb)
      let next_blk_size ← GET_SIZE s (HDRP nb)
      let total_free_size := add64 oldsize next_blk_size
      if next_alloc = 0 ∧ total_free_size ≥ newsize then
        let s ← delete_block_from_list s nb
        let s ← PUT s (HDRP ptr) (PACK total_free_size 1)
        let f ← FTRP s ptr
        let s ← PUT s f (PACK total_free_size 1)
        pure (ptr, s)
      else
        let (newptr, s) ← mm_malloc s newsize
        if newptr = NULL then pure (NULL, s)
        else
          let s ← place s newptr newsize
          let s ← memcpy s newptr ptr oldsize
          let s ← mm_free s ptr
          pure (newptr, s)

/-! ## Call sequences -/

/-- The provider's state before `mm_init`: nothing granted yet, the region
will start at `lo` and may grow up to `max_addr`; memory is zero-filled. -/
def fresh (lo max_addr : Nat) : Heap :=
  { mem := fun _ => 0, lo := lo, brk := lo, max_addr := max_addr,
    heap_listp := 0, free_listp := 0 }

/-- One call of the public interface. -/
inductive Call where
  | malloc (size : Nat)
  | free (ptr : Nat)
  | realloc (ptr size : Nat)

/-- The allocator state together with the application's view: the live
allocations, each with its pointer and the size that was requested. -/
structure Config where
  heap : Heap
  live : List (Nat × Nat)

/-- The pointer `p` is currently live. -/
def Config.isLive (c : Config) (p : Nat) : Bool := c.live.any (fun x => x.1 = p)

/-- The live allocations without the one at `p`. -/
def Config.drop (c : Config) (p : Nat) : List (Nat × Nat) :=
  c.live.filter (fun x => x.1 ≠ p)

/-- Run one call that respects the preconditions of the interface (`mm_free`
and `mm_realloc` only on live pointers); `none` for a call that does not, or
when the run of the allocator has no result. -/
def Config.step (c : Config) : Call → Run Config
  | .malloc size => do
    let (p, s) ← mm_malloc c.heap size
    pure { heap := s, live := if p = NULL then c.live else (p, size) :: c.live }
  | .free ptr =>
    if c.isLive ptr then do
      let s ← mm_free c.heap ptr
      pure { heap := s, live := c.drop ptr }
    else none
  | .realloc ptr size =>
    if c.isLive ptr then do
      let (p, s) ← mm_realloc c.heap ptr size
      pure { heap := s, live :=
        if p ≠ NULL then (p, size) :: c.drop ptr
        else if size = 0 then c.drop ptr else c.live }
    else none

/-- Run a sequence of calls. -/
def Config.run (c : Config) : List Call → Run Config
  | [] => pure c
  | k :: ks => do
    let c ← c.step k
    c.run ks

/-- The configuration after a successful `mm_init` on a fresh provider. -/
def start (lo max_addr : Nat) : Run Config := do
  let (r, s) ← mm_init (fresh lo max_addr)
  if r = 0 then pure { heap := s, live := [] } else none

/-- The byte at address `a` (little endian within its word). -/
def byteAt (s : Heap) (a : Nat) : Nat :=
  (s.mem (a - a % 8) / 2 ^ (8 * (a % 8))) % 256

/-- Two allocations whose byte ranges `[p, p + n)` intersect. -/
def rangesMeet (x y : Nat × Nat) : Bool :=
  decide (x.1 < y.1 + y.2 ∧ y.1 < x.1 + x.2)

/-! ## Observers of the heap -/

/-- Follow the forward links from `p` up to the prologue sentinel
(`heap_listp`), at most `fuel` links. -/
def listFrom (s : Heap) : Nat → Nat → Option (List Nat)
  | 0, _ => none
  | fuel + 1, p =>
    if p = s.heap_listp then some []
    else (listFrom s fuel (s.mem (p + 8))).map (fun l => p :: l)

/-- The blocks reached from `free_listp` along the forward links. -/
def freeList (s : Heap) : Option (List Nat) :=
  listFrom s (s.brk - s.lo) s.free_listp

/-- Walk the blocks from `bp` by header size until a header of size 0;
returns the blocks visited and the block pointer at which the walk ends. -/
def walkFrom (s : Heap) : Nat → Nat → Option (List Nat × Nat)
  | 0, _ => none
  | fuel + 1, bp =>
    if sizeOfWord (s.mem (bp - 8)) = 0 then some ([], bp)
    else (walkFrom s fuel (bp + sizeOfWord (s.mem (bp - 8)))).map
      (fun r => (bp :: r.1, r.2))

/-- The walk over the real blocks, from the first one at heap base + 64. -/
def heapWalk (s : Heap) : Option (List Nat × Nat) :=
  walkFrom s (s.brk - s.lo) (s.lo + 64)

/-- The header word of block `bp`. -/
def hdr (s : Heap) (bp : Nat) : Nat := s.mem (bp - 8)

/-- The size in the header of block `bp`. -/
def bsize (s : Heap) (bp : Nat) : Nat := sizeOfWord (hdr s bp)

/-- The footer word of block `bp`. -/
def ftr (s : Heap) (bp : Nat) : Nat := s.mem (bp + bsize s bp - 16)

/-- Block `bp` is tagged free in its header. -/
def isFree (s : Heap) (bp : Nat) : Bool := allocOfWord (hdr s bp) = 0

/-! ## The consistency checker -/

/-- Perform a minimal check on the block `bp`.  The messages it prints are
not modelled, only the reads it makes. -/
def checkblock (s : Heap) (bp : Nat) : Run Unit := do
  let _ ← GET s (HDRP bp)
  let f ← FTRP s bp
  let _ ← GET s f
  pure ()

/-- The first loop of `mm_check`, over the free list, with a budget of
`fuel` iterations: `true` when it meets a block tagged allocated. -/
def check_list_loop (s : Heap) : Nat → Nat → Run Bool
  | 0, _ => none
  | fuel + 1, bp => do
    let nx ← GET s (NEXT_PTR bp)
    if nx ≠ NULL then
      let a ← GET_ALLOC s (HDRP bp)
      if a = 1 then pure true
      else
        let f ← FTRP s bp
        let fa ← GET_ALLOC s f
        if fa = 1 then pure true
        else check_list_loop s fuel nx
    else pure false

/-- The second loop of `mm_check`, over the blocks from `bp` on; returns the
block pointer at which it stops. -/
def check_blocks_loop (s : Heap) (pr : Nat → Run Unit) (verbose : Bool) :
    Nat → Nat → Run Nat
  | 0, _ => none
  | fuel + 1, bp => do
    let sz ← GET_SIZE s (HDRP bp)
    if sz > 0 then
      if verbose then pr bp
      checkblock s bp
      let nb ← NEXT_BLKP s bp
      check_blocks_loop s pr verbose fuel nb
    else pure bp

/-- The body of `mm_check`, with the routine that prints a block as a
parameter. -/
def mm_check_body (s : Heap) (pr : Nat → Run Unit) (verbose : Bool) : Run Int := do
  let bad ← check_list_loop s (s.brk - s.lo) s.free_listp
  if bad then pure (-1)
  else
    let psz ← GET_SIZE s (HDRP s.heap_listp)
    let pal ← GET_ALLOC s (HDRP s.heap_listp)
    if psz ≠ DSIZE ∨ pal = 0 then pure (-1)
    else
      checkblock s s.heap_listp
      let bp ← check_blocks_loop s pr verbose (s.brk - s.lo) s.heap_listp
      if verbose then pr bp
      let esz ← GET_SIZE s (HDRP bp)
      let eal ← GET_ALLOC s (HDRP bp)
      if esz ≠ 0 ∨ eal = 0 then pure (-1) else pure 1

/-- Print the block pointed to by `bp`: it calls `mm_check(0)` and reads the
tags of the block; what it prints is not modelled. -/
def printblock (s : Heap) (bp : Nat) : Run Unit := do
  let _ ← mm_check_body s (fun _ => pure ()) false
  let _ ← GET_SIZE s (HDRP bp)
  let _ ← GET_ALLOC s (HDRP bp)
  let f ← FTRP s bp
  let _ ← GET_SIZE s f
  let _ ← GET_ALLOC s f
  pure ()

/-- Check of the heap for consistency: 1 when it finds the heap valid, -1
otherwise. -/
def mm_check (s : Heap) (verbose : Int) : Run Int :=
  mm_check_body s (printblock s) (verbose ≠ 0)

/-! ## Observations on call sequences -/

/-- The provider's state before `mm_init` when its memory holds `m0`. -/
def freshWith (lo max_addr : Nat) (m0 : Nat → Nat) : Heap :=
  { mem := m0, lo := lo, brk := lo, max_addr := max_addr,
    heap_listp := 0, free_listp := 0 }

/-- Run `mm_init` on a fresh provider and then the calls `ks`. -/
def runFrom (lo max_addr : Nat) (ks : List Call) : Run Config := do
  let c ← start lo max_addr
  c.run ks

/-- The live allocations after `mm_init` and the calls `ks`. -/
def liveAfter (lo max_addr : Nat) (ks : List Call) : Run (List (Nat × Nat)) := do
  let c ← runFrom lo max_addr ks
  pure c.live

/-- The byte at `a` and the live allocations, before and after the call `k`
made after `mm_init` and the calls `ks`. -/
def byteAcross (lo max_addr : Nat) (ks : List Call) (k : Call) (a : Nat) :
    Run ((Nat × List (Nat × Nat)) × (Nat × List (Nat × Nat))) := do
  let c ← runFrom lo max_addr ks
  let c2 ← c.step k
  pure ((byteAt c.heap a, c.live), (byteAt c2.heap a, c2.live))

/-- The blocks of the heap walk that are tagged free. -/
def freeOfWalk (s : Heap) : Option (List Nat) :=
  (heapWalk s).map (fun r => r.1.filter (fun bp => isFree s bp))

/-- The free list and the free blocks of the heap walk after `mm_init` and the
calls `ks`. -/
def listAndWalk (lo max_addr : Nat) (ks : List Call) :
    Run (Option (List Nat) × Option (List Nat)) := do
  let c ← runFrom lo max_addr ks
  pure (freeList c.heap, freeOfWalk c.heap)

/-- The pointer returned by `mm_malloc(size)` after `mm_init` and the calls
`ks`, with the size and the allocated bit in the header of its block. -/
def mallocTags (lo max_addr : Nat) (ks : List Call) (size : Nat) :
    Run (Nat × Nat × Nat) := do
  let c ← runFrom lo max_addr ks
  let (p, s) ← mm_malloc c.heap size
  pure (p, bsize s p, allocOfWord (hdr s p))

/-- The state in which `mm_realloc(ptr, size)` is called after `mm_init` and
the calls `ks` (live allocations, size of the block at `ptr`, allocated bit
of its successor), and the pointer it returns, if it has a result. -/
def reallocResult (lo max_addr : Nat) (ks : List Call) (ptr size : Nat) :
    Run ((List (Nat × Nat) × Nat × Nat) × Option Nat) := do
  let c ← runFrom lo max_addr ks
  pure ((c.live, bsize c.heap ptr, allocOfWord (hdr c.heap (ptr + bsize c.heap ptr))),
    Option.map (fun r => r.1) (mm_realloc c.heap ptr size))

/-- The pointers returned by `mm_realloc(NULL, size)` and by `mm_malloc(size)`
from the state after `mm_init`, with the region ends they leave. -/
def reallocNullVsMalloc (lo max_addr size : Nat) : Run ((Nat × Nat) × (Nat × Nat)) := do
  let c ← start lo max_addr
  let (p, s) ← mm_realloc c.heap NULL size
  let (q, t) ← mm_malloc c.heap size
  pure ((p, s.brk), (q, t.brk))

/-- The result of `mm_init` for a provider whose memory holds `m0`. -/
def initResult (lo max_addr : Nat) (m0 : Nat → Nat) : Option Int :=
  Option.map (fun r => r.1) (mm_init (freshWith lo max_addr m0))

/-- The results of `mm_check(0)` and `mm_check(1)` after `mm_init` and the
calls `ks`. -/
def checkResults (lo max_addr : Nat) (ks : List Call) : Run (Int × Int) := do
  let c ← runFrom lo max_addr ks
  let r0 ← mm_check c.heap 0
  let r1 ← mm_check c.heap 1
  pure (r0, r1)

/-- The prologue header, the prologue footer and the last word of the region
after `mm_init` and the calls `ks`. -/
def sentinelWords (lo max_addr : Nat) (ks : List Call) : Run (Nat × Nat × Nat) := do
  let c ← runFrom lo max_addr ks
  pure (c.heap.mem (lo + 8), c.heap.mem (lo + 16), c.heap.mem (c.heap.brk - 8))

/-- For a provider whose memory holds `m0`: the result of `mm_init`, the head
of the free list it leaves, and the words at heap base + 24 and + 56. -/
def initShape (lo max_addr : Nat) (m0 : Nat → Nat) : Run (Int × Nat × Nat × Nat) := do
  let (r, s) ← mm_init (freshWith lo max_addr m0)
  pure (r, s.free_listp, s.mem (lo + 8), s.mem (lo + 40))

/-- The configuration after `mm_init` and the calls `ks` (the fresh provider
when that run has no result). -/
def reached (lo max_addr : Nat) (ks : List Call) : Config :=
  match runFrom lo max_addr ks with
  | some c => c
  | none => { heap := fresh lo max_addr, live := [] }

/-- The sum of the sizes of all blocks: the prologue, the blocks of the heap
walk and the block of size 0 at which the walk ends. -/
def blockSizes (s : Heap) : Option Nat :=
  (heapWalk s).map (fun r =>
    bsize s s.heap_listp + (r.1.map (bsize s)).sum + bsize s r.2)

/-- The sum of the block sizes and the number of bytes obtained from the
provider after `mm_init` and the calls `ks`. -/
def conservation (lo max_addr : Nat) (ks : List Call) : Run (Option Nat × Nat) := do
  let c ← runFrom lo max_addr ks
  pure (blockSizes c.heap, c.heap.brk - c.heap.lo)

/-! ## The heap invariant -/

/-- A block of the heap: its block pointer, its size and its allocated
bit. -/
structure Blk where
  bp : Nat
  size : Nat
  al : Nat

/-- The blocks `bs` lie one after the other, the first at `a`, the last
ending at `e`. -/
def Tile : Nat → List Blk → Nat → Prop
  | a, [], e => a = e
  | a, b :: r, e => b.bp = a ∧ Tile (a + b.size) r e

/-- The header and the footer of block `b` both hold its tag, and its size
is a multiple of 16 that is at least 32. -/
def Tagged (m : Nat → Nat) (b : Blk) : Prop :=
  32 ≤ b.size ∧ b.size % 16 = 0 ∧ b.al ≤ 1 ∧
    m (b.bp - 8) = b.size + b.al ∧ m (b.bp + b.size - 16) = b.size + b.al

/-- The blocks of `l` are doubly linked in this order: the backward link of
the first is `prev`, the forward link of the last is `S`. -/
def Linked (m : Nat → Nat) (S : Nat) : Nat → List Nat → Prop
  | _, [] => True
  | prev, x :: xs => m x = prev ∧ m (x + 8) = xs.headD S ∧ Linked m S x xs

/-- The shape of the heap: the sentinels, the blocks `bs` in address order
and the free list `fl` in list order. -/
structure Geo (s : Heap) (bs : List Blk) (fl : List Nat) : Prop where
  lo_pos : 0 < s.lo
  lo_al : s.lo % 16 = 0
  brk_le : s.brk ≤ s.max_addr
  max_lt : s.max_addr < 18446744073709551616
  hlp : s.heap_listp = s.lo + 16
  pro : s.mem (s.lo + 8) = 17
  pad : s.mem (s.lo + 48) = 0
  epi : s.mem (s.brk - 8) = 1
  tile : Tile (s.lo + 64) bs s.brk
  tag : ∀ b ∈ bs, Tagged s.mem b
  flp : s.free_listp = fl.headD (s.lo + 16)
  link : Linked s.mem (s.lo + 16) 0 fl
  back : fl ≠ [] → s.mem (s.lo + 16) = fl.getLastD 0
  nodup : fl.Nodup
  fl_blk : ∀ x ∈ fl, ∃ b ∈ bs, b.bp = x

/-- The number `n` fits into a 64-bit word. -/
def Fits (n : Nat) : Prop := n < 18446744073709551616

/-- Where a block of the heap lies. -/
structure BlkAt (s : Heap) (b : Blk) : Prop where
  al16 : b.bp % 16 = 0
  lo : s.lo + 64 ≤ b.bp
  hi : b.bp + b.size ≤ s.brk
  fit : Fits s.brk
  sz32 : 32 ≤ b.size
  sz16 : b.size % 16 = 0
  al1 : b.al ≤ 1
  hd : s.mem (b.bp - 8) = b.size + b.al
  ft : s.mem (b.bp + b.size - 16) = b.size + b.al

/-- The cells that hold free-list links: the link cells of the nodes of `fl`
and the backward link of the sentinel. -/
def LinkCell (s : Heap) (fl : List Nat) (a : Nat) : Prop :=
  a = s.lo + 16 ∨ ∃ y ∈ fl, a = y ∨ a = y + 8

/-- The cells in which links may be stored: the first two payload words of
a block, and the backward link of the sentinel. -/
def PayCell (s : Heap) (bs : List Blk) (a : Nat) : Prop :=
  a = s.lo + 16 ∨ ∃ b ∈ bs, a = b.bp ∨ a = b.bp + 8

/-- No two neighbours are both free. -/
def NoAdj (bs : List Blk) : Prop := bs.Chain' (fun b c => b.al = 1 ∨ c.al = 1)

/-- The block before the place where `pre` ends, if any, is allocated. -/
def PrevAl (pre : List Blk) : Prop := ∀ p ∈ pre.getLast?, p.al = 1

/-- The block with which `post` starts, if any, is allocated. -/
def NextAl (post : List Blk) : Prop := ∀ n ∈ post.head?, n.al = 1

/-- The state in which `coalesce` is entered: block `b`, between the blocks
`pre` and the blocks `post`, is tagged free and not in the free list; all
else is as the invariant says. -/
structure PreCo (s : Heap) (pre : List Blk) (b : Blk) (post : List Blk)
    (fl : List Nat) : Prop where
  geo : Geo s (pre ++ b :: post) fl
  bfree : b.al = 0
  bout : b.bp ∉ fl
  others : ∀ c ∈ pre ++ post, (c.al = 0 ↔ c.bp ∈ fl)
  npre : NoAdj pre
  npost : NoAdj post

/-- A neighbour of a block that `coalesce` absorbs: the neighbour itself when
there is one and it is tagged free, nothing otherwise. -/
def freeNbr (o : Option Blk) : List Blk :=
  match o with
  | some c => if c.al = 0 then [c] else []
  | none => []

/-- Where the block that results from coalescing `b` starts: at its
predecessor (the last block of `pre`) when that is free, at `b` otherwise. -/
def mergedBp (pre : List Blk) (b : Blk) : Nat :=
  ((freeNbr pre.getLast?).map Blk.bp).headD b.bp

/-- The size of the block that results from coalescing `b`: the size of `b`
plus the sizes of its free neighbours. -/
def mergedSize (pre : List Blk) (b : Blk) (post : List Blk) : Nat :=
  b.size + ((freeNbr pre.getLast?).map Blk.size).sum +
    ((freeNbr post.head?).map Blk.size).sum

/-- The blocks after coalescing `b`, which lies between `pre` and `post`. -/
def mergedBlocks (pre : List Blk) (b : Blk) (post : List Blk) : List Blk :=
  pre.take (pre.length - (freeNbr pre.getLast?).length) ++
    ⟨mergedBp pre b, mergedSize pre b post, 0⟩ ::
      post.drop (freeNbr post.head?).length

/-- The members of the free list `fl` that are not absorbed neighbours, in
their order. -/
def keptList (pre post : List Blk) (fl : List Nat) : List Nat :=
  fl.filter (fun x =>
    decide (x ∉ (freeNbr pre.getLast? ++ freeNbr post.head?).map Blk.bp))

/-- The invariant of the allocator between two calls. -/
structure Inv (s : Heap) (bs : List Blk) (fl : List Nat) : Prop where
  geo : Geo s bs fl
  free_iff : ∀ b ∈ bs, (b.al = 0 ↔ b.bp ∈ fl)
  nadj : NoAdj bs

/-- The configurations reachable from a successful `mm_init` on a fresh
provider by `mm_malloc` calls (with `size + 31 < 2^64`) and `mm_free` calls
on live pointers. -/
inductive Reachable (lo max_addr : Nat) : Config → Prop
  | init (s : Heap) (h : mm_init (fresh lo max_addr) = some (0, s)) :
      Reachable lo max_addr { heap := s, live := [] }
  | malloc (c : Config) (size p : Nat) (s : Heap) (hc : Reachable lo max_addr c)
      (hsize : size + 31 < W64) (h : mm_malloc c.heap size = some (p, s)) :
      Reachable lo max_addr
        { heap := s, live := if p = NULL then c.live else (p, size) :: c.live }
  | free (c : Config) (ptr : Nat) (s : Heap) (hc : Reachable lo max_addr c)
      (hlive : c.isLive ptr = true) (h : mm_free c.heap ptr = some s) :
      Reachable lo max_addr { heap := s, live := c.drop ptr }

/-- The state of the allocator in a reachable configuration: the invariant
holds, and every live pointer is the block pointer of an allocated block. -/
structure Good (lo max_addr : Nat) (c : Config) (bs : List Blk) (fl : List Nat) : Prop where
  inv : Inv c.heap bs fl
  lo_eq : c.heap.lo = lo
  max_eq : c.heap.max_addr = max_addr
  live : ∀ p, c.isLive p = true → ∃ b ∈ bs, b.bp = p ∧ b.al = 1

/-- A call that the reachability relation admits: `mm_malloc` with a size that
does not overflow, or `mm_free`. -/
def Call.plain : Call → Bool
  | .malloc size => decide (size + 31 < W64)
  | .free _ => true
  | .realloc _ _ => false

end MallocLab


namespace MallocLab

/-! ## Runs -/

@[simp] theorem Run.some_bind {α β : Type} (a : α) (f : α → Run β) :
    @Bind.bind Run _ α β (some a) f = f a := rfl

@[simp] theorem Run.none_bind {α β : Type} (f : α → Run β) :
    @Bind.bind Run _ α β none f = none := rfl

@[simp] theorem Run.pure_eq {α : Type} (a : α) : @Pure.pure Run _ α a = some a := rfl

theorem Run.bind_eq_some {α β : Type} {x : Run α} {f : α → Run β} {b : β}
    (h : Bind.bind x f = some b) : ∃ a, x = some a ∧ f a = some b := by
  cases x with
  | none => exact absurd h (by rw [Run.none_bind]; exact fun h => Option.noConfusion h)
  | some a => exact ⟨a, rfl, h⟩

/-! ## Words -/

theorem allocOfWord_eq (w : Nat) : allocOfWord w = w % 2 := by
  unfold allocOfWord; exact Nat.and_one_is_mod w

theorem PACK_zero (sz : Nat) : PACK sz 0 = sz := by
  unfold PACK; simp

theorem PACK_one (sz : Nat) (h : sz % 2 = 0) : PACK sz 1 = sz + 1 := by
  unfold PACK
  have h2 : sz = 2 ^ 1 * (sz / 2) := by omega
  rw [h2]
  have := Nat.mul_add_lt_is_or (i := 1) (b := 1) (by decide) (sz / 2)
  omega

theorem sizeOfWord_eq (w : Nat) (h : w < W64) : sizeOfWord w = w - w % 16 := by
  unfold sizeOfWord not64
  apply Nat.eq_of_testBit_eq
  intro i
  rw [Nat.testBit_and]
  have hm : (W64 - 1 - (DSIZE - 1) % W64) = 2 ^ 4 * (2 ^ 60 - 1) := by decide
  rw [hm]
  have hw : w - w % 16 = 2 ^ 4 * (w / 16) := by omega
  rw [hw, Nat.testBit_mul_pow_two, Nat.testBit_mul_pow_two]
  have hsh : w / 16 = w >>> 4 := by rw [Nat.shiftRight_eq_div_pow]
  by_cases hi : 4 ≤ i
  · have hi4 : 4 + (i - 4) = i := by omega
    simp only [hi, decide_True, Bool.true_and]
    rw [Nat.testBit_two_pow_sub_one, hsh, Nat.testBit_shiftRight, hi4]
    by_cases h60 : i - 4 < 60
    · simp only [h60, decide_True, Bool.and_true]
    · have hlt : w < 2 ^ i := by
        have : (2:Nat) ^ 64 ≤ 2 ^ i := Nat.pow_le_pow_right (by decide) (by omega)
        have h64 : (2:Nat) ^ 64 = W64 := by decide
        omega
      simp [h60, Nat.testBit_lt_two_pow hlt]
  · simp [hi]

/-- The size field of a tag `sz + al`. -/
theorem sizeOfWord_tag (sz al : Nat) (h16 : sz % 16 = 0) (hal : al ≤ 1)
    (hlt : sz + al < 18446744073709551616) : sizeOfWord (sz + al) = sz := by
  rw [sizeOfWord_eq _ hlt]; omega

/-- The allocated field of a tag `sz + al`. -/
theorem allocOfWord_tag (sz al : Nat) (h16 : sz % 16 = 0) (hal : al ≤ 1) :
    allocOfWord (sz + al) = al := by
  rw [allocOfWord_eq]; omega

theorem add64_eq {a b : Nat} (h : a + b < 18446744073709551616) : add64 a b = a + b := by
  unfold add64 W64; omega

theorem sub64_eq {a b : Nat} (h : b ≤ a) (ha : a < 18446744073709551616) :
    sub64 a b = a - b := by
  unfold sub64 W64; omega

theorem mul64_eq {a b : Nat} (h : a * b < 18446744073709551616) : mul64 a b = a * b := by
  unfold mul64; exact Nat.mod_eq_of_lt h

theorem Fits.mono {a b : Nat} (h : a ≤ b) (hb : Fits b) : Fits a := by
  unfold Fits at *; omega

theorem add64_fit {a b : Nat} (h : Fits (a + b)) : add64 a b = a + b := add64_eq h

theorem sub64_fit {a b : Nat} (h : b ≤ a) (ha : Fits a) : sub64 a b = a - b :=
  sub64_eq h ha

theorem sizeOfWord_fit (sz al : Nat) (h16 : sz % 16 = 0) (hal : al ≤ 1)
    (hf : Fits (sz + al)) : sizeOfWord (sz + al) = sz :=
  sizeOfWord_tag sz al h16 hal hf

/-! ## Memory accesses -/

theorem GET_valid {s : Heap} {p : Nat} (h : s.valid p) : GET s p = some (s.mem p) := by
  simp [GET, h]

theorem PUT_valid {s : Heap} {p : Nat} (v : Nat) (h : s.valid p) :
    PUT s p v = some (s.set p v) := by
  simp [PUT, h]

@[simp] theorem set_mem (s : Heap) (p v a : Nat) :
    (s.set p v).mem a = if a = p then v else s.mem a := rfl

@[simp] theorem set_lo (s : Heap) (p v : Nat) : (s.set p v).lo = s.lo := rfl
@[simp] theorem set_brk (s : Heap) (p v : Nat) : (s.set p v).brk = s.brk := rfl
@[simp] theorem set_max_addr (s : Heap) (p v : Nat) : (s.set p v).max_addr = s.max_addr := rfl
@[simp] theorem set_heap_listp (s : Heap) (p v : Nat) :
    (s.set p v).heap_listp = s.heap_listp := rfl
@[simp] theorem set_free_listp (s : Heap) (p v : Nat) :
    (s.set p v).free_listp = s.free_listp := rfl

@[simp] theorem set_valid (s : Heap) (p v a : Nat) : (s.set p v).valid a ↔ s.valid a := Iff.rfl

theorem GET_SIZE_valid {s : Heap} {p : Nat} (h : s.valid p) :
    GET_SIZE s p = some (sizeOfWord (s.mem p)) := by
  simp [GET_SIZE, GET_valid h]

theorem GET_ALLOC_valid {s : Heap} {p : Nat} (h : s.valid p) :
    GET_ALLOC s p = some (allocOfWord (s.mem p)) := by
  simp [GET_ALLOC, GET_valid h]

end MallocLab


namespace MallocLab

/-! ## Tilings -/

theorem Tile_append {a e : Nat} {l1 l2 : List Blk} :
    Tile a (l1 ++ l2) e ↔ ∃ m, Tile a l1 m ∧ Tile m l2 e := by
  induction l1 generalizing a with
  | nil => simp [Tile]
  | cons b r ih =>
    rw [List.cons_append]
    show (b.bp = a ∧ Tile (a + b.size) (r ++ l2) e) ↔
      ∃ m, (b.bp = a ∧ Tile (a + b.size) r m) ∧ Tile m l2 e
    rw [ih]
    constructor
    · rintro ⟨hb, m, h1, h2⟩; exact ⟨m, ⟨hb, h1⟩, h2⟩
    · rintro ⟨m, ⟨hb, h1⟩, h2⟩; exact ⟨hb, m, h1, h2⟩

theorem Tile_le {a e : Nat} {bs : List Blk} (h : Tile a bs e) : a ≤ e := by
  induction bs generalizing a with
  | nil => simp [Tile] at h; omega
  | cons b r ih =>
    obtain ⟨_, h2⟩ := h
    have := ih h2
    omega

theorem Tile_end {a e e' : Nat} {bs : List Blk} (h : Tile a bs e) (h' : Tile a bs e') :
    e = e' := by
  induction bs generalizing a with
  | nil => simp [Tile] at h h'; omega
  | cons b r ih => exact ih h.2 h'.2

theorem Tile_split {a e : Nat} {pre post : List Blk} {b : Blk}
    (h : Tile a (pre ++ b :: post) e) :
    Tile a pre b.bp ∧ Tile (b.bp + b.size) post e := by
  obtain ⟨m, h1, h2⟩ := Tile_append.1 h
  obtain ⟨hb, h3⟩ := h2
  subst hb
  exact ⟨h1, h3⟩

theorem Tile_join {a e : Nat} {pre post : List Blk} {b : Blk}
    (h1 : Tile a pre b.bp) (h2 : Tile (b.bp + b.size) post e) :
    Tile a (pre ++ b :: post) e :=
  Tile_append.2 ⟨b.bp, h1, rfl, h2⟩

theorem Tile_mem {a e : Nat} {bs : List Blk} (h : Tile a bs e) {b : Blk} (hb : b ∈ bs) :
    a ≤ b.bp ∧ b.bp + b.size ≤ e := by
  obtain ⟨pre, post, rfl⟩ := List.append_of_mem hb
  obtain ⟨h1, h2⟩ := Tile_split h
  exact ⟨Tile_le h1, Tile_le h2⟩

theorem Tile_pre {a e : Nat} {pre post : List Blk} {b c : Blk}
    (h : Tile a (pre ++ b :: post) e) (hc : c ∈ pre) : a ≤ c.bp ∧ c.bp + c.size ≤ b.bp :=
  Tile_mem (Tile_split h).1 hc

theorem Tile_post {a e : Nat} {pre post : List Blk} {b c : Blk}
    (h : Tile a (pre ++ b :: post) e) (hc : c ∈ post) :
    b.bp + b.size ≤ c.bp ∧ c.bp + c.size ≤ e :=
  Tile_mem (Tile_split h).2 hc

/-- Two blocks of a tiling are the same block or lie apart. -/
theorem Tile_apart {a e : Nat} {bs : List Blk} (h : Tile a bs e) {b c : Blk}
    (hb : b ∈ bs) (hc : c ∈ bs) :
    b = c ∨ b.bp + b.size ≤ c.bp ∨ c.bp + c.size ≤ b.bp := by
  obtain ⟨pre, post, rfl⟩ := List.append_of_mem hb
  rcases List.mem_append.1 hc with h1 | h1
  · exact Or.inr (Or.inr (Tile_pre h h1).2)
  · rcases List.mem_cons.1 h1 with h2 | h2
    · exact Or.inl h2.symm
    · exact Or.inr (Or.inl (Tile_post h h2).1)

theorem Tile_al {a e : Nat} {bs : List Blk} (h : Tile a bs e) (ha : a % 16 = 0)
    (hs : ∀ b ∈ bs, b.size % 16 = 0) : e % 16 = 0 ∧ ∀ b ∈ bs, b.bp % 16 = 0 := by
  induction bs generalizing a with
  | nil => simp [Tile] at h; subst h; simp [ha]
  | cons b r ih =>
    obtain ⟨hb, h2⟩ := h
    have hbs := hs b (List.mem_cons_self _ _)
    have := ih h2 (by omega) (fun c hc => hs c (List.mem_cons_of_mem _ hc))
    refine ⟨this.1, ?_⟩
    intro c hc
    rcases List.mem_cons.1 hc with h3 | h3
    · subst h3; omega
    · exact this.2 c h3

theorem Tile_length {a e : Nat} {bs : List Blk} (h : Tile a bs e)
    (hs : ∀ b ∈ bs, 32 ≤ b.size) : a + 32 * bs.length ≤ e := by
  induction bs generalizing a with
  | nil => simp [Tile] at h; simp; omega
  | cons b r ih =>
    obtain ⟨hb, h2⟩ := h
    have hbs := hs b (List.mem_cons_self _ _)
    have := ih h2 (fun c hc => hs c (List.mem_cons_of_mem _ hc))
    simp only [List.length_cons]
    omega

/-! ## Facts about the blocks of a well-shaped heap -/

theorem Geo.brk_lt {s : Heap} {bs : List Blk} {fl : List Nat} (hg : Geo s bs fl) :
    s.brk < 18446744073709551616 := by
  have := hg.brk_le; have := hg.max_lt; omega

theorem Geo.fits {s : Heap} {bs : List Blk} {fl : List Nat} (hg : Geo s bs fl) :
    Fits s.brk := hg.brk_lt

theorem Geo.brk_ge {s : Heap} {bs : List Blk} {fl : List Nat} (hg : Geo s bs fl) :
    s.lo + 64 ≤ s.brk := Tile_le hg.tile

theorem Geo.brk_al {s : Heap} {bs : List Blk} {fl : List Nat} (hg : Geo s bs fl) :
    s.brk % 16 = 0 :=
  (Tile_al hg.tile (by have := hg.lo_al; omega) (fun b hb => (hg.tag b hb).2.1)).1

theorem Geo.blk {s : Heap} {bs : List Blk} {fl : List Nat} (hg : Geo s bs fl)
    {b : Blk} (hb : b ∈ bs) : BlkAt s b := by
  obtain ⟨h32, h16, hal, hh, hf⟩ := hg.tag b hb
  have hm := Tile_mem hg.tile hb
  have ha := (Tile_al hg.tile (by have := hg.lo_al; omega)
    (fun b hb => (hg.tag b hb).2.1)).2 b hb
  exact ⟨ha, hm.1, hm.2, hg.fits, h32, h16, hal, hh, hf⟩

/-- A node of the free list is a block of the heap. -/
theorem Geo.node {s : Heap} {bs : List Blk} {fl : List Nat} (hg : Geo s bs fl)
    {x : Nat} (hx : x ∈ fl) :
    x % 16 = 0 ∧ s.lo + 64 ≤ x ∧ x + 32 ≤ s.brk := by
  obtain ⟨b, hb, rfl⟩ := hg.fl_blk x hx
  have := hg.blk hb
  exact ⟨this.al16, this.lo, by have h1 := this.hi; have h2 := this.sz32; omega⟩

/-- Blocks of the heap with the same block pointer are the same block. -/
theorem Geo.blk_inj {s : Heap} {bs : List Blk} {fl : List Nat} (hg : Geo s bs fl)
    {b c : Blk} (hb : b ∈ bs) (hc : c ∈ bs) (h : b.bp = c.bp) : b = c := by
  rcases Tile_apart hg.tile hb hc with h1 | h1 | h1
  · exact h1
  · have := (hg.blk hb).sz32; omega
  · have := (hg.blk hc).sz32; omega

/-! ## Linked lists in memory -/

theorem Linked_frame {m m' : Nat → Nat} {S p : Nat} {l : List Nat}
    (hf : ∀ x ∈ l, m' x = m x ∧ m' (x + 8) = m (x + 8)) (h : Linked m S p l) :
    Linked m' S p l := by
  induction l generalizing p with
  | nil => trivial
  | cons x xs ih =>
    obtain ⟨h1, h2, h3⟩ := h
    have hx := hf x (List.mem_cons_self _ _)
    exact ⟨by rw [hx.1, h1], by rw [hx.2, h2],
      ih (fun y hy => hf y (List.mem_cons_of_mem _ hy)) h3⟩

theorem headD_append (l1 l2 : List Nat) (S : Nat) :
    (l1 ++ l2).headD S = l1.headD (l2.headD S) := by
  cases l1 <;> simp

theorem Linked_append {m : Nat → Nat} {S p : Nat} {l1 l2 : List Nat} :
    Linked m S p (l1 ++ l2) ↔
      Linked m (l2.headD S) p l1 ∧ Linked m S (l1.getLastD p) l2 := by
  induction l1 generalizing p with
  | nil => simp [Linked]
  | cons x t ih =>
    rw [List.cons_append]
    show (m x = p ∧ m (x + 8) = (t ++ l2).headD S ∧ Linked m S x (t ++ l2)) ↔
      (m x = p ∧ m (x + 8) = t.headD (l2.headD S) ∧ Linked m (l2.headD S) x t) ∧
        Linked m S ((x :: t).getLastD p) l2
    rw [ih, headD_append, List.getLastD_cons]
    constructor
    · rintro ⟨h1, h2, h3, h4⟩; exact ⟨⟨h1, h2, h3⟩, h4⟩
    · rintro ⟨⟨h1, h2, h3⟩, h4⟩; exact ⟨h1, h2, h3, h4⟩

end MallocLab


namespace MallocLab

/-! ## The free list operations -/

theorem Geo.valid_node {s : Heap} {bs : List Blk} {fl : List Nat} (hg : Geo s bs fl)
    {x : Nat} (hx : x ∈ fl) : s.valid x ∧ s.valid (x + 8) := by
  have := hg.node hx
  unfold Heap.valid
  omega

theorem Geo.valid_sentinel {s : Heap} {bs : List Blk} {fl : List Nat} (hg : Geo s bs fl) :
    s.valid (s.lo + 16) := by
  have := hg.brk_ge; have := hg.lo_al
  unfold Heap.valid
  omega

theorem NEXT_PTR_eq {x : Nat} (h : x + 8 < 18446744073709551616) : NEXT_PTR x = x + 8 := by
  unfold NEXT_PTR; exact add64_eq h

theorem Geo.next_ptr {s : Heap} {bs : List Blk} {fl : List Nat} (hg : Geo s bs fl)
    {x : Nat} (hx : x ∈ fl) : NEXT_PTR x = x + 8 := by
  have := hg.node hx; have := hg.brk_lt
  exact NEXT_PTR_eq (by omega)

/-- The head of a list of nodes, or the sentinel, is a valid cell. -/
theorem Geo.valid_headD {s : Heap} {bs : List Blk} {fl : List Nat} (hg : Geo s bs fl)
    {l : List Nat} (hl : ∀ y ∈ l, y ∈ fl) : s.valid (l.headD (s.lo + 16)) := by
  cases l with
  | nil => exact hg.valid_sentinel
  | cons y t => exact (hg.valid_node (hl y (List.mem_cons_self _ _))).1

/-- The first payload words of a block are not tag cells. -/
theorem Geo.pay_not_tag {s : Heap} {bs : List Blk} {fl : List Nat} (hg : Geo s bs fl)
    {a : Nat} (ha : PayCell s bs a) :
    a ≠ s.lo + 8 ∧ a ≠ s.lo + 48 ∧ a ≠ s.brk - 8 ∧
      ∀ c ∈ bs, a ≠ c.bp - 8 ∧ a ≠ c.bp + c.size - 16 := by
  have hge := hg.brk_ge
  rcases ha with ha | ⟨b, hb, ha⟩
  · refine ⟨by omega, by omega, by omega, ?_⟩
    intro c hc
    have := hg.blk hc
    have h1 := this.lo; have h2 := this.sz32
    omega
  · have hB := hg.blk hb
    have h1 := hB.lo; have h2 := hB.sz32; have h3 := hB.hi
    refine ⟨by omega, by omega, by omega, ?_⟩
    intro c hc
    have hC := hg.blk hc
    have h4 := hC.lo; have h5 := hC.sz32; have h6 := hC.hi
    rcases Tile_apart hg.tile hb hc with h | h | h
    · subst h; omega
    · omega
    · omega

theorem Geo.link_pay {s : Heap} {bs : List Blk} {fl : List Nat} (hg : Geo s bs fl)
    {a : Nat} (ha : LinkCell s fl a) : PayCell s bs a := by
  rcases ha with ha | ⟨y, hy, ha⟩
  · exact Or.inl ha
  · obtain ⟨b, hb, rfl⟩ := hg.fl_blk y hy
    exact Or.inr ⟨b, hb, ha⟩

/-- A state that differs from a well-shaped one only in payload cells and in
`free_listp` is well-shaped as soon as its list is. -/
theorem Geo.rebuild {s s' : Heap} {bs : List Blk} {fl fl' : List Nat} (hg : Geo s bs fl)
    (hlo : s'.lo = s.lo) (hbrk : s'.brk = s.brk) (hmax : s'.max_addr = s.max_addr)
    (hhl : s'.heap_listp = s.heap_listp)
    (hm : ∀ a, ¬ PayCell s bs a → s'.mem a = s.mem a)
    (hblk : ∀ x ∈ fl', ∃ b ∈ bs, b.bp = x)
    (hflp : s'.free_listp = fl'.headD (s.lo + 16))
    (hlink : Linked s'.mem (s.lo + 16) 0 fl')
    (hback : fl' ≠ [] → s'.mem (s.lo + 16) = fl'.getLastD 0)
    (hnd : fl'.Nodup) : Geo s' bs fl' := by
  have hnt : ∀ a, (a = s.lo + 8 ∨ a = s.lo + 48 ∨ a = s.brk - 8 ∨
      ∃ c ∈ bs, a = c.bp - 8 ∨ a = c.bp + c.size - 16) → s'.mem a = s.mem a := by
    intro a ha
    apply hm
    intro hl
    have := hg.pay_not_tag hl
    rcases ha with ha | ha | ha | ⟨c, hc, ha⟩
    · exact this.1 ha
    · exact this.2.1 ha
    · exact this.2.2.1 ha
    · rcases ha with ha | ha
      · exact (this.2.2.2 c hc).1 ha
      · exact (this.2.2.2 c hc).2 ha
  refine ⟨by rw [hlo]; exact hg.lo_pos, by rw [hlo]; exact hg.lo_al,
    by rw [hbrk, hmax]; exact hg.brk_le, by rw [hmax]; exact hg.max_lt,
    by rw [hhl, hlo]; exact hg.hlp, ?_, ?_, ?_, by rw [hlo, hbrk]; exact hg.tile, ?_,
    by rw [hlo]; exact hflp, by rw [hlo]; exact hlink, by rw [hlo]; exact hback, hnd,
    hblk⟩
  · rw [hlo, hnt _ (Or.inl rfl)]; exact hg.pro
  · rw [hlo, hnt _ (Or.inr (Or.inl rfl))]; exact hg.pad
  · rw [hbrk, hnt _ (Or.inr (Or.inr (Or.inl rfl)))]; exact hg.epi
  · intro c hc
    obtain ⟨h32, h16, hal, hh, hf⟩ := hg.tag c hc
    refine ⟨h32, h16, hal, ?_, ?_⟩
    · rw [hnt _ (Or.inr (Or.inr (Or.inr ⟨c, hc, Or.inl rfl⟩)))]; exact hh
    · rw [hnt _ (Or.inr (Or.inr (Or.inr ⟨c, hc, Or.inr rfl⟩)))]; exact hf

/-- A state that differs from a well-shaped one only in link cells and in
`free_listp` is well-shaped as soon as its list is. -/
theorem Geo.relink {s s' : Heap} {bs : List Blk} {fl fl' : List Nat} (hg : Geo s bs fl)
    (hlo : s'.lo = s.lo) (hbrk : s'.brk = s.brk) (hmax : s'.max_addr = s.max_addr)
    (hhl : s'.heap_listp = s.heap_listp)
    (hm : ∀ a, ¬ LinkCell s fl a → s'.mem a = s.mem a)
    (hsub : ∀ x ∈ fl', x ∈ fl)
    (hflp : s'.free_listp = fl'.headD (s.lo + 16))
    (hlink : Linked s'.mem (s.lo + 16) 0 fl')
    (hback : fl' ≠ [] → s'.mem (s.lo + 16) = fl'.getLastD 0)
    (hnd : fl'.Nodup) : Geo s' bs fl' := by
  have hm' : ∀ a, ¬ PayCell s bs a → s'.mem a = s.mem a := by
    intro a ha
    by_cases hl : LinkCell s fl a
    · exact absurd (hg.link_pay hl) ha
    · exact hm a hl
  exact hg.rebuild hlo hbrk hmax hhl hm' (fun x hx => hg.fl_blk x (hsub x hx)) hflp hlink
    hback hnd

end MallocLab


namespace MallocLab

theorem getLastD_concat (l : List Nat) (p d : Nat) : (l ++ [p]).getLastD d = p := by
  induction l generalizing d with
  | nil => rfl
  | cons x t ih => rw [List.cons_append, List.getLastD_cons]; exact ih x

theorem getLastD_append_cons (l1 l2 : List Nat) (x d : Nat) :
    (l1 ++ x :: l2).getLastD d = l2.getLastD x := by
  induction l1 generalizing d with
  | nil => rw [List.nil_append, List.getLastD_cons]
  | cons y t ih => rw [List.cons_append, List.getLastD_cons]; exact ih y

theorem getLastD_append_ne (l1 l2 : List Nat) (d : Nat) (h : l2 ≠ []) :
    (l1 ++ l2).getLastD d = l2.getLastD 0 := by
  cases l2 with
  | nil => exact absurd rfl h
  | cons y t => rw [getLastD_append_cons, List.getLastD_cons]

theorem set_mem_ne {s : Heap} {p v a : Nat} (h : a ≠ p) : (s.set p v).mem a = s.mem a :=
  if_neg h

theorem set_mem_eq {s : Heap} {p v : Nat} : (s.set p v).mem p = v := if_pos rfl

theorem headD_ne_nil {l : List Nat} (h : l ≠ []) (d d' : Nat) : l.headD d = l.headD d' := by
  cases l with
  | nil => exact absurd rfl h
  | cons y t => rfl

/-- The head of a list of nodes, or the sentinel, is a link cell. -/
theorem linkCell_headD {s : Heap} {fl l : List Nat} (hl : ∀ y ∈ l, y ∈ fl) :
    LinkCell s fl (l.headD (s.lo + 16)) := by
  cases l with
  | nil => exact Or.inl rfl
  | cons y t => exact Or.inr ⟨y, hl y (List.mem_cons_self _ _), Or.inl rfl⟩

/-- Deleting a node of the free list unlinks it and touches link cells
only. -/
theorem delete_spec {s : Heap} {bs : List Blk} {fl : List Nat} (hg : Geo s bs fl)
    {x : Nat} (hx : x ∈ fl) :
    ∃ s', delete_block_from_list s x = some s' ∧ Geo s' bs (fl.erase x) ∧
      s'.lo = s.lo ∧ s'.brk = s.brk ∧ s'.max_addr = s.max_addr ∧
      s'.heap_listp = s.heap_listp ∧
      (∀ a, ¬ LinkCell s fl a → s'.mem a = s.mem a) := by
  obtain ⟨l1, l2, hfl⟩ := List.append_of_mem hx
  have hnd := hg.nodup
  rw [hfl] at hnd
  have hnd' := List.nodup_append.1 hnd
  have hx1 : x ∉ l1 := fun h => hnd'.2.2 h (List.mem_cons_self _ _)
  have hx2 : x ∉ l2 := (List.nodup_cons.1 hnd'.2.1).1
  have hdis : ∀ z ∈ l1, z ∉ l2 := fun z hz h => hnd'.2.2 hz (List.mem_cons_of_mem _ h)
  have her : fl.erase x = l1 ++ l2 := by
    rw [hfl, List.erase_append_right _ hx1, List.erase_cons_head]
  have hnd2 : (l1 ++ l2).Nodup := by rw [← her]; exact hg.nodup.erase x
  have hsub : ∀ y ∈ l1 ++ l2, y ∈ fl := by
    intro y hy; rw [← her] at hy; exact List.mem_of_mem_erase hy
  have hm1 : ∀ y ∈ l1, y ∈ fl := fun y hy => hsub y (List.mem_append_left _ hy)
  have hm2 : ∀ y ∈ l2, y ∈ fl := fun y hy => hsub y (List.mem_append_right _ hy)
  have hN : ∀ z ∈ fl, z % 16 = 0 ∧ s.lo + 64 ≤ z ∧ z + 32 ≤ s.brk := fun z hz => hg.node hz
  have hlk := hg.link
  rw [hfl] at hlk
  obtain ⟨hl1, hxp, hxn, hl2⟩ := Linked_append.1 hlk
  have hvx := hg.valid_node hx
  have hnx := hg.next_ptr hx
  have hXn := hg.node hx
  have hvn : s.valid (l2.headD (s.lo + 16)) := hg.valid_headD hm2
  have hnL : LinkCell s fl (l2.headD (s.lo + 16)) := linkCell_headD hm2
  have hlo := hg.lo_al
  have hflne : fl ≠ [] := by rw [hfl]; simp
  have hbk := hg.back hflne
  rw [hfl, getLastD_append_cons] at hbk
  rw [her]
  -- what the second link list needs, for any memory that agrees with the old one on it
  have hsecond : ∀ (m' : Nat → Nat) (pv : Nat),
      (∀ z ∈ l2, m' (z + 8) = s.mem (z + 8)) →
      (∀ z ∈ l2, z ≠ l2.headD (s.lo + 16) → m' z = s.mem z) →
      (m' (l2.headD (s.lo + 16)) = pv) → Linked m' (s.lo + 16) pv l2 := by
    intro m' pv h8 h0 hh
    cases l2 with
    | nil => trivial
    | cons y t =>
      obtain ⟨_, h2, h3⟩ := hl2
      have hyt : y ∉ t := (List.nodup_cons.1 (List.nodup_cons.1 hnd'.2.1).2).1
      refine ⟨hh, ?_, ?_⟩
      · rw [h8 y (List.mem_cons_self _ _)]; exact h2
      · apply Linked_frame _ h3
        intro z hz
        have hzy : z ≠ y := fun h => hyt (h ▸ hz)
        exact ⟨h0 z (List.mem_cons_of_mem _ hz) hzy, h8 z (List.mem_cons_of_mem _ hz)⟩
  obtain ⟨n, hn⟩ : ∃ n, n = l2.headD (s.lo + 16) := ⟨_, rfl⟩
  rw [← hn] at hxn hvn hnL hsecond
  have hnal : n % 16 = 0 ∧ s.lo + 16 ≤ n := by
    rw [hn]
    cases l2 with
    | nil => exact ⟨by simp only [List.headD_nil]; omega, Nat.le_refl _⟩
    | cons y t =>
      have := hN y (hm2 y (List.mem_cons_self _ _))
      simp only [List.headD_cons]; omega
  rcases List.eq_nil_or_concat l1 with h1 | ⟨l1', p, h1⟩
  · -- the node is the head of the list
    subst h1
    simp only [List.getLastD_nil] at hxp
    refine ⟨({ s with free_listp := n } : Heap).set n 0, ?_, ?_, rfl, rfl, rfl, rfl, ?_⟩
    · unfold delete_block_from_list
      simp only [Heap.valid] at hvx hvn
      simp only [PREV_PTR, hnx, GET, PUT, Heap.valid, hvx, hvn, hxp, hxn, Run.some_bind,
        if_true, Run.pure_eq, and_self, NULL]
    · have hmem : ∀ a, a ≠ n → (({ s with free_listp := n } : Heap).set n 0).mem a = s.mem a :=
        fun a ha => set_mem_ne ha
      refine hg.relink rfl rfl rfl rfl ?_ hsub ?_ ?_ ?_ hnd2
      · intro a ha
        exact hmem a (fun h => ha (h ▸ hnL))
      · rw [List.nil_append, ← hn]; rfl
      · rw [List.nil_append]
        apply hsecond
        · intro z hz
          have := hN z (hm2 z hz)
          exact hmem _ (by omega)
        · intro z hz hzn; exact hmem _ hzn
        · exact set_mem_eq
      · intro hne
        rw [List.nil_append] at hne ⊢
        have hns : s.lo + 16 ≠ n := by
          rw [hn]
          cases l2 with
          | nil => exact absurd rfl hne
          | cons y t =>
            have := hN y (hm2 y (List.mem_cons_self _ _))
            simp only [List.headD_cons]; omega
        rw [hmem _ hns, hbk]
        cases l2 with
        | nil => exact absurd rfl hne
        | cons y t => rw [List.getLastD_cons, List.getLastD_cons]
    · intro a ha
      exact set_mem_ne (fun h => ha (h ▸ hnL))
  · -- the node has a predecessor `p` in the list
    rw [List.concat_eq_append] at h1
    subst h1
    rw [getLastD_concat] at hxp
    have hpfl : p ∈ fl := hm1 p (by simp)
    have hP := hN p hpfl
    have hvp := hg.valid_node hpfl
    have hnp := hg.next_ptr hpfl
    have hpx : p ≠ x := fun h => hx1 (h ▸ (by simp))
    have hpn : p ≠ n := by
      rw [hn]
      cases l2 with
      | nil => simp only [List.headD_nil]; omega
      | cons y t =>
        simp only [List.headD_cons]
        intro h
        exact hdis p (by simp) (h ▸ List.mem_cons_self _ _)
    have hp0 : p ≠ 0 := by omega
    refine ⟨(s.set (p + 8) n).set n p, ?_, ?_, rfl, rfl, rfl, rfl, ?_⟩
    · unfold delete_block_from_list
      simp only [Heap.valid] at hvx hvn hvp
      have e1 : ¬ (x + 8 = p + 8) := by omega
      have e2 : ¬ (x = p + 8) := by omega
      simp only [PREV_PTR, hnx, hnp, GET, PUT, Heap.valid, hvx, hvn, hvp, hxp, hxn,
        Run.some_bind, if_true, Run.pure_eq, and_self, NULL, hp0, if_false, set_mem,
        set_lo, set_brk, e1, e2]
    · have hmem : ∀ a, a ≠ n → a ≠ p + 8 → ((s.set (p + 8) n).set n p).mem a = s.mem a :=
        fun a h1 h2 => by rw [set_mem_ne h1, set_mem_ne h2]
      have hmn : ((s.set (p + 8) n).set n p).mem n = p := set_mem_eq
      have hmp : ((s.set (p + 8) n).set n p).mem (p + 8) = n := by
        rw [set_mem_ne (by omega), set_mem_eq]
      obtain ⟨hl1a, hl1b, hl1c, _⟩ := Linked_append.1 hl1
      have hndl1 := List.nodup_append.1 hnd'.1
      have hpl1' : p ∉ l1' := fun h => hndl1.2.2 h (List.mem_cons_self _ _)
      refine hg.relink rfl rfl rfl rfl ?_ hsub ?_ ?_ ?_ hnd2
      · intro a ha
        exact hmem a (fun h => ha (h ▸ hnL))
          (fun h => ha (Or.inr ⟨p, hpfl, Or.inr h⟩))
      · show s.free_listp = _
        rw [hg.flp, hfl, headD_append (l1' ++ [p]), headD_append (l1' ++ [p])]
        exact headD_ne_nil (l := l1' ++ [p]) (by simp) _ _
      · apply Linked_append.2
        rw [getLastD_concat, ← hn]
        refine ⟨Linked_append.2 ⟨?_, ?_, ?_, trivial⟩, ?_⟩
        · apply Linked_frame _ hl1a
          intro z hz
          have hzfl := hm1 z (by simp [hz])
          have hZ := hN z hzfl
          have hzp : z ≠ p := fun h => hpl1' (h ▸ hz)
          have hzn : z ≠ n := by
            rw [hn]
            cases l2 with
            | nil => simp only [List.headD_nil]; omega
            | cons y t =>
              simp only [List.headD_cons]
              intro h
              exact hdis z (by simp [hz]) (h ▸ List.mem_cons_self _ _)
          exact ⟨hmem _ hzn (by omega), hmem _ (by omega) (by omega)⟩
        · rw [hmem _ hpn (by omega)]; exact hl1b
        · exact hmp
        · apply hsecond
          · intro z hz
            have hZ := hN z (hm2 z hz)
            have hzp : z ≠ p := fun h => hdis p (by simp) (h ▸ hz)
            exact hmem _ (by omega) (by omega)
          · intro z hz hzn
            have hZ := hN z (hm2 z hz)
            exact hmem _ hzn (by omega)
          · exact hmn
      · intro _
        cases l2 with
        | nil =>
          simp only [List.headD_nil] at hn
          rw [List.append_nil, getLastD_concat, ← hn]
          exact hmn
        | cons y t =>
          have hY := hN y (hm2 y (List.mem_cons_self _ _))
          simp only [List.headD_cons] at hn
          rw [hmem _ (by omega) (by omega), hbk, getLastD_append_cons, List.getLastD_cons]
    · intro a ha
      have h1 : a ≠ n := fun h => ha (h ▸ hnL)
      have h2 : a ≠ p + 8 := fun h => ha (Or.inr ⟨p, hpfl, Or.inr h⟩)
      rw [set_mem_ne h1, set_mem_ne h2]

end MallocLab


namespace MallocLab

/-- Adding a block to the free list puts it at the head and touches link
cells only. -/
theorem add_spec {s : Heap} {bs : List Blk} {fl : List Nat} (hg : Geo s bs fl)
    {x : Nat} (hb : ∃ b ∈ bs, b.bp = x) (hx : x ∉ fl) :
    ∃ s', add_block_to_list s x = some s' ∧ Geo s' bs (x :: fl) ∧
      s'.lo = s.lo ∧ s'.brk = s.brk ∧ s'.max_addr = s.max_addr ∧
      s'.heap_listp = s.heap_listp ∧
      (∀ a, ¬ LinkCell s (x :: fl) a → s'.mem a = s.mem a) := by
  obtain ⟨b, hbm, hbx⟩ := hb
  have hB := hg.blk hbm
  have hX : x % 16 = 0 ∧ s.lo + 64 ≤ x ∧ x + 32 ≤ s.brk := by
    have h0 := hB.al16; have h1 := hB.hi; have h2 := hB.sz32; have h3 := hB.lo
    rw [hbx] at h0 h1 h3
    exact ⟨h0, h3, by omega⟩
  have hN : ∀ z ∈ fl, z % 16 = 0 ∧ s.lo + 64 ≤ z ∧ z + 32 ≤ s.brk := fun z hz => hg.node hz
  have hlo := hg.lo_al
  have hlt := hg.brk_lt
  have hge := hg.brk_ge
  have hnx : NEXT_PTR x = x + 8 := NEXT_PTR_eq (by omega)
  have hvf : s.valid (fl.headD (s.lo + 16)) := hg.valid_headD (fun y hy => hy)
  obtain ⟨n, hn⟩ : ∃ n, n = fl.headD (s.lo + 16) := ⟨_, rfl⟩
  have hflp := hg.flp
  rw [← hn] at hvf hflp
  have hnal : n % 16 = 0 ∧ s.lo + 16 ≤ n ∧ n ≠ x := by
    rw [hn]
    cases fl with
    | nil => simp only [List.headD_nil]; omega
    | cons y t =>
      have := hN y (List.mem_cons_self _ _)
      simp only [List.headD_cons]
      refine ⟨this.1, by omega, ?_⟩
      intro h; exact hx (h ▸ List.mem_cons_self _ _)
  have hnL : LinkCell s (x :: fl) n := by
    rw [hn]; exact linkCell_headD (fun y hy => List.mem_cons_of_mem _ hy)
  refine ⟨{ ((s.set (x + 8) n).set n x).set x 0 with free_listp := x }, ?_, ?_,
    rfl, rfl, rfl, rfl, ?_⟩
  · unfold add_block_to_list
    have hv1 : (x + 8) % 8 = 0 ∧ s.lo ≤ x + 8 ∧ x + 8 + 8 ≤ s.brk := by omega
    have hv2 : x % 8 = 0 ∧ s.lo ≤ x ∧ x + 8 ≤ s.brk := by omega
    simp only [Heap.valid] at hvf
    simp only [PREV_PTR, hnx, PUT, Heap.valid, hflp, hv1, hv2, hvf, Run.some_bind, if_true,
      Run.pure_eq, and_self, NULL, set_lo, set_brk, set_free_listp]
  · have hmem : ∀ a, a ≠ x → a ≠ n → a ≠ x + 8 →
        ({ ((s.set (x + 8) n).set n x).set x 0 with free_listp := x } : Heap).mem a
          = s.mem a := by
      intro a h1 h2 h3
      show (((s.set (x + 8) n).set n x).set x 0).mem a = s.mem a
      rw [set_mem_ne h1, set_mem_ne h2, set_mem_ne h3]
    have hmx : ({ ((s.set (x + 8) n).set n x).set x 0 with free_listp := x } : Heap).mem x
        = 0 := set_mem_eq
    have hmn : ({ ((s.set (x + 8) n).set n x).set x 0 with free_listp := x } : Heap).mem n
        = x := by
      show (((s.set (x + 8) n).set n x).set x 0).mem n = x
      rw [set_mem_ne hnal.2.2, set_mem_eq]
    have hmx8 : ({ ((s.set (x + 8) n).set n x).set x 0 with free_listp := x } : Heap).mem
        (x + 8) = n := by
      show (((s.set (x + 8) n).set n x).set x 0).mem (x + 8) = n
      rw [set_mem_ne (by omega), set_mem_ne (by omega), set_mem_eq]
    refine hg.rebuild rfl rfl rfl rfl ?_ ?_ rfl ?_ ?_ (List.nodup_cons.2 ⟨hx, hg.nodup⟩)
    · intro a ha
      have h1 : a ≠ x := fun h => ha (Or.inr ⟨b, hbm, Or.inl (h.trans hbx.symm)⟩)
      have h3 : a ≠ x + 8 := fun h => ha (Or.inr ⟨b, hbm, Or.inr (by rw [hbx]; exact h)⟩)
      have h2 : a ≠ n := by
        intro h
        apply ha
        rw [h, hn]
        exact hg.link_pay (linkCell_headD (fun y hy => hy))
      exact hmem a h1 h2 h3
    · intro y hy
      rcases List.mem_cons.1 hy with h | h
      · exact ⟨b, hbm, hbx.trans h.symm⟩
      · exact hg.fl_blk y h
    · refine ⟨hmx, by rw [hmx8, hn], ?_⟩
      have hlk := hg.link
      cases fl with
      | nil => trivial
      | cons y t =>
        obtain ⟨h1, h2, h3⟩ := hlk
        simp only [List.headD_cons] at hn
        subst hn
        have hY := hN n (List.mem_cons_self _ _)
        have hnt : n ∉ t := (List.nodup_cons.1 hg.nodup).1
        refine ⟨hmn, ?_, ?_⟩
        · rw [hmem _ (by omega) (by omega) (by omega)]; exact h2
        · apply Linked_frame _ h3
          intro z hz
          have hZ := hN z (List.mem_cons_of_mem _ hz)
          have hzx : z ≠ x := fun h => hx (h ▸ List.mem_cons_of_mem _ hz)
          have hzn : z ≠ n := fun h => hnt (h ▸ hz)
          exact ⟨hmem _ hzx hzn (by omega), hmem _ (by omega) (by omega) (by omega)⟩
    · intro _
      rw [List.getLastD_cons]
      cases fl with
      | nil =>
        simp only [List.headD_nil] at hn
        rw [List.getLastD_nil, ← hn]; exact hmn
      | cons y t =>
        simp only [List.headD_cons] at hn
        have hY := hN y (List.mem_cons_self _ _)
        rw [hmem _ (by omega) (by omega) (by omega), hg.back (by simp),
          List.getLastD_cons, List.getLastD_cons]
  · intro a ha
    have h1 : a ≠ x := fun h => ha (Or.inr ⟨x, List.mem_cons_self _ _, Or.inl h⟩)
    have h3 : a ≠ x + 8 := fun h => ha (Or.inr ⟨x, List.mem_cons_self _ _, Or.inr h⟩)
    have h2 : a ≠ n := fun h => ha (h ▸ hnL)
    show (((s.set (x + 8) n).set n x).set x 0).mem a = s.mem a
    rw [set_mem_ne h1, set_mem_ne h2, set_mem_ne h3]

end MallocLab


namespace MallocLab

/-! ## Reading tags -/

theorem HDRP_eq {bp : Nat} (h8 : 8 ≤ bp) (hlt : Fits bp) : HDRP bp = bp - 8 := by
  unfold HDRP; simp only [WSIZE]; exact sub64_fit h8 hlt

theorem GET_SIZE_of {s : Heap} {a sz al : Nat} (hv : s.valid a) (hm : s.mem a = sz + al)
    (h16 : sz % 16 = 0) (hal : al ≤ 1) (hlt : Fits (sz + al)) :
    GET_SIZE s a = some sz := by
  rw [GET_SIZE_valid hv, hm, sizeOfWord_fit sz al h16 hal hlt]

theorem GET_ALLOC_of {s : Heap} {a sz al : Nat} (hv : s.valid a) (hm : s.mem a = sz + al)
    (h16 : sz % 16 = 0) (hal : al ≤ 1) : GET_ALLOC s a = some al := by
  rw [GET_ALLOC_valid hv, hm, allocOfWord_tag sz al h16 hal]

theorem FTRP_of {s : Heap} {bp sz al : Nat} (hv : s.valid (bp - 8)) (h8 : 8 ≤ bp)
    (hm : s.mem (bp - 8) = sz + al) (h16 : sz % 16 = 0) (hal : al ≤ 1)
    (hge : 16 ≤ bp + sz) (hlt : Fits (bp + sz + al)) :
    FTRP s bp = some (bp + sz - 16) := by
  unfold FTRP
  simp only [DSIZE, WSIZE]
  rw [HDRP_eq h8 (hlt.mono (by omega)), GET_SIZE_of hv hm h16 hal (hlt.mono (by omega))]
  simp only [Run.some_bind, Run.pure_eq]
  rw [add64_fit (hlt.mono (by omega)), sub64_fit (by omega) (hlt.mono (by omega))]

theorem NEXT_BLKP_of {s : Heap} {bp sz al : Nat} (hv : s.valid (bp - 8)) (h8 : 8 ≤ bp)
    (hm : s.mem (bp - 8) = sz + al) (h16 : sz % 16 = 0) (hal : al ≤ 1)
    (hlt : Fits (bp + sz + al)) :
    NEXT_BLKP s bp = some (bp + sz) := by
  unfold NEXT_BLKP
  simp only [DSIZE, WSIZE]
  rw [sub64_fit (by omega) (hlt.mono (by omega)),
    GET_SIZE_of hv hm h16 hal (hlt.mono (by omega))]
  simp only [Run.some_bind, Run.pure_eq]
  rw [add64_fit (hlt.mono (by omega))]

theorem PREV_BLKP_of {s : Heap} {bp sz al : Nat} (hv : s.valid (bp - 16)) (h16' : 16 ≤ bp)
    (hm : s.mem (bp - 16) = sz + al) (h16 : sz % 16 = 0) (hal : al ≤ 1)
    (hle : sz + al ≤ bp) (hlt : Fits bp) :
    PREV_BLKP s bp = some (bp - sz) := by
  unfold PREV_BLKP
  simp only [DSIZE, WSIZE]
  rw [sub64_fit (by omega) hlt, GET_SIZE_of hv hm h16 hal (hlt.mono (by omega))]
  simp only [Run.some_bind, Run.pure_eq]
  rw [sub64_fit (by omega) hlt]

/-! ## Cells of a block -/

theorem BlkAt.valid_hd {s : Heap} {b : Blk} (h : BlkAt s b) : s.valid (b.bp - 8) := by
  have h1 := h.al16; have h2 := h.lo; have h3 := h.hi; have h4 := h.sz32
  unfold Heap.valid; omega

theorem BlkAt.valid_ft {s : Heap} {b : Blk} (h : BlkAt s b) :
    s.valid (b.bp + b.size - 16) := by
  have h1 := h.al16; have h2 := h.lo; have h3 := h.hi; have h4 := h.sz32; have h5 := h.sz16
  unfold Heap.valid; omega

theorem BlkAt.valid_pay {s : Heap} {b : Blk} (h : BlkAt s b) :
    s.valid b.bp ∧ s.valid (b.bp + 8) := by
  have h1 := h.al16; have h2 := h.lo; have h3 := h.hi; have h4 := h.sz32
  unfold Heap.valid; omega

theorem BlkAt.fit_end {s : Heap} {b : Blk} (h : BlkAt s b) : Fits (b.bp + b.size) :=
  h.fit.mono h.hi

theorem BlkAt.fit_tag {s : Heap} {b : Blk} (h : BlkAt s b) : Fits (b.size + b.al) := by
  have h1 := h.lo; have h2 := h.hi; have h3 := h.al1
  exact h.fit.mono (by omega)

theorem BlkAt.get_size {s : Heap} {b : Blk} (h : BlkAt s b) :
    GET_SIZE s (b.bp - 8) = some b.size :=
  GET_SIZE_of h.valid_hd h.hd h.sz16 h.al1 h.fit_tag

theorem BlkAt.get_alloc {s : Heap} {b : Blk} (h : BlkAt s b) :
    GET_ALLOC s (b.bp - 8) = some b.al :=
  GET_ALLOC_of h.valid_hd h.hd h.sz16 h.al1

theorem BlkAt.get_size_ft {s : Heap} {b : Blk} (h : BlkAt s b) :
    GET_SIZE s (b.bp + b.size - 16) = some b.size :=
  GET_SIZE_of h.valid_ft h.ft h.sz16 h.al1 h.fit_tag

theorem BlkAt.get_alloc_ft {s : Heap} {b : Blk} (h : BlkAt s b) :
    GET_ALLOC s (b.bp + b.size - 16) = some b.al :=
  GET_ALLOC_of h.valid_ft h.ft h.sz16 h.al1

theorem BlkAt.hdrp {s : Heap} {b : Blk} (h : BlkAt s b) : HDRP b.bp = b.bp - 8 := by
  have h2 := h.lo
  exact HDRP_eq (by omega) (h.fit_end.mono (by omega))

theorem BlkAt.ftrp {s : Heap} {b : Blk} (h : BlkAt s b) :
    FTRP s b.bp = some (b.bp + b.size - 16) := by
  unfold FTRP
  simp only [DSIZE, WSIZE]
  have h2 := h.lo; have h6 := h.sz32
  rw [h.hdrp, h.get_size]
  simp only [Run.some_bind, Run.pure_eq]
  rw [add64_fit h.fit_end, sub64_fit (by omega) h.fit_end]

theorem BlkAt.next_blkp {s : Heap} {b : Blk} (h : BlkAt s b) :
    NEXT_BLKP s b.bp = some (b.bp + b.size) := by
  unfold NEXT_BLKP
  simp only [DSIZE, WSIZE]
  have h2 := h.lo
  rw [sub64_fit (by omega) (h.fit_end.mono (by omega)), h.get_size]
  simp only [Run.some_bind, Run.pure_eq]
  rw [add64_fit h.fit_end]

/-- From the block after `b`, `PREV_BLKP` leads back to `b`. -/
theorem BlkAt.prev_blkp {s : Heap} {b : Blk} (h : BlkAt s b) :
    PREV_BLKP s (b.bp + b.size) = some b.bp := by
  unfold PREV_BLKP
  simp only [DSIZE, WSIZE]
  have h2 := h.lo; have h6 := h.sz32
  rw [sub64_fit (by omega) h.fit_end, h.get_size_ft]
  simp only [Run.some_bind, Run.pure_eq]
  rw [sub64_fit (by omega) h.fit_end, Nat.add_sub_cancel]

/-- A block with the tags of `b` rewritten by hand is read like a block. -/
theorem BlkAt.of_tags {s t : Heap} {b c : Blk} (h : BlkAt s b) (hlo : t.lo = s.lo)
    (hbrk : t.brk = s.brk) (hbp : c.bp = b.bp) (hsz : c.size = b.size) (hal : c.al ≤ 1)
    (hh : t.mem (c.bp - 8) = c.size + c.al)
    (hf : t.mem (c.bp + c.size - 16) = c.size + c.al) : BlkAt t c := by
  refine ⟨by rw [hbp]; exact h.al16, by rw [hbp, hlo]; exact h.lo,
    by rw [hbp, hsz, hbrk]; exact h.hi, by rw [hbrk]; exact h.fit,
    by rw [hsz]; exact h.sz32, by rw [hsz]; exact h.sz16, hal, hh, hf⟩

/-! ## Rebuilding the shape after tags were rewritten -/

/-- A state that differs from a well-shaped one only outside the payload
cells and the sentinel cells is well-shaped for every tiling that its tags
describe. -/
theorem Geo.retile {s s' : Heap} {bs bs' : List Blk} {fl : List Nat} (hg : Geo s bs fl)
    (hlo : s'.lo = s.lo) (hbrk : s'.brk = s.brk) (hmax : s'.max_addr = s.max_addr)
    (hhl : s'.heap_listp = s.heap_listp) (hfl : s'.free_listp = s.free_listp)
    (hm : ∀ a, (PayCell s bs a ∨ a = s.lo + 8 ∨ a = s.lo + 48 ∨ a = s.brk - 8) →
      s'.mem a = s.mem a)
    (htile : Tile (s.lo + 64) bs' s.brk) (htag : ∀ c ∈ bs', Tagged s'.mem c)
    (hblk : ∀ x ∈ fl, ∃ c ∈ bs', c.bp = x) : Geo s' bs' fl := by
  refine ⟨by rw [hlo]; exact hg.lo_pos, by rw [hlo]; exact hg.lo_al,
    by rw [hbrk, hmax]; exact hg.brk_le, by rw [hmax]; exact hg.max_lt,
    by rw [hhl, hlo]; exact hg.hlp, ?_, ?_, ?_, by rw [hlo, hbrk]; exact htile, htag,
    by rw [hlo, hfl]; exact hg.flp, ?_, ?_, hg.nodup, hblk⟩
  · rw [hlo, hm _ (Or.inr (Or.inl rfl))]; exact hg.pro
  · rw [hlo, hm _ (Or.inr (Or.inr (Or.inl rfl)))]; exact hg.pad
  · rw [hbrk, hm _ (Or.inr (Or.inr (Or.inr rfl)))]; exact hg.epi
  · rw [hlo]
    apply Linked_frame _ hg.link
    intro x hx
    obtain ⟨b, hb, hbx⟩ := hg.fl_blk x hx
    exact ⟨hm _ (Or.inl (Or.inr ⟨b, hb, Or.inl hbx.symm⟩)),
      hm _ (Or.inl (Or.inr ⟨b, hb, Or.inr (by rw [hbx])⟩))⟩
  · intro hne
    rw [hlo, hm _ (Or.inl (Or.inl rfl))]
    exact hg.back hne

end MallocLab


namespace MallocLab

/-! ## Merging and re-tagging blocks -/

theorem cells_before {cbp csz x sz : Nat} (h1 : cbp + csz ≤ x) (h2 : 32 ≤ csz)
    (h3 : 8 ≤ cbp) (h4 : 32 ≤ sz) :
    cbp - 8 ≠ x - 8 ∧ cbp - 8 ≠ x + sz - 16 ∧
      cbp + csz - 16 ≠ x - 8 ∧ cbp + csz - 16 ≠ x + sz - 16 := by
  omega

theorem cells_after {cbp csz x sz : Nat} (h1 : x + sz ≤ cbp) (h2 : 32 ≤ csz)
    (h3 : 8 ≤ x) (h4 : 32 ≤ sz) :
    cbp - 8 ≠ x - 8 ∧ cbp - 8 ≠ x + sz - 16 ∧
      cbp + csz - 16 ≠ x - 8 ∧ cbp + csz - 16 ≠ x + sz - 16 := by
  omega

theorem Tagged_frame {m m' : Nat → Nat} {c : Blk} (h : Tagged m c)
    (h1 : m' (c.bp - 8) = m (c.bp - 8))
    (h2 : m' (c.bp + c.size - 16) = m (c.bp + c.size - 16)) : Tagged m' c := by
  obtain ⟨t1, t2, t3, t4, t5⟩ := h
  exact ⟨t1, t2, t3, by rw [h1]; exact t4, by rw [h2]; exact t5⟩

/-- The blocks `mid`, which lie one after the other from `x` on and take
`sz` bytes together, are replaced by one block with the tag `sz + al`, written
into the header of the first and the footer of the last of them. -/
theorem Geo.merge {s s' : Heap} {pre mid post : List Blk} {fl : List Nat} {x sz al : Nat}
    (hg : Geo s (pre ++ mid ++ post) fl)
    (hlo : s'.lo = s.lo) (hbrk : s'.brk = s.brk) (hmax : s'.max_addr = s.max_addr)
    (hhl : s'.heap_listp = s.heap_listp) (hflp : s'.free_listp = s.free_listp)
    (hne : mid ≠ []) (hT : Tile x mid (x + sz)) (hal : al ≤ 1)
    (hmem : ∀ a, a ≠ x - 8 → a ≠ x + sz - 16 → s'.mem a = s.mem a)
    (hh : s'.mem (x - 8) = sz + al) (hf : s'.mem (x + sz - 16) = sz + al)
    (hfl : ∀ c ∈ mid, c.bp ∈ fl → c.bp = x) :
    Geo s' (pre ++ ⟨x, sz, al⟩ :: post) fl := by
  have htile := hg.tile
  rw [List.append_assoc] at htile
  obtain ⟨m1, hT1, hT23⟩ := Tile_append.1 htile
  obtain ⟨m2, hT2, hT3⟩ := Tile_append.1 hT23
  have hmidsub : ∀ c ∈ mid, c ∈ pre ++ mid ++ post := fun c hc => by simp [hc]
  -- the first and the last of the merged blocks
  obtain ⟨c0, rest, hc0⟩ : ∃ c0 rest, mid = c0 :: rest := by
    cases mid with
    | nil => exact absurd rfl hne
    | cons c0 rest => exact ⟨c0, rest, rfl⟩
  obtain ⟨ini, cl, hcl⟩ : ∃ ini cl, mid = ini ++ [cl] := by
    rcases List.eq_nil_or_concat mid with h | ⟨ini, cl, h⟩
    · exact absurd h hne
    · exact ⟨ini, cl, by rw [h, List.concat_eq_append]⟩
  have hc0m : c0 ∈ mid := by rw [hc0]; simp
  have hclm : cl ∈ mid := by rw [hcl]; simp
  have hC0 := hg.blk (hmidsub c0 hc0m)
  have hCl := hg.blk (hmidsub cl hclm)
  have hx : c0.bp = x := by rw [hc0] at hT; exact hT.1
  have hm1 : m1 = x := by rw [hc0] at hT2; rw [← hT2.1, hx]
  rw [hm1] at hT1 hT2
  have hm2 : m2 = c0.bp + sz := by rw [hx]; exact Tile_end hT2 hT
  have hend : cl.bp + cl.size = x + sz := by
    rw [hcl] at hT
    have := (Tile_split hT).2
    simp only [Tile] at this
    exact this
  have hsz32 : 32 ≤ sz := by
    have := hCl.sz32
    have := Tile_mem hT hclm
    omega
  have hsz16 : sz % 16 = 0 := by
    have h1 := hC0.al16
    have h2 := (Tile_al hT (by rw [← hx]; exact h1)
      (fun c hc => (hg.blk (hmidsub c hc)).sz16)).1
    omega
  have hx8 : s.lo + 64 ≤ x := by rw [← hx]; exact hC0.lo
  have hxe : x + sz ≤ s.brk := by rw [← hend]; exact hCl.hi
  have hw1 : x - 8 = c0.bp - 8 := by rw [hx]
  have hw2 : x + sz - 16 = cl.bp + cl.size - 16 := by rw [hend]
  apply hg.retile hlo hbrk hmax hhl hflp
  · intro a ha
    apply hmem
    · rcases ha with ha | ha | ha | ha
      · rw [hw1]; exact ((hg.pay_not_tag ha).2.2.2 c0 (hmidsub c0 hc0m)).1
      · omega
      · omega
      · omega
    · rcases ha with ha | ha | ha | ha
      · rw [hw2]; exact ((hg.pay_not_tag ha).2.2.2 cl (hmidsub cl hclm)).2
      · omega
      · omega
      · omega
  · exact Tile_append.2 ⟨x, hT1, rfl, by rw [← hx, ← hm2]; exact hT3⟩
  · intro c hc
    rcases List.mem_append.1 hc with hc1 | hc1
    · have hcm : c ∈ pre ++ mid ++ post := by simp [hc1]
      have hC := hg.blk hcm
      have hk := @cells_before _ _ _ sz (Tile_mem hT1 hc1).2 hC.sz32
        (by have := hC.lo; omega) hsz32
      exact Tagged_frame (hg.tag c hcm) (hmem _ hk.1 hk.2.1)
        (hmem _ hk.2.2.1 hk.2.2.2)
    · rcases List.mem_cons.1 hc1 with hc2 | hc2
      · subst hc2
        exact ⟨hsz32, hsz16, hal, hh, hf⟩
      · have hcm : c ∈ pre ++ mid ++ post := by simp [hc2]
        have hC := hg.blk hcm
        have h3 : x + sz ≤ c.bp := by
          have := (Tile_mem hT3 hc2).1; omega
        have hk := @cells_after c.bp c.size x sz h3 hC.sz32
          (by omega) hsz32
        exact Tagged_frame (hg.tag c hcm) (hmem _ hk.1 hk.2.1)
          (hmem _ hk.2.2.1 hk.2.2.2)
  · intro y hy
    obtain ⟨c, hc, hcy⟩ := hg.fl_blk y hy
    rw [List.append_assoc] at hc
    rcases List.mem_append.1 hc with hc1 | hc1
    · exact ⟨c, by simp [hc1], hcy⟩
    · rcases List.mem_append.1 hc1 with hc2 | hc2
      · exact ⟨⟨x, sz, al⟩, by simp, by rw [← hcy]; exact (hfl c hc2 (hcy ▸ hy)).symm⟩
      · exact ⟨c, by simp [hc2], hcy⟩

end MallocLab


namespace MallocLab

/-! ## Coalescing -/

theorem PreCo.mem_b {s : Heap} {pre post : List Blk} {b : Blk} {fl : List Nat}
    (_h : PreCo s pre b post fl) : b ∈ pre ++ b :: post := by simp

theorem PreCo.mem_pre {s : Heap} {pre post : List Blk} {b c : Blk} {fl : List Nat}
    (_h : PreCo s pre b post fl) (hc : c ∈ pre) : c ∈ pre ++ b :: post := by simp [hc]

theorem PreCo.mem_post {s : Heap} {pre post : List Blk} {b c : Blk} {fl : List Nat}
    (_h : PreCo s pre b post fl) (hc : c ∈ post) : c ∈ pre ++ b :: post := by simp [hc]

/-- What `coalesce` reads before it chooses its case. -/
theorem coalesce_prelude {s : Heap} {pre post : List Blk} {b : Blk} {fl : List Nat}
    (h : PreCo s pre b post fl) :
    ∃ pb pf pa na, PREV_BLKP s b.bp = some pb ∧ FTRP s pb = some pf ∧
      GET_ALLOC s pf = some pa ∧ NEXT_BLKP s b.bp = some (b.bp + b.size) ∧
      GET_ALLOC s (HDRP (b.bp + b.size)) = some na ∧
      GET_SIZE s (HDRP b.bp) = some b.size ∧
      ((pre = [] ∧ pb = b.bp ∧ pa = 0) ∨
        ∃ pre' p, pre = pre' ++ [p] ∧ pb = p.bp ∧ pa = p.al ∧ p.bp ≠ b.bp) ∧
      ((post = [] ∧ na = 1) ∨ ∃ n post', post = n :: post' ∧ na = n.al) := by
  have hg := h.geo
  have hB := hg.blk h.mem_b
  have hlo := hg.lo_al
  have hge := hg.brk_ge
  have hbal := hg.brk_al
  have hb1 := hB.al16; have hb2 := hB.lo; have hb3 := hB.hi; have hb4 := hB.sz32
  have hb5 := hB.sz16
  have hsplit := Tile_split hg.tile
  -- the previous block
  have hprev : ∃ pb pf pa, PREV_BLKP s b.bp = some pb ∧ FTRP s pb = some pf ∧
      GET_ALLOC s pf = some pa ∧
      ((pre = [] ∧ pb = b.bp ∧ pa = 0) ∨
        ∃ pre' p, pre = pre' ++ [p] ∧ pb = p.bp ∧ pa = p.al ∧ p.bp ≠ b.bp) := by
    rcases List.eq_nil_or_concat pre with h1 | ⟨pre', p, h1⟩
    · subst h1
      have hbp : b.bp = s.lo + 64 := by
        have := hsplit.1; simp only [Tile] at this; omega
      have hv : s.valid (b.bp - 16) := by unfold Heap.valid; omega
      have hm : s.mem (b.bp - 16) = 0 + 0 := by
        have : b.bp - 16 = s.lo + 48 := by omega
        rw [this]; exact hg.pad
      have hpb := PREV_BLKP_of hv (by omega) hm (by decide) (by decide) (by omega)
        (hB.fit_end.mono (by omega))
      refine ⟨b.bp, b.bp + b.size - 16, 0, hpb, hB.ftrp, ?_, Or.inl ⟨rfl, rfl, rfl⟩⟩
      have := hB.get_alloc_ft
      rw [h.bfree] at this
      exact this
    · rw [List.concat_eq_append] at h1
      subst h1
      have hpm : p ∈ pre' ++ [p] ++ b :: post := by simp
      have hP := hg.blk hpm
      have hend : p.bp + p.size = b.bp := by
        obtain ⟨_, h2⟩ := Tile_split hsplit.1
        simp only [Tile] at h2
        exact h2
      have hp4 := hP.sz32
      have hpb := hP.prev_blkp
      rw [hend] at hpb
      exact ⟨p.bp, p.bp + p.size - 16, p.al, hpb, hP.ftrp, hP.get_alloc_ft,
        Or.inr ⟨pre', p, rfl, rfl, rfl, by omega⟩⟩
  obtain ⟨pb, pf, pa, h1, h2, h3, h4⟩ := hprev
  have hhd : HDRP b.bp = b.bp - 8 := hB.hdrp
  have hsz : GET_SIZE s (HDRP b.bp) = some b.size := by rw [hhd]; exact hB.get_size
  have hhn : HDRP (b.bp + b.size) = b.bp + b.size - 8 := HDRP_eq (by omega) hB.fit_end
  have hnext : ∃ na, GET_ALLOC s (HDRP (b.bp + b.size)) = some na ∧
      ((post = [] ∧ na = 1) ∨ ∃ n post', post = n :: post' ∧ na = n.al) := by
    rw [hhn]
    cases hpost : post with
    | nil =>
      subst hpost
      have hend : b.bp + b.size = s.brk := by
        have := hsplit.2; simp only [Tile] at this; exact this
      have hv : s.valid (s.brk - 8) := by unfold Heap.valid; omega
      have hm : s.mem (s.brk - 8) = 0 + 1 := hg.epi
      refine ⟨1, ?_, Or.inl ⟨rfl, rfl⟩⟩
      rw [hend]
      exact GET_ALLOC_of hv hm (by decide) (by decide)
    | cons n post' =>
      subst hpost
      have hnm : n ∈ pre ++ b :: n :: post' := by simp
      have hN := hg.blk hnm
      have hnb : n.bp = b.bp + b.size := hsplit.2.1
      refine ⟨n.al, ?_, Or.inr ⟨n, post', rfl, rfl⟩⟩
      rw [← hnb]
      exact hN.get_alloc
  obtain ⟨na, h5, h6⟩ := hnext
  exact ⟨pb, pf, pa, na, h1, h2, h3, hB.next_blkp, h5, hsz, h4, h6⟩

end MallocLab


namespace MallocLab

theorem PrevAl_nil : PrevAl [] := by intro p hp; simp at hp

theorem NextAl_nil : NextAl [] := by intro p hp; simp at hp

theorem PrevAl_concat {pre : List Blk} {p : Blk} : PrevAl (pre ++ [p]) ↔ p.al = 1 := by
  unfold PrevAl; simp

theorem NextAl_cons {post : List Blk} {n : Blk} : NextAl (n :: post) ↔ n.al = 1 := by
  unfold NextAl; simp

/-- A block of `pre ++ post` does not sit at `b`. -/
theorem PreCo.bp_ne {s : Heap} {pre post : List Blk} {b c : Blk} {fl : List Nat}
    (h : PreCo s pre b post fl) (hc : c ∈ pre ++ post) : c.bp ≠ b.bp := by
  have hB := h.geo.blk h.mem_b
  rcases List.mem_append.1 hc with h1 | h1
  · have := (Tile_pre h.geo.tile h1).2
    have := (h.geo.blk (h.mem_pre h1)).sz32
    omega
  · have := (Tile_post h.geo.tile h1).1
    have := hB.sz32
    omega

theorem NoAdj_join {pre post : List Blk} {b : Blk} (h1 : NoAdj pre) (h2 : NoAdj post)
    (hp : b.al = 1 ∨ PrevAl pre) (hn : b.al = 1 ∨ NextAl post) :
    NoAdj (pre ++ b :: post) := by
  unfold NoAdj at *
  rw [List.chain'_append]
  refine ⟨h1, ?_, ?_⟩
  · rw [List.chain'_cons']
    refine ⟨?_, h2⟩
    intro y hy
    rcases hn with hn | hn
    · exact Or.inl hn
    · exact Or.inr (hn y hy)
  · intro x hx y hy
    simp only [List.head?_cons, Option.mem_def, Option.some.injEq] at hy
    subst hy
    rcases hp with hp | hp
    · exact Or.inr hp
    · exact Or.inl (hp x hx)

/-- Case 1 of `coalesce`: both neighbours are allocated. -/
theorem coalesce_case1 {s : Heap} {pre post : List Blk} {b : Blk} {fl : List Nat}
    (h : PreCo s pre b post fl) (hp : PrevAl pre) (hn : NextAl post) :
    ∃ s', coalesce s b.bp = some (b.bp, s') ∧ Inv s' (pre ++ b :: post) (b.bp :: fl) ∧
      s'.lo = s.lo ∧ s'.brk = s.brk ∧ s'.max_addr = s.max_addr ∧
      s'.heap_listp = s.heap_listp := by
  obtain ⟨pb, pf, pa, na, h1, h2, h3, h4, h5, h6, h7, h8⟩ := coalesce_prelude h
  obtain ⟨s', ha, hg', e1, e2, e3, e4, _⟩ := add_spec h.geo ⟨b, h.mem_b, rfl⟩ h.bout
  have hpa : (decide (pa ≠ 0) || decide (pb = b.bp)) = true := by
    rcases h7 with ⟨_, h7, _⟩ | ⟨pre', p, hpre, _, h7, _⟩
    · simp [h7]
    · subst hpre
      have := PrevAl_concat.1 hp
      simp [h7, this]
  have hna : decide (na ≠ 0) = true := by
    rcases h8 with ⟨_, h8⟩ | ⟨n, post', hpost, h8⟩
    · simp [h8]
    · subst hpost
      have := NextAl_cons.1 hn
      simp [h8, this]
  refine ⟨s', ?_, ⟨hg', ?_, ?_⟩, e1, e2, e3, e4⟩
  · unfold coalesce
    rw [h1, Run.some_bind, h2, Run.some_bind, h3, Run.some_bind, h4, Run.some_bind, h5,
      Run.some_bind, h6, Run.some_bind]
    have hc : ((decide (pa ≠ 0) || decide (pb = b.bp)) && decide (na ≠ 0)) = true := by
      rw [hpa, hna]; rfl
    rw [if_pos hc, ha, Run.some_bind]
    rfl
  · intro c hc
    rcases List.mem_append.1 hc with hc1 | hc1
    · have := h.others c (List.mem_append_left _ hc1)
      have hne := h.bp_ne (List.mem_append_left _ hc1)
      rw [this]; simp [hne]
    · rcases List.mem_cons.1 hc1 with hc2 | hc2
      · subst hc2; simp [h.bfree]
      · have := h.others c (List.mem_append_right _ hc2)
        have hne := h.bp_ne (List.mem_append_right _ hc2)
        rw [this]; simp [hne]
  · exact NoAdj_join h.npre h.npost (Or.inr hp) (Or.inr hn)

end MallocLab


namespace MallocLab

theorem NoAdj_tail {n : Blk} {post : List Blk} (h : NoAdj (n :: post)) : NoAdj post := by
  unfold NoAdj at *
  exact (List.chain'_cons'.1 h).2

theorem NextAl_of_free {n : Blk} {post : List Blk} (h : NoAdj (n :: post)) (hn : n.al = 0) :
    NextAl post := by
  unfold NoAdj at h
  intro y hy
  rcases (List.chain'_cons'.1 h).1 y hy with h1 | h1
  · omega
  · exact h1

theorem NoAdj_init {p : Blk} {pre : List Blk} (h : NoAdj (pre ++ [p])) : NoAdj pre := by
  unfold NoAdj at *
  exact (List.chain'_append.1 h).1

theorem PrevAl_of_free {p : Blk} {pre : List Blk} (h : NoAdj (pre ++ [p])) (hp : p.al = 0) :
    PrevAl pre := by
  unfold NoAdj at h
  intro y hy
  rcases (List.chain'_append.1 h).2.2 y hy p (by simp) with h1 | h1
  · exact h1
  · omega

/-- Case 2 of `coalesce`: the previous block is allocated, the next one is
free and is absorbed. -/
theorem coalesce_case2 {s : Heap} {pre post : List Blk} {b n : Blk} {fl : List Nat}
    (h : PreCo s pre b (n :: post) fl) (hp : PrevAl pre) (hn : n.al = 0) :
    ∃ s', coalesce s b.bp = some (b.bp, s') ∧
      Inv s' (pre ++ ⟨b.bp, b.size + n.size, 0⟩ :: post) (b.bp :: fl.erase n.bp) ∧
      s'.lo = s.lo ∧ s'.brk = s.brk ∧ s'.max_addr = s.max_addr ∧
      s'.heap_listp = s.heap_listp := by
  obtain ⟨pb, pf, pa, na, h1, h2, h3, h4, h5, h6, h7, h8⟩ := coalesce_prelude h
  have hg := h.geo
  have hbm := h.mem_b
  have hnm : n ∈ pre ++ b :: n :: post := by simp
  have hB := hg.blk hbm
  have hN := hg.blk hnm
  have hnb : n.bp = b.bp + b.size := (Tile_split hg.tile).2.1
  have hnfl : n.bp ∈ fl := (h.others n (by simp)).1 hn
  obtain ⟨s1, hd, hg1, e1, e2, e3, e4, _⟩ := delete_spec hg hnfl
  have hB1 := hg1.blk hbm
  have hN1 := hg1.blk hnm
  obtain ⟨sz, hsz⟩ : ∃ sz, sz = b.size + n.size := ⟨_, rfl⟩
  have hw2 : b.bp + sz - 16 = n.bp + n.size - 16 := by omega
  have hne12 : b.bp - 8 ≠ b.bp + sz - 16 := by have := hB.sz32; omega
  obtain ⟨s3, hs3⟩ : ∃ s3, s3 = (s1.set (b.bp - 8) sz).set (b.bp + sz - 16) sz := ⟨_, rfl⟩
  have hg3 : Geo s3 (pre ++ ⟨b.bp, sz, 0⟩ :: post) (fl.erase n.bp) := by
    have hg1' : Geo s1 (pre ++ [b, n] ++ post) (fl.erase n.bp) := by simpa using hg1
    apply hg1'.merge (by rw [hs3]; rfl) (by rw [hs3]; rfl) (by rw [hs3]; rfl)
      (by rw [hs3]; rfl) (by rw [hs3]; rfl) (by simp)
      (show Tile b.bp [b, n] (b.bp + sz) from ⟨rfl, hnb, by show _ = _; omega⟩)
      (Nat.zero_le 1)
    · intro a ha1 ha2
      rw [hs3, set_mem_ne ha2, set_mem_ne ha1]
    · rw [hs3, set_mem_ne hne12, set_mem_eq]; rfl
    · rw [hs3, set_mem_eq]; rfl
    · intro c hc hcf
      simp only [List.mem_cons, List.mem_singleton, List.not_mem_nil, or_false] at hc
      rcases hc with hc | hc
      · rw [hc]
      · rw [hc] at hcf
        exact absurd hcf (List.Nodup.not_mem_erase hg.nodup)
  have hbout : b.bp ∉ fl.erase n.bp := fun hx => h.bout (List.mem_of_mem_erase hx)
  obtain ⟨s', ha, hg', f1, f2, f3, f4, _⟩ :=
    add_spec hg3 ⟨⟨b.bp, sz, 0⟩, by simp, rfl⟩ hbout
  have hs3lo : s3.lo = s.lo := by rw [hs3]; exact e1
  have hs3brk : s3.brk = s.brk := by rw [hs3]; exact e2
  have hs3max : s3.max_addr = s.max_addr := by rw [hs3]; exact e3
  have hs3hl : s3.heap_listp = s.heap_listp := by rw [hs3]; exact e4
  refine ⟨s', ?_, ⟨by rw [← hsz]; exact hg', ?_, ?_⟩, by rw [f1, hs3lo], by rw [f2, hs3brk],
    by rw [f3, hs3max], by rw [f4, hs3hl]⟩
  · -- the run
    have hpa : (decide (pa ≠ 0) || decide (pb = b.bp)) = true := by
      rcases h7 with ⟨_, h7, _⟩ | ⟨pre', p, hpre, _, h7, _⟩
      · simp [h7]
      · subst hpre
        have := PrevAl_concat.1 hp
        simp [h7, this]
    have hna : decide (na ≠ 0) = false := by
      rcases h8 with ⟨h8, _⟩ | ⟨n', post', hpost, h8⟩
      · exact absurd h8 (by simp)
      · simp only [List.cons.injEq] at hpost
        rw [h8, ← hpost.1, hn]; rfl
    have hc1 : ¬ ((decide (pa ≠ 0) || decide (pb = b.bp)) && decide (na ≠ 0)) = true := by
      rw [hpa, hna]; decide
    have hc2 : ((decide (pa ≠ 0) || decide (pb = b.bp)) && !decide (na ≠ 0)) = true := by
      rw [hpa, hna]; rfl
    have hhn : HDRP (b.bp + b.size) = n.bp - 8 := by
      rw [← hnb]; exact hN.hdrp
    have hfit : Fits (b.bp + sz) := hN.fit_end.mono (by omega)
    have hv1 : s1.valid (b.bp - 8) := hB1.valid_hd
    have hv2 : (s1.set (b.bp - 8) sz).valid (b.bp + sz - 16) := by
      rw [hw2]; exact hN1.valid_ft
    have hft : FTRP (s1.set (b.bp - 8) sz) b.bp = some (b.bp + sz - 16) := by
      have h16 : sz % 16 = 0 := by have := hB.sz16; have := hN.sz16; omega
      have hlo := hB.lo
      exact @FTRP_of _ _ _ 0 hv1 (by omega) (by rw [set_mem_eq]; rfl) h16 (Nat.zero_le 1)
        (by omega) hfit
    unfold coalesce
    rw [h1, Run.some_bind, h2, Run.some_bind, h3, Run.some_bind, h4, Run.some_bind, h5,
      Run.some_bind, h6, Run.some_bind, if_neg hc1, if_pos hc2, hhn, hN.get_size,
      Run.some_bind, add64_fit (hfit.mono (by omega)), ← hnb, hd, Run.some_bind, hB.hdrp,
      PACK_zero, ← hsz, PUT_valid _ hv1, Run.some_bind, hft, Run.some_bind,
      PUT_valid _ hv2, Run.some_bind, ← hs3, ha, Run.some_bind]
    rfl
  · intro c hc
    rcases List.mem_append.1 hc with hc1 | hc1
    · have := h.others c (List.mem_append_left _ hc1)
      have hne := h.bp_ne (List.mem_append_left _ hc1)
      have hne2 : c.bp ≠ n.bp := by
        have := Tile_pre hg.tile hc1; omega
      rw [this, List.mem_cons, hg.nodup.mem_erase_iff]
      simp [hne, hne2]
    · rcases List.mem_cons.1 hc1 with hc2 | hc2
      · subst hc2; simp
      · have := h.others c (by simp [hc2])
        have hne := h.bp_ne (c := c) (by simp [hc2])
        have hne2 : c.bp ≠ n.bp := by
          have := @Tile_post _ _ (pre ++ [b]) _ n _ (by simpa using hg.tile) hc2
          have := hN.sz32
          omega
        rw [this, List.mem_cons, hg.nodup.mem_erase_iff]
        simp [hne, hne2]
  · exact NoAdj_join h.npre (NoAdj_tail h.npost) (Or.inr hp)
      (Or.inr (NextAl_of_free h.npost hn))

end MallocLab


namespace MallocLab

/-- Case 3 of `coalesce`: the previous block is free and absorbs the block,
the next one is allocated. -/
theorem coalesce_case3 {s : Heap} {pre post : List Blk} {b p : Blk} {fl : List Nat}
    (h : PreCo s (pre ++ [p]) b post fl) (hp : p.al = 0) (hn : NextAl post) :
    ∃ s', coalesce s b.bp = some (p.bp, s') ∧
      Inv s' (pre ++ ⟨p.bp, b.size + p.size, 0⟩ :: post) (p.bp :: fl.erase p.bp) ∧
      s'.lo = s.lo ∧ s'.brk = s.brk ∧ s'.max_addr = s.max_addr ∧
      s'.heap_listp = s.heap_listp := by
  obtain ⟨pb, pf, pa, na, h1, h2, h3, h4, h5, h6, h7, h8⟩ := coalesce_prelude h
  have hg := h.geo
  have hbm := h.mem_b
  have hpm : p ∈ pre ++ [p] ++ b :: post := by simp
  have hB := hg.blk hbm
  have hP := hg.blk hpm
  have hsplit := Tile_split hg.tile
  have hsplit2 := Tile_split hsplit.1
  have hpb : p.bp + p.size = b.bp := by
    have := hsplit2.2; simp only [Tile] at this; exact this
  have hpfl : p.bp ∈ fl := (h.others p (by simp)).1 hp
  obtain ⟨s1, hd, hg1, e1, e2, e3, e4, _⟩ := delete_spec hg hpfl
  have hB1 := hg1.blk hbm
  have hP1 := hg1.blk hpm
  obtain ⟨sz, hsz⟩ : ∃ sz, sz = b.size + p.size := ⟨_, rfl⟩
  have hw2 : p.bp + sz - 16 = b.bp + b.size - 16 := by omega
  have hne12 : p.bp - 8 ≠ b.bp + b.size - 16 := by
    have := hB.sz32; have := hP.sz32; omega
  obtain ⟨s3, hs3⟩ : ∃ s3, s3 = (s1.set (b.bp + b.size - 16) sz).set (p.bp - 8) sz :=
    ⟨_, rfl⟩
  have hg3 : Geo s3 (pre ++ ⟨p.bp, sz, 0⟩ :: post) (fl.erase p.bp) := by
    have hg1' : Geo s1 (pre ++ [p, b] ++ post) (fl.erase p.bp) := by simpa using hg1
    apply hg1'.merge (by rw [hs3]; rfl) (by rw [hs3]; rfl) (by rw [hs3]; rfl)
      (by rw [hs3]; rfl) (by rw [hs3]; rfl) (by simp)
      (show Tile p.bp [p, b] (p.bp + sz) from ⟨rfl, hpb.symm, by show _ = _; omega⟩)
      (Nat.zero_le 1)
    · intro a ha1 ha2
      rw [hw2] at ha2
      rw [hs3, set_mem_ne ha1, set_mem_ne ha2]
    · rw [hs3, set_mem_eq]; rfl
    · rw [hw2, hs3, set_mem_ne hne12.symm, set_mem_eq]; rfl
    · intro c hc hcf
      simp only [List.mem_cons, List.mem_singleton, List.not_mem_nil, or_false] at hc
      rcases hc with hc | hc
      · rw [hc]
      · rw [hc] at hcf
        exact absurd (List.mem_of_mem_erase hcf) h.bout
  have hpout : p.bp ∉ fl.erase p.bp := List.Nodup.not_mem_erase hg.nodup
  obtain ⟨s', ha, hg', f1, f2, f3, f4, _⟩ :=
    add_spec hg3 ⟨⟨p.bp, sz, 0⟩, by simp, rfl⟩ hpout
  have hs3lo : s3.lo = s.lo := by rw [hs3]; exact e1
  have hs3brk : s3.brk = s.brk := by rw [hs3]; exact e2
  have hs3max : s3.max_addr = s.max_addr := by rw [hs3]; exact e3
  have hs3hl : s3.heap_listp = s.heap_listp := by rw [hs3]; exact e4
  refine ⟨s', ?_, ⟨by rw [← hsz]; exact hg', ?_, ?_⟩, by rw [f1, hs3lo], by rw [f2, hs3brk],
    by rw [f3, hs3max], by rw [f4, hs3hl]⟩
  · -- the run
    have hpp : pb = p.bp ∧ pa = 0 := by
      rcases h7 with ⟨h7, _⟩ | ⟨pre', p', hpre, h71, h72, _⟩
      · exact absurd h7 (by simp)
      · have := List.append_inj' hpre rfl
        simp only [List.cons.injEq, and_true] at this
        rw [h71, h72, ← this.2, hp]; exact ⟨rfl, rfl⟩
    have hne : p.bp ≠ b.bp := by have := hP.sz32; omega
    have hpa : (decide (pa ≠ 0) || decide (pb = b.bp)) = false := by
      rw [hpp.1, hpp.2]; simp [hne]
    have hna : decide (na ≠ 0) = true := by
      rcases h8 with ⟨_, h8⟩ | ⟨n, post', hpost, h8⟩
      · simp [h8]
      · subst hpost
        have := NextAl_cons.1 hn
        simp [h8, this]
    have hc1 : ¬ ((decide (pa ≠ 0) || decide (pb = b.bp)) && decide (na ≠ 0)) = true := by
      rw [hpa, hna]; decide
    have hc2 : ¬ ((decide (pa ≠ 0) || decide (pb = b.bp)) && !decide (na ≠ 0)) = true := by
      rw [hpa, hna]; decide
    have hc3 : ((!(decide (pa ≠ 0) || decide (pb = b.bp))) && decide (na ≠ 0)) = true := by
      rw [hpa, hna]; rfl
    have hv1 : s1.valid (b.bp + b.size - 16) := hB1.valid_ft
    have hv2 : (s1.set (b.bp + b.size - 16) sz).valid (p.bp - 8) := hP1.valid_hd
    have hpal := hP.al1
    have hp32 := hP.sz32
    have hplo := hP.lo
    have hblo := hB.lo
    have hb32 := hB.sz32
    have hvf : s1.valid (b.bp - 16) := by
      have := hP1.valid_ft; rw [hpb] at this; exact this
    have hfit : Fits b.bp := hB.fit_end.mono (by omega)
    have hpv2 : PREV_BLKP (s1.set (b.bp + b.size - 16) sz) b.bp = some p.bp := by
      have := @PREV_BLKP_of (s1.set (b.bp + b.size - 16) sz) b.bp
        p.size p.al hvf (by omega)
        (by rw [set_mem_ne (by omega), ← hpb]; exact hP1.ft) hP.sz16 hpal (by omega) hfit
      rw [this, ← hpb, Nat.add_sub_cancel]
    have hpv3 : PREV_BLKP s3 b.bp = some p.bp := by
      have := @PREV_BLKP_of s3 b.bp
        p.size p.al (by rw [hs3]; exact hvf) (by omega)
        (by rw [hs3, set_mem_ne (by omega), set_mem_ne (by omega), ← hpb]; exact hP1.ft)
        hP.sz16 hpal (by omega) hfit
      rw [this, ← hpb, Nat.add_sub_cancel]
    have hadd : add64 b.size p.size = sz := by
      rw [hsz]; exact add64_fit (hB.fit_end.mono (by omega))
    unfold coalesce
    rw [h1, Run.some_bind, h2, Run.some_bind, h3, Run.some_bind, h4, Run.some_bind, h5,
      Run.some_bind, h6, Run.some_bind, if_neg hc1, if_neg hc2, if_pos hc3, hpp.1, hP.hdrp,
      hP.get_size, Run.some_bind, hadd, hd, Run.some_bind, hB1.ftrp, Run.some_bind,
      PACK_zero, PUT_valid _ hv1, Run.some_bind, hpv2, Run.some_bind, hP.hdrp,
      PUT_valid _ hv2, Run.some_bind, ← hs3, hpv3, Run.some_bind, ha, Run.some_bind]
    rfl
  · intro c hc
    rcases List.mem_append.1 hc with hc1 | hc1
    · have := h.others c (by simp [hc1])
      have hne2 : c.bp ≠ p.bp := by
        have := Tile_mem hsplit2.1 hc1
        have hcm : c ∈ pre ++ [p] ++ b :: post := by simp [hc1]
        have := (hg.blk hcm).sz32
        omega
      rw [this, List.mem_cons, hg.nodup.mem_erase_iff]
      simp [hne2]
    · rcases List.mem_cons.1 hc1 with hc2 | hc2
      · subst hc2; simp
      · have := h.others c (by simp [hc2])
        have hne2 : c.bp ≠ p.bp := by
          have := Tile_post hg.tile hc2
          have := hB.sz32
          omega
        rw [this, List.mem_cons, hg.nodup.mem_erase_iff]
        simp [hne2]
  · exact NoAdj_join (NoAdj_init h.npre) h.npost (Or.inr (PrevAl_of_free h.npre hp))
      (Or.inr hn)

end MallocLab


namespace MallocLab

/-- Case 4 of `coalesce`: both neighbours are free; the previous block
absorbs the block and the next one. -/
theorem coalesce_case4 {s : Heap} {pre post : List Blk} {b p n : Blk} {fl : List Nat}
    (h : PreCo s (pre ++ [p]) b (n :: post) fl) (hp : p.al = 0) (hn : n.al = 0) :
    ∃ s', coalesce s b.bp = some (p.bp, s') ∧
      Inv s' (pre ++ ⟨p.bp, b.size + (p.size + n.size), 0⟩ :: post)
        (p.bp :: (fl.erase p.bp).erase n.bp) ∧
      s'.lo = s.lo ∧ s'.brk = s.brk ∧ s'.max_addr = s.max_addr ∧
      s'.heap_listp = s.heap_listp := by
  obtain ⟨pb, pf, pa, na, h1, h2, h3, h4, h5, h6, h7, h8⟩ := coalesce_prelude h
  have hg := h.geo
  have hbm := h.mem_b
  have hpm : p ∈ pre ++ [p] ++ b :: n :: post := by simp
  have hnm : n ∈ pre ++ [p] ++ b :: n :: post := by simp
  have hB := hg.blk hbm
  have hP := hg.blk hpm
  have hN := hg.blk hnm
  have hsplit := Tile_split hg.tile
  have hsplit2 := Tile_split hsplit.1
  have hpb : p.bp + p.size = b.bp := by
    have := hsplit2.2; simp only [Tile] at this; exact this
  have hnb : n.bp = b.bp + b.size := hsplit.2.1
  have hpfl : p.bp ∈ fl := (h.others p (by simp)).1 hp
  have hnfl : n.bp ∈ fl := (h.others n (by simp)).1 hn
  have hpn : n.bp ≠ p.bp := by have := hP.sz32; have := hB.sz32; omega
  -- the list operations
  obtain ⟨s1, hd1, hg1, e1, e2, e3, e4, _⟩ := delete_spec hg hpfl
  have hnfl1 : n.bp ∈ fl.erase p.bp := (hg.nodup.mem_erase_iff).2 ⟨hpn, hnfl⟩
  obtain ⟨s2, hd2, hg2, d1, d2, d3, d4, _⟩ := delete_spec hg1 hnfl1
  have hB1 := hg1.blk hbm
  have hB2 := hg2.blk hbm
  have hP2 := hg2.blk hpm
  have hN2 := hg2.blk hnm
  -- the two tag writes
  obtain ⟨sz, hsz⟩ : ∃ sz, sz = b.size + (p.size + n.size) := ⟨_, rfl⟩
  have hw2 : p.bp + sz - 16 = n.bp + n.size - 16 := by omega
  have hne12 : p.bp - 8 ≠ n.bp + n.size - 16 := by
    have := hB.sz32; have := hP.sz32; have := hN.sz32; omega
  obtain ⟨s4, hs4⟩ : ∃ s4, s4 = (s2.set (p.bp - 8) sz).set (n.bp + n.size - 16) sz :=
    ⟨_, rfl⟩
  have hg4 : Geo s4 (pre ++ ⟨p.bp, sz, 0⟩ :: post) ((fl.erase p.bp).erase n.bp) := by
    have hg2' : Geo s2 (pre ++ [p, b, n] ++ post) ((fl.erase p.bp).erase n.bp) := by
      simpa using hg2
    apply hg2'.merge (by rw [hs4]; rfl) (by rw [hs4]; rfl) (by rw [hs4]; rfl)
      (by rw [hs4]; rfl) (by rw [hs4]; rfl) (by simp)
      (show Tile p.bp [p, b, n] (p.bp + sz) from
        ⟨rfl, hpb.symm, by rw [hpb]; exact hnb, by show _ = _; omega⟩)
      (Nat.zero_le 1)
    · intro a ha1 ha2
      rw [hw2] at ha2
      rw [hs4, set_mem_ne ha2, set_mem_ne ha1]
    · rw [hs4, set_mem_ne hne12, set_mem_eq]; rfl
    · rw [hw2, hs4, set_mem_eq]; rfl
    · intro c hc hcf
      simp only [List.mem_cons, List.mem_singleton, List.not_mem_nil, or_false] at hc
      rcases hc with hc | hc | hc
      · rw [hc]
      · rw [hc] at hcf
        exact absurd (List.mem_of_mem_erase (List.mem_of_mem_erase hcf)) h.bout
      · rw [hc] at hcf
        exact absurd hcf (List.Nodup.not_mem_erase (hg.nodup.erase _))
  have hpout : p.bp ∉ (fl.erase p.bp).erase n.bp := fun hx =>
    List.Nodup.not_mem_erase hg.nodup (List.mem_of_mem_erase hx)
  obtain ⟨s', ha, hg', f1, f2, f3, f4, _⟩ :=
    add_spec hg4 ⟨⟨p.bp, sz, 0⟩, by simp, rfl⟩ hpout
  have hs4lo : s4.lo = s.lo := by rw [hs4]; show s2.lo = _; rw [d1, e1]
  have hs4brk : s4.brk = s.brk := by rw [hs4]; show s2.brk = _; rw [d2, e2]
  have hs4max : s4.max_addr = s.max_addr := by rw [hs4]; show s2.max_addr = _; rw [d3, e3]
  have hs4hl : s4.heap_listp = s.heap_listp := by
    rw [hs4]; show s2.heap_listp = _; rw [d4, e4]
  refine ⟨s', ?_, ⟨by rw [← hsz]; exact hg', ?_, ?_⟩, by rw [f1, hs4lo], by rw [f2, hs4brk],
    by rw [f3, hs4max], by rw [f4, hs4hl]⟩
  · -- the run
    have hpp : pb = p.bp ∧ pa = 0 := by
      rcases h7 with ⟨h7, _⟩ | ⟨pre', p', hpre, h71, h72, _⟩
      · exact absurd h7 (by simp)
      · have := List.append_inj' hpre rfl
        simp only [List.cons.injEq, and_true] at this
        rw [h71, h72, ← this.2, hp]; exact ⟨rfl, rfl⟩
    have hne : p.bp ≠ b.bp := by have := hP.sz32; omega
    have hpa : (decide (pa ≠ 0) || decide (pb = b.bp)) = false := by
      rw [hpp.1, hpp.2]; simp [hne]
    have hna : decide (na ≠ 0) = false := by
      rcases h8 with ⟨h8, _⟩ | ⟨n', post', hpost, h8⟩
      · exact absurd h8 (by simp)
      · simp only [List.cons.injEq] at hpost
        rw [h8, ← hpost.1, hn]; rfl
    have hc1 : ¬ ((decide (pa ≠ 0) || decide (pb = b.bp)) && decide (na ≠ 0)) = true := by
      rw [hpa, hna]; decide
    have hc2 : ¬ ((decide (pa ≠ 0) || decide (pb = b.bp)) && !decide (na ≠ 0)) = true := by
      rw [hpa, hna]; decide
    have hc3 : ¬ ((!(decide (pa ≠ 0) || decide (pb = b.bp))) && decide (na ≠ 0)) = true := by
      rw [hpa, hna]; decide
    have hpal := hP.al1
    have hp32 := hP.sz32
    have hplo := hP.lo
    have hblo := hB.lo
    have hb32 := hB.sz32
    have hn32 := hN.sz32
    have hv3 : s2.valid (p.bp - 8) := hP2.valid_hd
    have hv4 : (s2.set (p.bp - 8) sz).valid (n.bp + n.size - 16) := hN2.valid_ft
    have hvf : s2.valid (b.bp - 16) := by
      have := hP2.valid_ft; rw [hpb] at this; exact this
    have hfit : Fits b.bp := hB.fit_end.mono (by omega)
    have hpv2 : PREV_BLKP s2 b.bp = some p.bp := by
      have := hP2.prev_blkp; rw [hpb] at this; exact this
    have hnx3 : NEXT_BLKP (s2.set (p.bp - 8) sz) b.bp = some n.bp := by
      rw [hnb]
      exact @NEXT_BLKP_of (s2.set (p.bp - 8) sz) _ _ b.al hB2.valid_hd (by omega)
        (by rw [set_mem_ne (by omega)]; exact hB2.hd) hB.sz16 hB.al1
        (by rw [h.bfree]; exact hB.fit_end)
    have hft3 : FTRP (s2.set (p.bp - 8) sz) n.bp = some (n.bp + n.size - 16) := by
      have hnlo := hN.lo
      exact @FTRP_of (s2.set (p.bp - 8) sz) _ _ n.al hN2.valid_hd (by omega)
        (by rw [set_mem_ne (by omega)]; exact hN2.hd) hN.sz16 hN.al1 (by omega)
        (by rw [hn]; exact hN.fit_end)
    have hpv4 : PREV_BLKP s4 b.bp = some p.bp := by
      have := @PREV_BLKP_of s4 b.bp
        p.size p.al (by rw [hs4]; exact hvf) (by omega)
        (by rw [hs4, set_mem_ne (by omega), set_mem_ne (by omega), ← hpb]; exact hP2.ft)
        hP.sz16 hpal (by omega) hfit
      rw [this, ← hpb, Nat.add_sub_cancel]
    have hadd : add64 b.size (add64 p.size n.size) = sz := by
      rw [hsz, add64_fit (a := p.size) (hN.fit_end.mono (by omega))]
      exact add64_fit (hN.fit_end.mono (by omega))
    have hhn : HDRP (b.bp + b.size) = n.bp - 8 := by
      rw [← hnb]; exact hN.hdrp
    unfold coalesce
    rw [h1, Run.some_bind, h2, Run.some_bind, h3, Run.some_bind, h4, Run.some_bind, h5,
      Run.some_bind, h6, Run.some_bind, if_neg hc1, if_neg hc2, if_neg hc3, hpp.1, hP.hdrp,
      hP.get_size, Run.some_bind, ← hnb, hN.ftrp, Run.some_bind, hN.get_size_ft,
      Run.some_bind, hadd, hd1, Run.some_bind, hB1.next_blkp, Run.some_bind, ← hnb, hd2,
      Run.some_bind, hpv2, Run.some_bind, hP.hdrp, PACK_zero, PUT_valid _ hv3,
      Run.some_bind, hnx3, Run.some_bind, hft3, Run.some_bind, PUT_valid _ hv4,
      Run.some_bind, ← hs4, hpv4, Run.some_bind, ha, Run.some_bind]
    rfl
  · intro c hc
    rcases List.mem_append.1 hc with hc1 | hc1
    · have hoth := h.others c (by simp [hc1])
      have hcm : c ∈ pre ++ [p] ++ b :: n :: post := by simp [hc1]
      have := (hg.blk hcm).sz32
      have := Tile_mem hsplit2.1 hc1
      have hne2 : c.bp ≠ p.bp := by omega
      have hne3 : c.bp ≠ n.bp := by have := hP.sz32; have := hB.sz32; omega
      rw [hoth, List.mem_cons, (hg.nodup.erase _).mem_erase_iff, hg.nodup.mem_erase_iff]
      simp [hne2, hne3]
    · rcases List.mem_cons.1 hc1 with hc2 | hc2
      · subst hc2; simp
      · have hoth := h.others c (by simp [hc2])
        have := @Tile_post _ _ (pre ++ [p] ++ [b]) _ n _ (by simpa using hg.tile) hc2
        have := hN.sz32; have := hB.sz32; have := hP.sz32
        have hne2 : c.bp ≠ p.bp := by omega
        have hne3 : c.bp ≠ n.bp := by omega
        rw [hoth, List.mem_cons, (hg.nodup.erase _).mem_erase_iff, hg.nodup.mem_erase_iff]
        simp [hne2, hne3]
  · exact NoAdj_join (NoAdj_init h.npre) (NoAdj_tail h.npost)
      (Or.inr (PrevAl_of_free h.npre hp)) (Or.inr (NextAl_of_free h.npost hn))

end MallocLab


namespace MallocLab

/-! ## What the observers see in a well-shaped heap -/

theorem Geo.length_bs {s : Heap} {bs : List Blk} {fl : List Nat} (hg : Geo s bs fl) :
    s.lo + 64 + 32 * bs.length ≤ s.brk :=
  Tile_length hg.tile (fun b hb => (hg.tag b hb).1)

theorem Geo.length_fl {s : Heap} {bs : List Blk} {fl : List Nat} (hg : Geo s bs fl) :
    fl.length ≤ bs.length := by
  have hsub : fl ⊆ bs.map Blk.bp := by
    intro x hx
    obtain ⟨b, hb, hbx⟩ := hg.fl_blk x hx
    exact List.mem_map.2 ⟨b, hb, hbx⟩
  have := (hg.nodup.subperm hsub).length_le
  rw [List.length_map] at this
  exact this

theorem listFrom_of_linked (s : Heap) {S : Nat} (hS : s.heap_listp = S) :
    ∀ (l : List Nat) (prev fuel : Nat), (∀ x ∈ l, x ≠ S) → Linked s.mem S prev l →
      l.length + 1 ≤ fuel → listFrom s fuel (l.headD S) = some l := by
  intro l
  induction l with
  | nil =>
    intro prev fuel _ _ hf
    obtain ⟨k, rfl⟩ : ∃ k, fuel = k + 1 := ⟨fuel - 1, by simp at hf; omega⟩
    simp [listFrom, hS]
  | cons x xs ih =>
    intro prev fuel hne hl hf
    obtain ⟨k, rfl⟩ : ∃ k, fuel = k + 1 := ⟨fuel - 1, by omega⟩
    obtain ⟨_, h2, h3⟩ := hl
    have hx : x ≠ S := hne x (List.mem_cons_self _ _)
    have := ih x k (fun y hy => hne y (List.mem_cons_of_mem _ hy)) h3
      (by simp only [List.length_cons] at hf; omega)
    show listFrom s (k + 1) x = _
    unfold listFrom
    rw [if_neg (by rw [hS]; exact hx), h2, this]
    rfl

/-- The forward links from `free_listp` run through the free list and end
at the prologue sentinel. -/
theorem Geo.freeList {s : Heap} {bs : List Blk} {fl : List Nat} (hg : Geo s bs fl) :
    freeList s = some fl := by
  unfold MallocLab.freeList
  rw [hg.flp]
  apply listFrom_of_linked s hg.hlp fl 0
  · intro x hx
    have := hg.node hx
    omega
  · exact hg.link
  · have := hg.length_fl; have := hg.length_bs
    omega

theorem Geo.bsize {s : Heap} {bs : List Blk} {fl : List Nat} (hg : Geo s bs fl)
    {b : Blk} (hb : b ∈ bs) : bsize s b.bp = b.size := by
  have hB := hg.blk hb
  unfold MallocLab.bsize hdr
  rw [hB.hd]
  exact sizeOfWord_fit _ _ hB.sz16 hB.al1 hB.fit_tag

theorem Geo.hdr {s : Heap} {bs : List Blk} {fl : List Nat} (hg : Geo s bs fl)
    {b : Blk} (hb : b ∈ bs) : hdr s b.bp = b.size + b.al := (hg.blk hb).hd

theorem Geo.ftr {s : Heap} {bs : List Blk} {fl : List Nat} (hg : Geo s bs fl)
    {b : Blk} (hb : b ∈ bs) : ftr s b.bp = b.size + b.al := by
  unfold MallocLab.ftr
  rw [hg.bsize hb]
  exact (hg.blk hb).ft

theorem Geo.isFree {s : Heap} {bs : List Blk} {fl : List Nat} (hg : Geo s bs fl)
    {b : Blk} (hb : b ∈ bs) : isFree s b.bp = decide (b.al = 0) := by
  have hB := hg.blk hb
  unfold MallocLab.isFree
  rw [hg.hdr hb, allocOfWord_tag _ _ hB.sz16 hB.al1]

theorem walkFrom_of_tile (s : Heap) :
    ∀ (bs : List Blk) (a e fuel : Nat), Tile a bs e →
      (∀ b ∈ bs, 32 ≤ b.size ∧ sizeOfWord (s.mem (b.bp - 8)) = b.size) →
      sizeOfWord (s.mem (e - 8)) = 0 → bs.length + 1 ≤ fuel →
      walkFrom s fuel a = some (bs.map Blk.bp, e) := by
  intro bs
  induction bs with
  | nil =>
    intro a e fuel ht _ he hf
    obtain ⟨k, rfl⟩ : ∃ k, fuel = k + 1 := ⟨fuel - 1, by simp at hf; omega⟩
    simp only [Tile] at ht
    subst ht
    unfold walkFrom
    rw [if_pos he]
    rfl
  | cons b r ih =>
    intro a e fuel ht hb he hf
    obtain ⟨k, rfl⟩ : ∃ k, fuel = k + 1 := ⟨fuel - 1, by omega⟩
    obtain ⟨h1, h2⟩ := ht
    obtain ⟨h32, hsz⟩ := hb b (List.mem_cons_self _ _)
    subst h1
    have := ih (b.bp + b.size) e k h2 (fun c hc => hb c (List.mem_cons_of_mem _ hc)) he
      (by simp only [List.length_cons] at hf; omega)
    unfold walkFrom
    rw [hsz, if_neg (by omega), this]
    rfl

/-- The walk by header size visits the blocks in address order and ends at
the end of the region. -/
theorem Geo.heapWalk {s : Heap} {bs : List Blk} {fl : List Nat} (hg : Geo s bs fl) :
    heapWalk s = some (bs.map Blk.bp, s.brk) := by
  unfold MallocLab.heapWalk
  apply walkFrom_of_tile s bs _ _ _ hg.tile
  · intro b hb
    have := hg.bsize hb
    exact ⟨(hg.tag b hb).1, this⟩
  · rw [hg.epi]; decide
  · have := hg.length_bs
    omega

end MallocLab


namespace MallocLab

/-! ## The four cases of `coalesce` together -/

theorem erase_eq_filter_not_mem {fl : List Nat} (hn : fl.Nodup) (a : Nat) :
    fl.erase a = fl.filter (fun x => decide (x ∉ [a])) := by
  rw [hn.erase_eq_filter]
  apply List.filter_congr
  intro x _
  by_cases hx : x = a <;> simp [hx]

theorem erase_erase_eq_filter {fl : List Nat} (hn : fl.Nodup) (a c : Nat) :
    (fl.erase a).erase c = fl.filter (fun x => decide (x ∉ [a, c])) := by
  rw [(hn.erase a).erase_eq_filter, hn.erase_eq_filter, List.filter_filter]
  apply List.filter_congr
  intro x _
  by_cases hx : x = a <;> by_cases hc : x = c <;> simp [hx, hc]

theorem filter_not_mem_nil (fl : List Nat) :
    fl.filter (fun x => decide (x ∉ ([] : List Nat))) = fl := by
  simp

theorem Tagged.al_cases {m : Nat → Nat} {c : Blk} (h : Tagged m c) : c.al = 0 ∨ c.al = 1 := by
  have := h.2.2.1; omega

/-- The result of `coalesce` in all four cases. -/
theorem coalesce_merge {s : Heap} {pre post : List Blk} {b : Blk} {fl : List Nat}
    (h : PreCo s pre b post fl) :
    ∃ s', coalesce s b.bp = some (mergedBp pre b, s') ∧
      Inv s' (mergedBlocks pre b post) (mergedBp pre b :: keptList pre post fl) ∧
      s'.lo = s.lo ∧ s'.brk = s.brk ∧ s'.max_addr = s.max_addr ∧
      s'.heap_listp = s.heap_listp := by
  have hnd := h.geo.nodup
  have htag := h.geo.tag
  have hbe : (⟨b.bp, b.size, 0⟩ : Blk) = b := by
    have := h.bfree
    cases b
    simp only [Blk.mk.injEq, true_and] at *
    exact this.symm
  have htk : ∀ (l : List Blk) (p : Blk), List.take (l.length + 1) (l ++ [p]) = l ++ [p] :=
    fun l p => List.take_of_length_le (by simp)
  -- the shape of the predecessor
  rcases List.eq_nil_or_concat pre with hpre | ⟨pre', p, hpre⟩
  · -- no predecessor
    subst hpre
    cases post with
    | nil =>
      obtain ⟨s', h1, h2, h3⟩ := coalesce_case1 h PrevAl_nil NextAl_nil
      refine ⟨s', h1, ?_, h3⟩
      simpa [mergedBlocks, mergedBp, mergedSize, keptList, freeNbr, hbe, htk] using h2
    | cons n post' =>
      rcases (htag n (by simp)).al_cases with hn | hn
      · obtain ⟨s', h1, h2, h3⟩ := coalesce_case2 h PrevAl_nil hn
        refine ⟨s', h1, ?_, h3⟩
        rw [erase_eq_filter_not_mem hnd] at h2
        simpa [mergedBlocks, mergedBp, mergedSize, keptList, freeNbr, hn, hbe, htk] using h2
      · obtain ⟨s', h1, h2, h3⟩ := coalesce_case1 h PrevAl_nil (NextAl_cons.2 hn)
        refine ⟨s', h1, ?_, h3⟩
        simpa [mergedBlocks, mergedBp, mergedSize, keptList, freeNbr, hn, hbe, htk] using h2
  · rw [List.concat_eq_append] at hpre
    subst hpre
    rcases (htag p (by simp)).al_cases with hp | hp
    · -- the predecessor is free
      cases post with
      | nil =>
        obtain ⟨s', h1, h2, h3⟩ := coalesce_case3 h hp NextAl_nil
        refine ⟨s', ?_, ?_, h3⟩
        · simpa [mergedBp, freeNbr, hp] using h1
        · rw [erase_eq_filter_not_mem hnd] at h2
          simpa [mergedBlocks, mergedBp, mergedSize, keptList, freeNbr, hp, hbe, htk] using h2
      | cons n post' =>
        rcases (htag n (by simp)).al_cases with hn | hn
        · obtain ⟨s', h1, h2, h3⟩ := coalesce_case4 h hp hn
          refine ⟨s', ?_, ?_, h3⟩
          · simpa [mergedBp, freeNbr, hp] using h1
          · rw [erase_erase_eq_filter hnd] at h2
            simpa [mergedBlocks, mergedBp, mergedSize, keptList, freeNbr, hp, hn,
              Nat.add_assoc] using h2
        · obtain ⟨s', h1, h2, h3⟩ := coalesce_case3 h hp (NextAl_cons.2 hn)
          refine ⟨s', ?_, ?_, h3⟩
          · simpa [mergedBp, freeNbr, hp] using h1
          · rw [erase_eq_filter_not_mem hnd] at h2
            simpa [mergedBlocks, mergedBp, mergedSize, keptList, freeNbr, hp, hn, hbe, htk] using h2
    · -- the predecessor is allocated
      cases post with
      | nil =>
        obtain ⟨s', h1, h2, h3⟩ := coalesce_case1 h (PrevAl_concat.2 hp) NextAl_nil
        refine ⟨s', ?_, ?_, h3⟩
        · simpa [mergedBp, freeNbr, hp] using h1
        · simpa [mergedBlocks, mergedBp, mergedSize, keptList, freeNbr, hp, hbe, htk] using h2
      | cons n post' =>
        rcases (htag n (by simp)).al_cases with hn | hn
        · obtain ⟨s', h1, h2, h3⟩ := coalesce_case2 h (PrevAl_concat.2 hp) hn
          refine ⟨s', ?_, ?_, h3⟩
          · simpa [mergedBp, freeNbr, hp] using h1
          · rw [erase_eq_filter_not_mem hnd] at h2
            simpa [mergedBlocks, mergedBp, mergedSize, keptList, freeNbr, hp, hn, hbe, htk] using h2
        · obtain ⟨s', h1, h2, h3⟩ :=
            coalesce_case1 h (PrevAl_concat.2 hp) (NextAl_cons.2 hn)
          refine ⟨s', ?_, ?_, h3⟩
          · simpa [mergedBp, freeNbr, hp] using h1
          · simpa [mergedBlocks, mergedBp, mergedSize, keptList, freeNbr, hp, hn, hbe, htk] using h2

end MallocLab


namespace MallocLab

/-! ## The blocks after a merge -/

theorem freeNbr_al {o : Option Blk} {c : Blk} (h : c ∈ freeNbr o) : c.al = 0 := by
  unfold freeNbr at h
  cases o with
  | none => simp at h
  | some d =>
    by_cases hd : d.al = 0
    · simp [hd] at h; rw [h]; exact hd
    · simp [hd] at h

theorem take_freeNbr (pre : List Blk) :
    pre = pre.take (pre.length - (freeNbr pre.getLast?).length) ++ freeNbr pre.getLast? := by
  rcases List.eq_nil_or_concat pre with h | ⟨pre', p, h⟩
  · subst h; simp [freeNbr]
  · rw [List.concat_eq_append] at h
    subst h
    by_cases hp : p.al = 0 <;> simp [freeNbr, hp]

theorem drop_freeNbr (post : List Blk) :
    post = freeNbr post.head? ++ post.drop (freeNbr post.head?).length := by
  cases post with
  | nil => simp [freeNbr]
  | cons n r => by_cases hn : n.al = 0 <;> simp [freeNbr, hn]

/-- An allocated block next to the place of a merge is still there. -/
theorem merged_keeps {pre post : List Blk} {b c : Blk} (hc : c ∈ pre ++ post)
    (hal : c.al = 1) : c ∈ mergedBlocks pre b post := by
  unfold mergedBlocks
  rcases List.mem_append.1 hc with h | h
  · rw [take_freeNbr pre] at h
    rcases List.mem_append.1 h with h | h
    · exact List.mem_append_left _ h
    · have := freeNbr_al h; omega
  · rw [drop_freeNbr post] at h
    rcases List.mem_append.1 h with h | h
    · have := freeNbr_al h; omega
    · exact List.mem_append_right _ (List.mem_cons_of_mem _ h)

/-- An allocated block after a merge was there before. -/
theorem merged_old {pre post : List Blk} {b c : Blk} (hc : c ∈ mergedBlocks pre b post)
    (hal : c.al = 1) : c ∈ pre ++ post := by
  unfold mergedBlocks at hc
  rcases List.mem_append.1 hc with h | h
  · exact List.mem_append_left _ (List.mem_of_mem_take h)
  · rcases List.mem_cons.1 h with h | h
    · rw [h] at hal; simp at hal
    · exact List.mem_append_right _ (List.mem_of_mem_drop h)

theorem merged_mem (pre post : List Blk) (b : Blk) :
    (⟨mergedBp pre b, mergedSize pre b post, 0⟩ : Blk) ∈ mergedBlocks pre b post := by
  unfold mergedBlocks; simp

theorem mergedBp_of_prevAl {pre : List Blk} (b : Blk) (h : PrevAl pre) :
    mergedBp pre b = b.bp := by
  unfold mergedBp freeNbr
  cases hl : pre.getLast? with
  | none => rfl
  | some p =>
    have := h p (by rw [hl]; exact rfl)
    simp [this]

theorem mergedSize_ge (pre post : List Blk) (b : Blk) : b.size ≤ mergedSize pre b post := by
  unfold mergedSize; omega

/-- The merged block starts at or before `b` and ends at or after it. -/
theorem merged_covers {a e : Nat} {pre post : List Blk} {b : Blk}
    (h : Tile a (pre ++ b :: post) e) :
    mergedBp pre b ≤ b.bp ∧ b.bp + b.size ≤ mergedBp pre b + mergedSize pre b post ∧
      mergedBp pre b + ((freeNbr pre.getLast?).map Blk.size).sum = b.bp := by
  have h1 := (Tile_split h).1
  unfold mergedSize mergedBp
  rcases List.eq_nil_or_concat pre with hp | ⟨pre', p, hp⟩
  · subst hp; simp [freeNbr]
  · rw [List.concat_eq_append] at hp
    subst hp
    have h2 := (Tile_split h1).2
    simp only [Tile] at h2
    by_cases hpa : p.al = 0
    · simp [freeNbr, hpa]; omega
    · simp [freeNbr, hpa]

/-! ## `mm_free` -/

theorem NoAdj_split {pre post : List Blk} {b : Blk} (h : NoAdj (pre ++ b :: post)) :
    NoAdj pre ∧ NoAdj post := by
  unfold NoAdj at *
  have h1 := List.chain'_append.1 h
  exact ⟨h1.1, (List.chain'_cons'.1 h1.2.1).2⟩

/-- Re-tagging one block keeps the shape of the heap. -/
theorem Geo.retag {s : Heap} {pre post : List Blk} {b : Blk} {fl : List Nat} (al : Nat)
    (hg : Geo s (pre ++ b :: post) fl) (hal : al ≤ 1) :
    Geo ((s.set (b.bp - 8) (b.size + al)).set (b.bp + b.size - 16) (b.size + al))
      (pre ++ ⟨b.bp, b.size, al⟩ :: post) fl := by
  have hB := hg.blk (show b ∈ pre ++ b :: post by simp)
  have hg' : Geo s (pre ++ [b] ++ post) fl := by simpa using hg
  have h32 := hB.sz32
  apply @Geo.merge s
    ((s.set (b.bp - 8) (b.size + al)).set (b.bp + b.size - 16) (b.size + al))
    _ _ _ _ _ _ _ hg' rfl rfl rfl rfl rfl (by simp)
    (show Tile b.bp [b] (b.bp + b.size) from ⟨rfl, rfl⟩) hal
  · intro a ha1 ha2
    rw [set_mem_ne ha2, set_mem_ne ha1]
  · rw [set_mem_ne (by omega), set_mem_eq]
  · rw [set_mem_eq]
  · intro c hc _
    simp only [List.mem_singleton] at hc
    rw [hc]

/-- Freeing an allocated block: the block is tagged free and merged with its
free neighbours. -/
theorem mm_free_spec {s : Heap} {pre post : List Blk} {b : Blk} {fl : List Nat}
    (hi : Inv s (pre ++ b :: post) fl) (hal : b.al = 1) :
    ∃ s', mm_free s b.bp = some s' ∧
      Inv s' (mergedBlocks pre ⟨b.bp, b.size, 0⟩ post)
        (mergedBp pre ⟨b.bp, b.size, 0⟩ :: keptList pre post fl) ∧
      s'.lo = s.lo ∧ s'.brk = s.brk ∧ s'.max_addr = s.max_addr ∧
      s'.heap_listp = s.heap_listp := by
  have hg := hi.geo
  have hbm : b ∈ pre ++ b :: post := by simp
  have hB := hg.blk hbm
  have hlo := hB.lo
  have h32 := hB.sz32
  obtain ⟨s2, hs2⟩ : ∃ s2, s2 = (s.set (b.bp - 8) (b.size + 0)).set (b.bp + b.size - 16)
    (b.size + 0) := ⟨_, rfl⟩
  have hg2 : Geo s2 (pre ++ ⟨b.bp, b.size, 0⟩ :: post) fl := by
    rw [hs2]; exact hg.retag 0 (Nat.zero_le 1)
  have hpc : PreCo s2 pre ⟨b.bp, b.size, 0⟩ post fl := by
    refine ⟨hg2, rfl, ?_, ?_, (NoAdj_split hi.nadj).1, (NoAdj_split hi.nadj).2⟩
    · intro hx
      have := (hi.free_iff b hbm).2 hx
      omega
    · intro c hc
      exact hi.free_iff c (by
        rcases List.mem_append.1 hc with h | h
        · exact List.mem_append_left _ h
        · exact List.mem_append_right _ (List.mem_cons_of_mem _ h))
  obtain ⟨s', hco, hinv, e1, e2, e3, e4⟩ := coalesce_merge hpc
  refine ⟨s', ?_, hinv, by rw [e1, hs2]; rfl, by rw [e2, hs2]; rfl, by rw [e3, hs2]; rfl,
    by rw [e4, hs2]; rfl⟩
  have hv1 : s.valid (b.bp - 8) := hB.valid_hd
  have hv2 : (s.set (b.bp - 8) b.size).valid (b.bp + b.size - 16) := hB.valid_ft
  have hft : FTRP (s.set (b.bp - 8) b.size) b.bp = some (b.bp + b.size - 16) :=
    @FTRP_of _ _ _ 0 hv1 (by omega) (by rw [set_mem_eq]; rfl) hB.sz16 (Nat.zero_le 1)
      (by omega) hB.fit_end
  simp only [Nat.add_zero] at hs2
  unfold mm_free
  rw [if_neg (by simp only [NULL]; omega), hB.hdrp, hB.get_size, Run.some_bind, PACK_zero,
    PUT_valid _ hv1, Run.some_bind, hft, Run.some_bind, PUT_valid _ hv2, Run.some_bind,
    ← hs2, hco, Run.some_bind]
  rfl

end MallocLab


namespace MallocLab

/-! ## `find_fit` -/

/-- What `find_fit` reads at a member of the free list. -/
theorem Inv.node_reads {s : Heap} {bs : List Blk} {fl : List Nat} (hi : Inv s bs fl)
    {x : Nat} (hx : x ∈ fl) :
    GET_ALLOC s (HDRP x) = some 0 ∧ GET_SIZE s (HDRP x) = some (bsize s x) ∧
      GET s (NEXT_PTR x) = some (s.mem (x + 8)) := by
  obtain ⟨b, hb, hbx⟩ := hi.geo.fl_blk x hx
  have hB := hi.geo.blk hb
  have hal : b.al = 0 := (hi.free_iff b hb).2 (by rw [hbx]; exact hx)
  have h1 := hB.get_alloc
  have h2 := hB.get_size
  rw [← hbx, hB.hdrp, hi.geo.bsize hb, hi.geo.next_ptr (by rw [hbx]; exact hx)]
  rw [hal] at h1
  exact ⟨h1, h2, GET_valid (hi.geo.valid_node (by rw [hbx]; exact hx)).2⟩

/-- At the prologue sentinel `find_fit` reads an allocated header. -/
theorem Geo.sentinel_alloc {s : Heap} {bs : List Blk} {fl : List Nat} (hg : Geo s bs fl) :
    GET_ALLOC s (HDRP (s.lo + 16)) = some 1 := by
  have hge := hg.brk_ge
  have hlo := hg.lo_al
  rw [HDRP_eq (by omega) (hg.fits.mono (by omega))]
  have hv : s.valid (s.lo + 16 - 8) := by unfold Heap.valid; omega
  exact @GET_ALLOC_of _ _ 16 _ hv (by
    have : s.lo + 16 - 8 = s.lo + 8 := by omega
    rw [this]; exact hg.pro) (by decide) (le_refl 1)

theorem find_fit_loop_succ (s : Heap) (asize fuel bp : Nat) :
    find_fit_loop s asize (fuel + 1) bp = (do
      let a ← GET_ALLOC s (HDRP bp)
      if a = 0 then
        let sz ← GET_SIZE s (HDRP bp)
        if asize ≤ sz then pure bp
        else
          let nx ← GET s (NEXT_PTR bp)
          find_fit_loop s asize fuel nx
      else pure NULL) := rfl

theorem find_fit_loop_spec {s : Heap} {bs : List Blk} {fl : List Nat} (hi : Inv s bs fl)
    (asize : Nat) :
    ∀ (l : List Nat) (prev fuel : Nat), (∀ x ∈ l, x ∈ fl) →
      Linked s.mem (s.lo + 16) prev l → l.length + 1 ≤ fuel →
      find_fit_loop s asize fuel (l.headD (s.lo + 16)) =
        some ((l.find? (fun x => decide (asize ≤ bsize s x))).getD 0) := by
  intro l
  induction l with
  | nil =>
    intro prev fuel _ _ hf
    obtain ⟨k, rfl⟩ : ∃ k, fuel = k + 1 := ⟨fuel - 1, by simp at hf; omega⟩
    show find_fit_loop s asize (k + 1) (s.lo + 16) = _
    rw [find_fit_loop_succ]
    rw [hi.geo.sentinel_alloc, Run.some_bind, if_neg (by decide)]
    rfl
  | cons x xs ih =>
    intro prev fuel hsub hl hf
    obtain ⟨k, rfl⟩ : ∃ k, fuel = k + 1 := ⟨fuel - 1, by omega⟩
    obtain ⟨_, h2, h3⟩ := hl
    obtain ⟨r1, r2, r3⟩ := hi.node_reads (hsub x (List.mem_cons_self _ _))
    have := ih x k (fun y hy => hsub y (List.mem_cons_of_mem _ hy)) h3
      (by simp only [List.length_cons] at hf; omega)
    show find_fit_loop s asize (k + 1) x = _
    rw [find_fit_loop_succ]
    rw [r1, Run.some_bind, if_pos rfl, r2, Run.some_bind]
    by_cases hfit : asize ≤ bsize s x
    · rw [if_pos hfit, List.find?_cons_of_pos _ (by simpa using hfit)]
      rfl
    · rw [if_neg hfit, r3, Run.some_bind, h2, this,
        List.find?_cons_of_neg _ (by simpa using hfit)]

/-- With a budget of one iteration more than the list is long, the loop of `find_fit` returns the first
member of the free list that is large enough, `NULL` when there is none. -/
theorem find_fit_fuel {s : Heap} {bs : List Blk} {fl : List Nat} (hi : Inv s bs fl)
    (asize fuel : Nat) (hf : fl.length + 1 ≤ fuel) :
    find_fit_loop s asize fuel s.free_listp =
      some ((fl.find? (fun x => decide (asize ≤ bsize s x))).getD 0) := by
  rw [hi.geo.flp]
  exact find_fit_loop_spec hi asize fl 0 fuel (fun x hx => hx) hi.geo.link hf

theorem find_fit_spec {s : Heap} {bs : List Blk} {fl : List Nat} (hi : Inv s bs fl)
    (asize : Nat) :
    find_fit s asize = some ((fl.find? (fun x => decide (asize ≤ bsize s x))).getD 0) := by
  unfold find_fit
  apply find_fit_fuel hi
  have := hi.geo.length_fl; have := hi.geo.length_bs
  omega

/-- The result of `find_fit` is `NULL` or a free block that is large
enough. -/
theorem find_fit_cases {s : Heap} {bs : List Blk} {fl : List Nat} (hi : Inv s bs fl)
    (asize : Nat) :
    (find_fit s asize = some 0 ∧ ∀ x ∈ fl, bsize s x < asize) ∨
      ∃ b ∈ bs, find_fit s asize = some b.bp ∧ b.al = 0 ∧ b.bp ∈ fl ∧ asize ≤ b.size := by
  rw [find_fit_spec hi]
  cases hfind : fl.find? (fun x => decide (asize ≤ bsize s x)) with
  | none =>
    left
    refine ⟨rfl, ?_⟩
    intro x hx
    have := List.find?_eq_none.1 hfind x hx
    simpa using this
  | some x =>
    right
    have hx := List.mem_of_find?_eq_some hfind
    have hp := List.find?_some hfind
    obtain ⟨b, hb, hbx⟩ := hi.geo.fl_blk x hx
    refine ⟨b, hb, by rw [hbx]; rfl, (hi.free_iff b hb).2 (by rw [hbx]; exact hx),
      by rw [hbx]; exact hx, ?_⟩
    rw [← hbx, hi.geo.bsize hb] at hp
    simpa using hp

end MallocLab


namespace MallocLab

/-! ## Deleting from the list after tags were rewritten -/

theorem Heap.set_comm (s : Heap) {a c : Nat} (v w : Nat) (h : a ≠ c) :
    (s.set a v).set c w = (s.set c w).set a v := by
  unfold Heap.set
  simp only [Heap.mk.injEq, and_true, true_and]
  funext z
  by_cases h1 : z = c
  · subst h1
    simp [Ne.symm h]
  · by_cases h2 : z = a
    · subst h2; simp [h]
    · simp [h1, h2]

theorem GET_set_ne {s : Heap} {a v p : Nat} (h : p ≠ a) : GET (s.set a v) p = GET s p := by
  unfold GET
  simp only [set_valid, set_mem, if_neg h]

theorem GET_eq_some {s : Heap} {p w : Nat} (h : GET s p = some w) :
    s.valid p ∧ s.mem p = w := by
  unfold GET at h
  by_cases hv : s.valid p
  · rw [if_pos hv] at h
    exact ⟨hv, Option.some.inj h⟩
  · rw [if_neg hv] at h
    exact absurd h (by simp)

theorem PUT_eq_some {s t : Heap} {p w : Nat} (h : PUT s p w = some t) :
    s.valid p ∧ t = s.set p w := by
  unfold PUT at h
  by_cases hv : s.valid p
  · rw [if_pos hv] at h
    exact ⟨hv, (Option.some.inj h).symm⟩
  · rw [if_neg hv] at h
    exact absurd h (by simp)

/-- The list operation `delete_block_from_list` does not depend on a cell that it neither
reads nor writes. -/
theorem delete_comm {s s1 : Heap} {x a v : Nat}
    (hd : delete_block_from_list s x = some s1)
    (h1 : a ≠ x) (h2 : a ≠ NEXT_PTR x) (h3 : a ≠ NEXT_PTR (s.mem x))
    (h4 : a ≠ s.mem (NEXT_PTR x)) :
    delete_block_from_list (s.set a v) x = some (s1.set a v) := by
  unfold delete_block_from_list at hd ⊢
  simp only [PREV_PTR] at hd ⊢
  obtain ⟨pv, hpv, hd⟩ := Run.bind_eq_some hd
  obtain ⟨hvx, rfl⟩ := GET_eq_some hpv
  rw [GET_set_ne (Ne.symm h1), hpv, Run.some_bind]
  obtain ⟨t, ht, hd⟩ := Run.bind_eq_some hd
  by_cases hz : s.mem x = NULL
  · rw [if_pos hz] at ht ⊢
    obtain ⟨nx, hnx, ht⟩ := Run.bind_eq_some ht
    obtain ⟨hvn, rfl⟩ := GET_eq_some hnx
    have ht' : t = { s with free_listp := s.mem (NEXT_PTR x) } := (Option.some.inj ht).symm
    subst ht'
    rw [GET_set_ne (Ne.symm h2), hnx, Run.some_bind, Run.pure_eq, Run.some_bind]
    obtain ⟨nx2, hnx2, hd⟩ := Run.bind_eq_some hd
    obtain ⟨_, rfl⟩ := GET_eq_some hnx2
    obtain ⟨pv2, hpv2, hd⟩ := Run.bind_eq_some hd
    obtain ⟨_, rfl⟩ := GET_eq_some hpv2
    obtain ⟨hvp, rfl⟩ := PUT_eq_some hd
    have e1 : GET ({ s.set a v with free_listp := s.mem (NEXT_PTR x) } : Heap) (NEXT_PTR x) =
        some (s.mem (NEXT_PTR x)) := by
      unfold GET
      rw [if_pos (show ({ s.set a v with free_listp := s.mem (NEXT_PTR x) } : Heap).valid
        (NEXT_PTR x) from hvn)]
      show some ((s.set a v).mem (NEXT_PTR x)) = _
      rw [set_mem_ne (Ne.symm h2)]
    have e2 : GET ({ s.set a v with free_listp := s.mem (NEXT_PTR x) } : Heap) x =
        some (s.mem x) := by
      unfold GET
      rw [if_pos (show ({ s.set a v with free_listp := s.mem (NEXT_PTR x) } : Heap).valid
        x from hvx)]
      show some ((s.set a v).mem x) = _
      rw [set_mem_ne (Ne.symm h1)]
    rw [e1, Run.some_bind, e2, Run.some_bind]
    unfold PUT
    rw [if_pos (show ({ s.set a v with free_listp := s.mem (NEXT_PTR x) } : Heap).valid _
      from hvp)]
    congr 1
    show (({ s with free_listp := s.mem (NEXT_PTR x) } : Heap).set a v).set _ _ = _
    exact Heap.set_comm _ _ _ h4
  · rw [if_neg hz] at ht ⊢
    obtain ⟨nx, hnx, ht⟩ := Run.bind_eq_some ht
    obtain ⟨hvn, rfl⟩ := GET_eq_some hnx
    obtain ⟨hvq, rfl⟩ := PUT_eq_some ht
    rw [GET_set_ne (Ne.symm h2), hnx, Run.some_bind,
      PUT_valid _ (show (s.set a v).valid (NEXT_PTR (s.mem x)) from hvq), Run.some_bind,
      Heap.set_comm s _ _ h3]
    obtain ⟨nx2, hnx2, hd⟩ := Run.bind_eq_some hd
    obtain ⟨hv5, rfl⟩ := GET_eq_some hnx2
    obtain ⟨pv2, hpv2, hd⟩ := Run.bind_eq_some hd
    obtain ⟨hv6, rfl⟩ := GET_eq_some hpv2
    obtain ⟨hvp, rfl⟩ := PUT_eq_some hd
    rw [GET_set_ne (Ne.symm h2), hnx2, Run.some_bind, GET_set_ne (Ne.symm h1), hpv2,
      Run.some_bind]
    have h5 : a ≠ (s.set (NEXT_PTR (s.mem x)) (s.mem (NEXT_PTR x))).mem (NEXT_PTR x) := by
      by_cases hc : NEXT_PTR x = NEXT_PTR (s.mem x)
      · rw [← hc, set_mem_eq]; exact h4
      · rw [set_mem_ne hc]; exact h4
    rw [PUT_valid _ (show ((s.set (NEXT_PTR (s.mem x)) (s.mem (NEXT_PTR x))).set a v).valid _
      from hvp), Heap.set_comm _ _ _ h5]

theorem Linked_mem {m : Nat → Nat} {S : Nat} :
    ∀ {l : List Nat} {prev x : Nat}, Linked m S prev l → x ∈ l →
      (m x = prev ∨ m x ∈ l) ∧ (m (x + 8) = S ∨ m (x + 8) ∈ l) := by
  intro l
  induction l with
  | nil => intro prev x _ hx; simp at hx
  | cons y t ih =>
    intro prev x h hx
    obtain ⟨h1, h2, h3⟩ := h
    rcases List.mem_cons.1 hx with hxy | hxt
    · subst hxy
      refine ⟨Or.inl h1, ?_⟩
      rw [h2]
      cases t with
      | nil => exact Or.inl rfl
      | cons z r => exact Or.inr (by simp)
    · obtain ⟨i1, i2⟩ := ih h3 hxt
      constructor
      · right
        rcases i1 with i1 | i1
        · rw [i1]; exact List.mem_cons_self _ _
        · exact List.mem_cons_of_mem _ i1
      · rcases i2 with i2 | i2
        · exact Or.inl i2
        · exact Or.inr (List.mem_cons_of_mem _ i2)

/-- A cell of a block other than its first two payload words holds no
link. -/
theorem Geo.inner_not_pay {s : Heap} {bs : List Blk} {fl : List Nat} (hg : Geo s bs fl)
    {b : Blk} (hb : b ∈ bs) {a : Nat} (h1 : b.bp - 8 ≤ a) (h2 : a ≤ b.bp + b.size - 16)
    (h3 : a ≠ b.bp) (h4 : a ≠ b.bp + 8) : ¬ PayCell s bs a := by
  have hB := hg.blk hb
  have hlo := hB.lo; have h32 := hB.sz32
  rintro (h | ⟨c, hc, h⟩)
  · omega
  · have hC := hg.blk hc
    have := hC.sz32
    rcases Tile_apart hg.tile hb hc with e | e | e
    · subst e; omega
    · omega
    · omega

/-- Deleting from the list gives the same result when two cells that hold no
links were rewritten before. -/
theorem Geo.delete_comm2 {s s1 : Heap} {bs : List Blk} {fl : List Nat} (hg : Geo s bs fl)
    {x : Nat} (hx : x ∈ fl) (hd : delete_block_from_list s x = some s1) {a c : Nat}
    (v w : Nat) (ha : ¬ LinkCell s fl a) (ha8 : a ≠ 8) (hc : ¬ LinkCell s fl c)
    (hc8 : c ≠ 8) :
    delete_block_from_list ((s.set a v).set c w) x = some ((s1.set a v).set c w) := by
  obtain ⟨m1, m2⟩ := Linked_mem hg.link hx
  have hnx := hg.next_ptr hx
  have key : ∀ z, ¬ LinkCell s fl z → z ≠ 8 →
      z ≠ x ∧ z ≠ x + 8 ∧ z ≠ NEXT_PTR (s.mem x) ∧ z ≠ s.mem (x + 8) := by
    intro z hz hz8
    refine ⟨fun h => hz (Or.inr ⟨x, hx, Or.inl h⟩), fun h => hz (Or.inr ⟨x, hx, Or.inr h⟩),
      ?_, ?_⟩
    · rcases m1 with m1 | m1
      · rw [m1]; exact hz8
      · rw [hg.next_ptr m1]
        exact fun h => hz (Or.inr ⟨_, m1, Or.inr h⟩)
    · rcases m2 with m2 | m2
      · rw [m2]; exact fun h => hz (Or.inl h)
      · exact fun h => hz (Or.inr ⟨_, m2, Or.inl h⟩)
  obtain ⟨a1, a2, a3, a4⟩ := key a ha ha8
  obtain ⟨c1, c2, c3, c4⟩ := key c hc hc8
  have step1 := delete_comm (v := v) hd a1 (by rw [hnx]; exact a2) a3 (by rw [hnx]; exact a4)
  exact delete_comm (v := w) step1 c1 (by rw [hnx]; exact c2)
    (by rw [set_mem_ne (Ne.symm a1)]; exact c3)
    (by rw [hnx, set_mem_ne (Ne.symm a2)]; exact c4)

/-- The block `b` is replaced by the blocks `mid`, which take its place and
carry their tags; nothing outside the inner cells of `b` has changed. -/
theorem Geo.replace {s s' : Heap} {pre post mid : List Blk} {b : Blk} {fl : List Nat}
    (hg : Geo s (pre ++ b :: post) fl)
    (hlo : s'.lo = s.lo) (hbrk : s'.brk = s.brk) (hmax : s'.max_addr = s.max_addr)
    (hhl : s'.heap_listp = s.heap_listp) (hflp : s'.free_listp = s.free_listp)
    (hT : Tile b.bp mid (b.bp + b.size))
    (hmem : ∀ a, (a < b.bp - 8 ∨ b.bp + b.size - 16 < a ∨ a = b.bp ∨ a = b.bp + 8) →
      s'.mem a = s.mem a)
    (htag : ∀ c ∈ mid, Tagged s'.mem c)
    (hfl : b.bp ∈ fl → ∃ c ∈ mid, c.bp = b.bp) :
    Geo s' (pre ++ mid ++ post) fl := by
  have hbm : b ∈ pre ++ b :: post := by simp
  have hB := hg.blk hbm
  have hlo' := hB.lo; have h32 := hB.sz32; have hhi := hB.hi
  have hsp := Tile_split hg.tile
  apply hg.retile hlo hbrk hmax hhl hflp
  · intro a ha
    apply hmem
    rcases ha with (ha | ⟨c, hc, ha⟩) | ha | ha | ha
    · omega
    · have hC := hg.blk hc
      have := hC.sz32
      rcases Tile_apart hg.tile hbm hc with e | e | e
      · subst e; omega
      · omega
      · omega
    · omega
    · omega
    · omega
  · rw [List.append_assoc]
    exact Tile_append.2 ⟨b.bp, hsp.1, Tile_append.2 ⟨_, hT, hsp.2⟩⟩
  · intro c hc
    rcases List.mem_append.1 hc with hc | hc
    · rcases List.mem_append.1 hc with hc | hc
      · have hcm : c ∈ pre ++ b :: post := List.mem_append_left _ hc
        have hC := hg.blk hcm
        have := hC.sz32; have := hC.lo
        have := Tile_pre hg.tile hc
        exact Tagged_frame (hg.tag c hcm) (hmem _ (by omega)) (hmem _ (by omega))
      · exact htag c hc
    · have hcm : c ∈ pre ++ b :: post := List.mem_append_right _ (List.mem_cons_of_mem _ hc)
      have hC := hg.blk hcm
      have := hC.sz32; have := hC.lo
      have := Tile_post hg.tile hc
      exact Tagged_frame (hg.tag c hcm) (hmem _ (by omega)) (hmem _ (by omega))
  · intro x hx
    obtain ⟨c, hc, hcx⟩ := hg.fl_blk x hx
    rcases List.mem_append.1 hc with hc | hc
    · exact ⟨c, by simp [hc], hcx⟩
    · rcases List.mem_cons.1 hc with hc | hc
      · subst hc
        obtain ⟨d, hd, hdx⟩ := hfl (by rw [hcx]; exact hx)
        exact ⟨d, by simp [hd], by rw [hdx, hcx]⟩
      · exact ⟨c, by simp [hc], hcx⟩

end MallocLab


namespace MallocLab

/-! ## `place` -/

theorem Inv.erase_iff {s : Heap} {pre post : List Blk} {b : Blk} {fl : List Nat}
    (hi : Inv s (pre ++ b :: post) fl) {c : Blk} (hc : c ∈ pre ++ post) :
    (c.al = 0 ↔ c.bp ∈ fl.erase b.bp) := by
  have hcm : c ∈ pre ++ b :: post := by
    rcases List.mem_append.1 hc with h | h
    · exact List.mem_append_left _ h
    · exact List.mem_append_right _ (List.mem_cons_of_mem _ h)
  have hne : c.bp ≠ b.bp := by
    have h32 := (hi.geo.blk hcm).sz32
    have h32' := (hi.geo.blk (show b ∈ pre ++ b :: post by simp)).sz32
    rcases List.mem_append.1 hc with h | h
    · have := Tile_pre hi.geo.tile h; omega
    · have := Tile_post hi.geo.tile h; omega
  rw [hi.free_iff c hcm, hi.geo.nodup.mem_erase_iff]
  simp [hne]

/-- Placing without a split: the whole free block becomes allocated. -/
theorem place_whole {s : Heap} {pre post : List Blk} {b : Blk} {fl : List Nat}
    (hi : Inv s (pre ++ b :: post) fl) (hb0 : b.al = 0) {asize : Nat}
    (hfit : asize ≤ b.size) (hns : b.size - asize < 32) :
    ∃ s', place s b.bp asize = some s' ∧
      Inv s' (pre ++ ⟨b.bp, b.size, 1⟩ :: post) (fl.erase b.bp) ∧
      s'.lo = s.lo ∧ s'.brk = s.brk ∧ s'.max_addr = s.max_addr ∧
      s'.heap_listp = s.heap_listp := by
  have hg := hi.geo
  have hbm : b ∈ pre ++ b :: post := by simp
  have hB := hg.blk hbm
  have hlo := hB.lo; have h32 := hB.sz32; have hhi := hB.hi; have h16 := hB.sz16
  have hx : b.bp ∈ fl := (hi.free_iff b hbm).1 hb0
  obtain ⟨s1, hd, hg1, e1, e2, e3, e4, _⟩ := delete_spec hg hx
  have hn1 : ¬ LinkCell s fl (b.bp - 8) := fun h =>
    hg.inner_not_pay hbm (le_refl _) (by omega) (by omega) (by omega) (hg.link_pay h)
  have hn2 : ¬ LinkCell s fl (b.bp + b.size - 16) := fun h =>
    hg.inner_not_pay hbm (by omega) (le_refl _) (by omega) (by omega) (hg.link_pay h)
  have hdc := hg.delete_comm2 hx hd (b.size + 1) (b.size + 1) hn1 (by omega) hn2 (by omega)
  have hg2 := @Geo.retag s1 pre post b _ 1 hg1 (le_refl 1)
  refine ⟨_, ?_, ⟨hg2, ?_, ?_⟩, e1, e2, e3, e4⟩
  · have hv1 : s.valid (b.bp - 8) := hB.valid_hd
    have hv2 : (s.set (b.bp - 8) (b.size + 1)).valid (b.bp + b.size - 16) := hB.valid_ft
    have hfitb : Fits (b.bp + b.size + 1) := by
      have := hg.brk_al; have := hg.fits
      unfold Fits at *; omega
    have hft : FTRP (s.set (b.bp - 8) (b.size + 1)) b.bp = some (b.bp + b.size - 16) :=
      @FTRP_of _ _ _ 1 hv1 (by omega) (by rw [set_mem_eq]) h16 (le_refl 1) (by omega) hfitb
    have hsub : sub64 b.size asize = b.size - asize :=
      sub64_fit hfit (hfitb.mono (by omega))
    unfold place
    rw [hB.hdrp, hB.get_size, Run.some_bind, hsub, if_neg (by simp only [DSIZE, WSIZE]; omega),
      PACK_one _ (by omega), PUT_valid _ hv1, Run.some_bind, hft, Run.some_bind,
      PUT_valid _ hv2, Run.some_bind, hdc]
  · intro c hc
    rcases List.mem_append.1 hc with h | h
    · exact hi.erase_iff (List.mem_append_left _ h)
    · rcases List.mem_cons.1 h with h | h
      · subst h
        have := List.Nodup.not_mem_erase (a := b.bp) hg.nodup
        simp [this]
      · exact hi.erase_iff (List.mem_append_right _ h)
  · exact NoAdj_join (NoAdj_split hi.nadj).1 (NoAdj_split hi.nadj).2 (Or.inl rfl) (Or.inl rfl)

theorem NoAdj_concat_alloc {pre : List Blk} {a : Blk} (h : NoAdj pre) (ha : a.al = 1) :
    NoAdj (pre ++ [a]) := by
  have : NoAdj ([] : List Blk) := by unfold NoAdj; exact List.chain'_nil
  exact NoAdj_join h this (Or.inl ha) (Or.inl ha)

/-- The shape of the heap after the four tag writes of a split. -/
theorem split_geo {s1 t3 : Heap} {pre post : List Blk} {b : Blk} {fl1 : List Nat}
    {asize rest : Nat} (hg1 : Geo s1 (pre ++ b :: post) fl1) (hout : b.bp ∉ fl1)
    (ha32 : 32 ≤ asize) (ha16 : asize % 16 = 0) (hr32 : 32 ≤ rest) (hr16 : rest % 16 = 0)
    (hsum : asize + rest = b.size)
    (ht3 : t3 = (((s1.set (b.bp - 8) (asize + 1)).set (b.bp + asize - 16) (asize + 1)).set
      (b.bp + asize - 8) rest).set (b.bp + asize + rest - 16) rest) :
    Geo t3 (pre ++ [⟨b.bp, asize, 1⟩, ⟨b.bp + asize, rest, 0⟩] ++ post) fl1 := by
  have hB := hg1.blk (show b ∈ pre ++ b :: post by simp)
  have hlo := hB.lo
  have hm1 : t3.mem (b.bp - 8) = asize + 1 := by
    rw [ht3, set_mem_ne (by omega), set_mem_ne (by omega), set_mem_ne (by omega), set_mem_eq]
  have hm2 : t3.mem (b.bp + asize - 16) = asize + 1 := by
    rw [ht3, set_mem_ne (by omega), set_mem_ne (by omega), set_mem_eq]
  have hm3 : t3.mem (b.bp + asize - 8) = rest := by
    rw [ht3, set_mem_ne (by omega), set_mem_eq]
  have hm4 : t3.mem (b.bp + asize + rest - 16) = rest := by
    rw [ht3, set_mem_eq]
  apply hg1.replace (by rw [ht3]; rfl) (by rw [ht3]; rfl) (by rw [ht3]; rfl)
    (by rw [ht3]; rfl) (by rw [ht3]; rfl)
  · exact ⟨rfl, rfl, by show b.bp + asize + rest = _; omega⟩
  · intro a ha
    rw [ht3, set_mem_ne (by omega), set_mem_ne (by omega), set_mem_ne (by omega),
      set_mem_ne (by omega)]
  · intro c hc
    simp only [List.mem_cons, List.mem_singleton, List.not_mem_nil, or_false] at hc
    rcases hc with hc | hc
    · rw [hc]
      exact ⟨ha32, ha16, le_refl 1, hm1, hm2⟩
    · rw [hc]
      exact ⟨hr32, hr16, Nat.zero_le 1, hm3, hm4⟩
  · intro hin
    exact absurd hin hout

/-- The run of `place` when it splits. -/
theorem split_run {s s1 t3 s' : Heap} {b : Blk} {asize rest r : Nat} (hB : BlkAt s b)
    (hal : s.brk % 16 = 0)
    (ha32 : 32 ≤ asize) (ha16 : asize % 16 = 0) (hr32 : 32 ≤ rest) (hr16 : rest % 16 = 0)
    (hsum : asize + rest = b.size) (e1 : s1.lo = s.lo) (e2 : s1.brk = s.brk)
    (hdc : delete_block_from_list
      ((s.set (b.bp - 8) (asize + 1)).set (b.bp + asize - 16) (asize + 1)) b.bp =
      some ((s1.set (b.bp - 8) (asize + 1)).set (b.bp + asize - 16) (asize + 1)))
    (ht3 : t3 = (((s1.set (b.bp - 8) (asize + 1)).set (b.bp + asize - 16) (asize + 1)).set
      (b.bp + asize - 8) rest).set (b.bp + asize + rest - 16) rest)
    (hco : coalesce t3 (b.bp + asize) = some (r, s')) :
    place s b.bp asize = some s' := by
  have hlo := hB.lo; have hhi := hB.hi; have hal16 := hB.al16
  have hfitb : Fits (b.bp + b.size + 1) := by
    have := hB.fit
    unfold Fits at *; omega
  have hv1 : s.valid (b.bp - 8) := hB.valid_hd
  have hv2 : (s.set (b.bp - 8) (asize + 1)).valid (b.bp + asize - 16) := by
    show s.valid _
    unfold Heap.valid; omega
  have hft : FTRP (s.set (b.bp - 8) (asize + 1)) b.bp = some (b.bp + asize - 16) :=
    @FTRP_of _ _ _ 1 hv1 (by omega) (by rw [set_mem_eq]) ha16 (le_refl 1) (by omega)
      (hfitb.mono (by omega))
  have hsub : sub64 b.size asize = rest := by
    rw [sub64_fit (by omega) (hfitb.mono (by omega))]; omega
  have hv1' : ((s1.set (b.bp - 8) (asize + 1)).set (b.bp + asize - 16) (asize + 1)).valid
      (b.bp - 8) := by
    show s1.valid _
    unfold Heap.valid; rw [e1, e2]; omega
  have hnb : NEXT_BLKP ((s1.set (b.bp - 8) (asize + 1)).set (b.bp + asize - 16) (asize + 1))
      b.bp = some (b.bp + asize) :=
    @NEXT_BLKP_of _ _ _ 1 hv1' (by omega)
      (by rw [set_mem_ne (by omega), set_mem_eq]) ha16 (le_refl 1)
      (hfitb.mono (by omega))
  have hh3 : HDRP (b.bp + asize) = b.bp + asize - 8 :=
    HDRP_eq (by omega) (hfitb.mono (by omega))
  have hv3 : ((s1.set (b.bp - 8) (asize + 1)).set (b.bp + asize - 16) (asize + 1)).valid
      (b.bp + asize - 8) := by
    show s1.valid _
    unfold Heap.valid; rw [e1, e2]; omega
  have hft3 : FTRP (((s1.set (b.bp - 8) (asize + 1)).set (b.bp + asize - 16)
      (asize + 1)).set (b.bp + asize - 8) rest) (b.bp + asize) =
      some (b.bp + asize + rest - 16) :=
    @FTRP_of _ _ _ 0 hv3 (by omega) (by rw [set_mem_eq]; rfl) hr16
      (Nat.zero_le 1) (by omega) (hfitb.mono (by omega))
  have hv4 : (((s1.set (b.bp - 8) (asize + 1)).set (b.bp + asize - 16)
      (asize + 1)).set (b.bp + asize - 8) rest).valid (b.bp + asize + rest - 16) := by
    show s1.valid _
    unfold Heap.valid; rw [e1, e2]; omega
  unfold place
  rw [hB.hdrp, hB.get_size, Run.some_bind, hsub,
    if_pos (by simp only [DSIZE, WSIZE]; omega), PACK_one _ (by omega),
    PUT_valid _ hv1, Run.some_bind, hft, Run.some_bind, PUT_valid _ hv2, Run.some_bind,
    hdc, Run.some_bind, hnb, Run.some_bind, hh3, PACK_zero, PUT_valid _ hv3, Run.some_bind,
    hft3, Run.some_bind, PUT_valid _ hv4, Run.some_bind, ← ht3, hco, Run.some_bind]
  rfl

/-- Placing with a split: the front of the free block becomes allocated, the
rest is tagged free and handed to `coalesce`. -/
theorem place_split {s : Heap} {pre post : List Blk} {b : Blk} {fl : List Nat}
    (hi : Inv s (pre ++ b :: post) fl) (hb0 : b.al = 0) {asize : Nat}
    (hfit : asize ≤ b.size) (ha32 : 32 ≤ asize) (ha16 : asize % 16 = 0)
    (hsp : 32 ≤ b.size - asize) :
    ∃ s', place s b.bp asize = some s' ∧
      Inv s' (mergedBlocks (pre ++ [⟨b.bp, asize, 1⟩]) ⟨b.bp + asize, b.size - asize, 0⟩ post)
        (mergedBp (pre ++ [⟨b.bp, asize, 1⟩]) ⟨b.bp + asize, b.size - asize, 0⟩ ::
          keptList (pre ++ [⟨b.bp, asize, 1⟩]) post (fl.erase b.bp)) ∧
      s'.lo = s.lo ∧ s'.brk = s.brk ∧ s'.max_addr = s.max_addr ∧
      s'.heap_listp = s.heap_listp := by
  have hg := hi.geo
  have hbm : b ∈ pre ++ b :: post := by simp
  have hB := hg.blk hbm
  have h16 := hB.sz16
  have h32 := hB.sz32
  have hlo := hB.lo
  have hx : b.bp ∈ fl := (hi.free_iff b hbm).1 hb0
  obtain ⟨s1, hd, hg1, e1, e2, e3, e4, _⟩ := delete_spec hg hx
  obtain ⟨rest, hrest⟩ : ∃ rest, rest = b.size - asize := ⟨_, rfl⟩
  rw [← hrest] at hsp ⊢
  have hr16 : rest % 16 = 0 := by omega
  have hsum : asize + rest = b.size := by omega
  have hn1 : ¬ LinkCell s fl (b.bp - 8) := fun h =>
    hg.inner_not_pay hbm (by omega) (by omega) (by omega) (by omega) (hg.link_pay h)
  have hn2 : ¬ LinkCell s fl (b.bp + asize - 16) := fun h =>
    hg.inner_not_pay hbm (by omega) (by omega) (by omega) (by omega) (hg.link_pay h)
  have hdc := hg.delete_comm2 hx hd (asize + 1) (asize + 1) hn1 (by omega) hn2 (by omega)
  obtain ⟨t3, ht3⟩ : ∃ t3, t3 = (((s1.set (b.bp - 8) (asize + 1)).set (b.bp + asize - 16)
      (asize + 1)).set (b.bp + asize - 8) rest).set (b.bp + asize + rest - 16) rest :=
    ⟨_, rfl⟩
  have hg3 := split_geo hg1 (List.Nodup.not_mem_erase hg.nodup) ha32 ha16 hsp hr16 hsum ht3
  have hpc : PreCo t3 (pre ++ [⟨b.bp, asize, 1⟩]) ⟨b.bp + asize, rest, 0⟩ post
      (fl.erase b.bp) := by
    refine ⟨by simpa using hg3, rfl, ?_, ?_, NoAdj_concat_alloc (NoAdj_split hi.nadj).1 rfl,
      (NoAdj_split hi.nadj).2⟩
    · intro hin
      obtain ⟨c, hc, hcx⟩ := hg.fl_blk _ (List.mem_of_mem_erase hin)
      have hC := hg.blk hc
      have := hC.sz32
      simp only at hcx
      rcases Tile_apart hg.tile hbm hc with e | e | e
      · subst e; omega
      · omega
      · omega
    · intro c hc
      rcases List.mem_append.1 hc with h | h
      · rcases List.mem_append.1 h with h | h
        · exact hi.erase_iff (List.mem_append_left _ h)
        · simp only [List.mem_singleton] at h
          subst h
          have := List.Nodup.not_mem_erase (a := b.bp) hg.nodup
          simp [this]
      · exact hi.erase_iff (List.mem_append_right _ h)
  obtain ⟨s', hco, hinv, f1, f2, f3, f4⟩ := coalesce_merge hpc
  exact ⟨s', split_run hB hg.brk_al ha32 ha16 hsp hr16 hsum e1 e2 hdc ht3 hco, hinv,
    by rw [f1, ht3]; exact e1, by rw [f2, ht3]; exact e2,
    by rw [f3, ht3]; exact e3, by rw [f4, ht3]; exact e4⟩

end MallocLab


namespace MallocLab

/-- Placing a request in a free block of the list that is large enough: the
block, or its front part, becomes allocated; nothing happens to the other
allocated blocks. -/
theorem place_spec {s : Heap} {pre post : List Blk} {b : Blk} {fl : List Nat}
    (hi : Inv s (pre ++ b :: post) fl) (hb0 : b.al = 0) {asize : Nat}
    (hfit : asize ≤ b.size) (ha32 : 32 ≤ asize) (ha16 : asize % 16 = 0) :
    ∃ s' bs' fl', place s b.bp asize = some s' ∧ Inv s' bs' fl' ∧
      s'.lo = s.lo ∧ s'.brk = s.brk ∧ s'.max_addr = s.max_addr ∧
      s'.heap_listp = s.heap_listp ∧
      (∃ a ∈ bs', a.bp = b.bp ∧ a.al = 1 ∧ asize ≤ a.size) ∧
      (∀ c ∈ pre ++ post, c.al = 1 → c ∈ bs') := by
  by_cases hsp : 32 ≤ b.size - asize
  · obtain ⟨s', h1, h2, h3⟩ := place_split hi hb0 hfit ha32 ha16 hsp
    refine ⟨s', _, _, h1, h2, h3.1, h3.2.1, h3.2.2.1, h3.2.2.2, ?_, ?_⟩
    · exact ⟨⟨b.bp, asize, 1⟩, merged_keeps (by simp) rfl, rfl, rfl, le_refl _⟩
    · intro c hc hal
      apply merged_keeps _ hal
      rcases List.mem_append.1 hc with h | h
      · simp [h]
      · simp [h]
  · obtain ⟨s', h1, h2, h3⟩ := place_whole hi hb0 hfit (by omega)
    refine ⟨s', _, _, h1, h2, h3.1, h3.2.1, h3.2.2.1, h3.2.2.2, ?_, ?_⟩
    · exact ⟨⟨b.bp, b.size, 1⟩, by simp, rfl, rfl, hfit⟩
    · intro c hc _
      rcases List.mem_append.1 hc with h | h
      · simp [h]
      · simp [h]

/-! ## `extend_heap` -/

/-- The shape of the heap after `extend_heap` has tagged the new block. -/
theorem Geo.extend {s : Heap} {bs : List Blk} {fl : List Nat} (hg : Geo s bs fl)
    {size : Nat} (h32 : 32 ≤ size) (h16 : size % 16 = 0)
    (hmax : s.brk + size ≤ s.max_addr) {t : Heap}
    (ht : t = ((({ s with brk := s.brk + size } : Heap).set (s.brk - 8) size).set
      (s.brk + size - 16) size).set (s.brk + size - 8) 1) :
    Geo t (bs ++ [⟨s.brk, size, 0⟩]) fl := by
  have hge := hg.brk_ge
  have hlo : t.lo = s.lo := by rw [ht]; rfl
  have hbrk : t.brk = s.brk + size := by rw [ht]; rfl
  have hmem : ∀ a, a < s.brk - 8 → t.mem a = s.mem a := by
    intro a ha
    rw [ht, set_mem_ne (by omega), set_mem_ne (by omega), set_mem_ne (by omega)]
  refine ⟨by rw [hlo]; exact hg.lo_pos, by rw [hlo]; exact hg.lo_al, ?_, ?_, ?_, ?_, ?_, ?_,
    ?_, ?_, ?_, ?_, ?_, hg.nodup, ?_⟩
  · rw [hbrk]; rw [ht]; exact hmax
  · rw [ht]; exact hg.max_lt
  · rw [hlo, ht]; exact hg.hlp
  · rw [hlo, hmem _ (by omega)]; exact hg.pro
  · rw [hlo, hmem _ (by omega)]; exact hg.pad
  · rw [hbrk, ht, set_mem_eq]
  · rw [hlo, hbrk]
    exact Tile_append.2 ⟨s.brk, hg.tile, rfl, rfl⟩
  · intro c hc
    rcases List.mem_append.1 hc with h | h
    · have hC := hg.blk h
      have := hC.sz32; have := hC.hi; have := hC.lo
      exact Tagged_frame (hg.tag c h) (hmem _ (by omega)) (hmem _ (by omega))
    · simp only [List.mem_singleton] at h
      rw [h]
      refine ⟨h32, h16, Nat.zero_le 1, ?_, ?_⟩
      · rw [ht, set_mem_ne (by simp only; omega), set_mem_ne (by simp only; omega),
          set_mem_eq]
        rfl
      · rw [ht, set_mem_ne (by simp only; omega), set_mem_eq]
        rfl
  · rw [hlo, ht]; exact hg.flp
  · rw [hlo]
    apply Linked_frame _ hg.link
    intro x hx
    have := hg.node hx
    exact ⟨hmem _ (by omega), hmem _ (by omega)⟩
  · intro hne
    rw [hlo, hmem _ (by omega)]
    exact hg.back hne
  · intro x hx
    obtain ⟨c, hc, hcx⟩ := hg.fl_blk x hx
    exact ⟨c, List.mem_append_left _ hc, hcx⟩

/-- The run of `extend_heap` when the provider grants the request. -/
theorem extend_run {s t s' : Heap} {size r : Nat} (hlo : s.lo + 64 ≤ s.brk)
    (hal : s.brk % 16 = 0) (h32 : 32 ≤ size) (h16 : size % 16 = 0)
    (hmax : s.brk + size ≤ s.max_addr) (hfit : Fits s.max_addr)
    (ht : t = ((({ s with brk := s.brk + size } : Heap).set (s.brk - 8) size).set
      (s.brk + size - 16) size).set (s.brk + size - 8) 1)
    (hco : coalesce t s.brk = some (r, s')) :
    extend_heap s (size / 8) = some (r, s') := by
  have hw : (size / 8) % 2 = 0 := by omega
  have hmul : mul64 (size / 8) WSIZE = size := by
    rw [mul64_eq (by simp only [WSIZE]; unfold Fits at hfit; omega)]
    simp only [WSIZE]; omega
  have hfit2 : Fits (s.brk + size) := hfit.mono hmax
  have hv1 : ({ s with brk := s.brk + size } : Heap).valid (s.brk - 8) := by
    unfold Heap.valid; simp only; omega
  have hv2 : (({ s with brk := s.brk + size } : Heap).set (s.brk - 8) size).valid
      (s.brk + size - 16) := by
    unfold Heap.valid; simp only [set_lo, set_brk]; omega
  have hv3 : ((({ s with brk := s.brk + size } : Heap).set (s.brk - 8) size).set
      (s.brk + size - 16) size).valid (s.brk + size - 8) := by
    unfold Heap.valid; simp only [set_lo, set_brk]; omega
  have hft : FTRP (({ s with brk := s.brk + size } : Heap).set (s.brk - 8) size) s.brk =
      some (s.brk + size - 16) :=
    @FTRP_of _ _ _ 0 hv1 (by omega) (by rw [set_mem_eq]; rfl) h16 (Nat.zero_le 1)
      (by omega) hfit2
  have hnb : NEXT_BLKP ((({ s with brk := s.brk + size } : Heap).set (s.brk - 8) size).set
      (s.brk + size - 16) size) s.brk = some (s.brk + size) :=
    @NEXT_BLKP_of _ _ _ 0 hv1 (by omega)
      (by rw [set_mem_ne (by omega), set_mem_eq]; rfl) h16 (Nat.zero_le 1) hfit2
  have hne : s.brk ≠ SBRK_FAIL := by
    unfold Fits at hfit2
    simp only [SBRK_FAIL, W64]; omega
  unfold extend_heap mem_sbrk
  rw [if_neg (by omega), hmul]
  dsimp only
  rw [if_pos hmax]
  dsimp only
  rw [if_neg hne, HDRP_eq (by omega) (hfit2.mono (by omega)), PACK_zero, PUT_valid _ hv1,
    Run.some_bind, hft, Run.some_bind, PUT_valid _ hv2, Run.some_bind, hnb, Run.some_bind,
    HDRP_eq (by omega) hfit2, PUT_valid _ hv3, Run.some_bind]
  have hp : PACK 0 1 = 1 := by decide
  rw [hp, ← ht, hco]

/-- The run of `extend_heap` when the provider refuses. -/
theorem extend_fail {s : Heap} {size : Nat} (h16 : size % 16 = 0) (hfit : Fits size)
    (hmax : ¬ s.brk + size ≤ s.max_addr) :
    extend_heap s (size / 8) = some (NULL, s) := by
  have hmul : mul64 (size / 8) WSIZE = size := by
    rw [mul64_eq (by simp only [WSIZE]; unfold Fits at hfit; omega)]
    simp only [WSIZE]; omega
  unfold extend_heap mem_sbrk
  rw [if_neg (by omega), hmul]
  dsimp only
  rw [if_neg hmax]
  dsimp only
  rw [if_pos rfl]
  rfl

end MallocLab


namespace MallocLab

theorem NoAdj_nil : NoAdj [] := by unfold NoAdj; exact List.chain'_nil

/-- Extending the heap: either the provider refuses and nothing changes, or
the new block is merged with a free block at the end of the region and becomes the
head of the free list. -/
theorem extend_heap_spec {s : Heap} {bs : List Blk} {fl : List Nat} (hi : Inv s bs fl)
    {size : Nat} (h32 : 32 ≤ size) (h16 : size % 16 = 0) (hfit : Fits size) :
    (¬ s.brk + size ≤ s.max_addr ∧ extend_heap s (size / 8) = some (NULL, s)) ∨
    (s.brk + size ≤ s.max_addr ∧
      ∃ s', extend_heap s (size / 8) = some (mergedBp bs ⟨s.brk, size, 0⟩, s') ∧
        Inv s' (mergedBlocks bs ⟨s.brk, size, 0⟩ [])
          (mergedBp bs ⟨s.brk, size, 0⟩ :: keptList bs [] fl) ∧
        s'.lo = s.lo ∧ s'.brk = s.brk + size ∧ s'.max_addr = s.max_addr ∧
        s'.heap_listp = s.heap_listp) := by
  by_cases hmax : s.brk + size ≤ s.max_addr
  · right
    refine ⟨hmax, ?_⟩
    obtain ⟨t, ht⟩ : ∃ t, t = ((({ s with brk := s.brk + size } : Heap).set (s.brk - 8)
      size).set (s.brk + size - 16) size).set (s.brk + size - 8) 1 := ⟨_, rfl⟩
    have hg := hi.geo.extend h32 h16 hmax ht
    have hpc : PreCo t bs ⟨s.brk, size, 0⟩ [] fl := by
      refine ⟨hg, rfl, ?_, ?_, hi.nadj, NoAdj_nil⟩
      · intro hin
        have := hi.geo.node hin
        simp only at this
        omega
      · intro c hc
        rw [List.append_nil] at hc
        exact hi.free_iff c hc
    obtain ⟨s', hco, hinv, f1, f2, f3, f4⟩ := coalesce_merge hpc
    refine ⟨s', extend_run hi.geo.brk_ge hi.geo.brk_al h32 h16 hmax hi.geo.max_lt ht hco,
      hinv, by rw [f1, ht]; rfl, by rw [f2, ht]; rfl, by rw [f3, ht]; rfl,
      by rw [f4, ht]; rfl⟩
  · left
    exact ⟨hmax, extend_fail h16 hfit hmax⟩

/-! ## `mm_malloc` -/

/-- The adjusted size of a request that does not overflow. -/
theorem adjusted_eq {size : Nat} (h : size + 31 < 18446744073709551616) :
    adjusted size = if size ≤ 16 then 32 else 16 * ((size + 31) / 16) := by
  unfold adjusted
  simp only [DSIZE, WSIZE, OVERHEAD]
  by_cases h16 : size ≤ 16
  · rw [if_pos h16, if_pos h16]; rfl
  · have e1 : add64 size 16 = size + 16 := add64_eq (by omega)
    have e2 : add64 (size + 16) (16 - 1) = size + 31 := by
      rw [add64_eq (by omega)]
    rw [if_neg h16, if_neg h16, e1, e2, mul64_eq (by omega)]

theorem adjusted_facts {size : Nat} (h : size + 31 < 18446744073709551616) :
    32 ≤ adjusted size ∧ adjusted size % 16 = 0 ∧ size + 16 ≤ adjusted size ∧
      adjusted size < 18446744073709551616 := by
  rw [adjusted_eq h]
  by_cases h16 : size ≤ 16
  · rw [if_pos h16]; refine ⟨by omega, by omega, by omega, by omega⟩
  · rw [if_neg h16]; refine ⟨by omega, by omega, by omega, by omega⟩

theorem MAX_facts {a : Nat} (h32 : 32 ≤ a) (h16 : a % 16 = 0)
    (h : a < 18446744073709551616) :
    32 ≤ MAX a CHUNKSIZE ∧ MAX a CHUNKSIZE % 16 = 0 ∧ Fits (MAX a CHUNKSIZE) ∧
      a ≤ MAX a CHUNKSIZE := by
  have hc : CHUNKSIZE = 4096 := by decide
  unfold MAX Fits
  rw [hc]
  by_cases h1 : a > 4096
  · rw [if_pos h1]; refine ⟨by omega, by omega, by omega, by omega⟩
  · rw [if_neg h1]; refine ⟨by omega, by omega, by omega, by omega⟩

theorem mm_malloc_eq (s : Heap) (size : Nat) :
    mm_malloc s size = (if size ≤ 0 then pure (NULL, s)
      else do
        let bp ← find_fit s (adjusted size)
        if bp ≠ NULL then
          let s ← place s bp (adjusted size)
          pure (bp, s)
        else
          let (bp, s) ← extend_heap s (MAX (adjusted size) CHUNKSIZE / WSIZE)
          if bp = NULL then pure (NULL, s)
          else
            let s ← place s bp (adjusted size)
            pure (bp, s)) := rfl

theorem mem_split_other {bs pre post : List Blk} {b c : Blk} (h : bs = pre ++ b :: post)
    (hc : c ∈ bs) (hne : c.al ≠ b.al) : c ∈ pre ++ post := by
  rw [h] at hc
  rcases List.mem_append.1 hc with h1 | h1
  · exact List.mem_append_left _ h1
  · rcases List.mem_cons.1 h1 with h2 | h2
    · rw [h2] at hne; exact absurd rfl hne
    · exact List.mem_append_right _ h2

/-- What `mm_malloc` does once `place` is reached with a free block that is
large enough. -/
theorem place_in {s : Heap} {bs : List Blk} {fl : List Nat} (hi : Inv s bs fl) {b : Blk}
    (hb : b ∈ bs) (hal : b.al = 0) {asize : Nat} (hle : asize ≤ b.size)
    (ha32 : 32 ≤ asize) (ha16 : asize % 16 = 0) :
    ∃ s' bs' fl', place s b.bp asize = some s' ∧ Inv s' bs' fl' ∧
      s'.lo = s.lo ∧ s'.brk = s.brk ∧ s'.max_addr = s.max_addr ∧
      s'.heap_listp = s.heap_listp ∧
      (∃ a ∈ bs', a.bp = b.bp ∧ a.al = 1 ∧ asize ≤ a.size) ∧
      (∀ c ∈ bs, c.al = 1 → c ∈ bs') := by
  obtain ⟨pre, post, hbs⟩ := List.append_of_mem hb
  subst hbs
  obtain ⟨s', bs', fl', h1, h2, h3, h4, h5, h6, h7, h8⟩ := place_spec hi hal hle ha32 ha16
  refine ⟨s', bs', fl', h1, h2, h3, h4, h5, h6, h7, ?_⟩
  intro c hc hc1
  exact h8 c (mem_split_other rfl hc (by omega)) hc1

/-- The result of `mm_malloc` for a request that does not overflow: `NULL`
and an unchanged state, or an allocated block that is large enough while the
other allocated blocks stay as they are. -/
theorem mm_malloc_spec {s : Heap} {bs : List Blk} {fl : List Nat} (hi : Inv s bs fl)
    {size : Nat} (hsz : size + 31 < 18446744073709551616) :
    ∃ p s', mm_malloc s size = some (p, s') ∧
      ((p = 0 ∧ s' = s) ∨
       (p ≠ 0 ∧ 0 < size ∧ ∃ bs' fl', Inv s' bs' fl' ∧ s'.lo = s.lo ∧ s.brk ≤ s'.brk ∧
          s'.max_addr = s.max_addr ∧ s'.heap_listp = s.heap_listp ∧
          (∃ a ∈ bs', a.bp = p ∧ a.al = 1 ∧ adjusted size ≤ a.size) ∧
          (∀ c ∈ bs, c.al = 1 → c ∈ bs'))) := by
  rw [mm_malloc_eq]
  by_cases h0 : size ≤ 0
  · rw [if_pos h0]
    exact ⟨0, s, rfl, Or.inl ⟨rfl, rfl⟩⟩
  rw [if_neg h0]
  obtain ⟨a32, a16, _, afit⟩ := adjusted_facts hsz
  rcases find_fit_cases hi (adjusted size) with ⟨hf, _⟩ | ⟨b, hb, hf, hal, _, hle⟩
  · -- no fit: the heap is extended
    obtain ⟨m32, m16, mfit, mle⟩ := MAX_facts a32 a16 afit
    rw [hf, Run.some_bind, if_neg (by simp)]
    rcases extend_heap_spec hi m32 m16 mfit with ⟨_, he⟩ | ⟨hmax, s1, he, hi1, g1, g2, g3, g4⟩
    · rw [show MAX (adjusted size) CHUNKSIZE / WSIZE = MAX (adjusted size) CHUNKSIZE / 8
        from rfl, he, Run.some_bind]
      exact ⟨0, s, rfl, Or.inl ⟨rfl, rfl⟩⟩
    · have hM := merged_mem bs [] ⟨s.brk, MAX (adjusted size) CHUNKSIZE, 0⟩
      have hB := hi1.geo.blk hM
      have hlo := hB.lo
      have hge := mergedSize_ge bs [] ⟨s.brk, MAX (adjusted size) CHUNKSIZE, 0⟩
      obtain ⟨s', bs', fl', h1, h2, h3, h4, h5, h6, h7, h8⟩ :=
        @place_in _ _ _ hi1 _ hM rfl (adjusted size) (le_trans mle hge) a32 a16
      have hne : mergedBp bs ⟨s.brk, MAX (adjusted size) CHUNKSIZE, 0⟩ ≠ NULL := by
        simp only [NULL]; simp only at hlo; omega
      rw [show MAX (adjusted size) CHUNKSIZE / WSIZE = MAX (adjusted size) CHUNKSIZE / 8
        from rfl, he, Run.some_bind]
      simp only []
      rw [if_neg hne, h1, Run.some_bind]
      refine ⟨_, s', rfl, Or.inr ⟨hne, by omega, bs', fl', h2, by rw [h3, g1],
        by rw [h4, g2]; omega, by rw [h5, g3], by rw [h6, g4], h7, ?_⟩⟩
      intro c hc hc1
      exact h8 c (merged_keeps (by simpa using hc) hc1) hc1
  · -- a fit was found
    have hlo := (hi.geo.blk hb).lo
    have hne : b.bp ≠ NULL := by simp only [NULL]; omega
    obtain ⟨s', bs', fl', h1, h2, h3, h4, h5, h6, h7, h8⟩ :=
      place_in hi hb hal hle a32 a16
    rw [hf, Run.some_bind, if_pos hne, h1, Run.some_bind]
    exact ⟨_, s', rfl, Or.inr ⟨hne, by omega, bs', fl', h2, h3, by omega, h5, h6, h7, h8⟩⟩

end MallocLab


namespace MallocLab

/-! ## `mm_init` -/

/-- The state in which `mm_init` calls `extend_heap`. -/
theorem mm_init_run {lo max_addr : Nat} {si : Heap} (hpos : 0 < lo) (hlo : lo % 16 = 0)
    (hroom : lo + 64 ≤ max_addr) (hmax : max_addr < 18446744073709551616)
    (hsi : si = { mem := fun a => if a = lo + 24 then 1 else if a = lo + 16 then 17
                    else if a = lo + 8 then 17 else 0,
                  lo := lo, brk := lo + 64, max_addr := max_addr, heap_listp := lo + 16,
                  free_listp := lo + 16 }) :
    mm_init (fresh lo max_addr) = (do
      let (bp, s) ← extend_heap si (4096 / 8)
      if bp = NULL then pure (-1, s) else pure (0, s)) := by
  subst hsi
  have e8 : add64 lo (1 * WSIZE) = lo + 8 := add64_eq (by simp only [WSIZE]; omega)
  have e16 : add64 lo (2 * WSIZE) = lo + 16 := add64_eq (by simp only [WSIZE]; omega)
  have e24 : add64 lo (3 * WSIZE) = lo + 24 := add64_eq (by simp only [WSIZE]; omega)
  have e16' : add64 lo DSIZE = lo + 16 := add64_eq (by simp only [DSIZE, WSIZE]; omega)
  have p1 : PACK DSIZE 1 = 17 := by decide
  have p2 : PACK 0 1 = 1 := by decide
  have hc : CHUNKSIZE / WSIZE = 4096 / 8 := by decide
  have hs : mem_sbrk (fresh lo max_addr) (8 * WSIZE) =
      (lo, { fresh lo max_addr with brk := lo + 64 }) := by
    unfold mem_sbrk fresh
    simp only [WSIZE]
    rw [if_pos (by omega)]
  unfold mm_init
  rw [hs]
  simp only [fresh]
  rw [if_neg (by simp only [NULL]; omega)]
  rw [PUT_valid _ (by unfold Heap.valid; simp only []; omega), Run.some_bind]
  simp only [set_heap_listp]
  rw [e8, p1, PUT_valid _ (by unfold Heap.valid; simp only [set_lo, set_brk]; omega),
    Run.some_bind]
  simp only [set_heap_listp]
  rw [e16, PUT_valid _ (by unfold Heap.valid; simp only [set_lo, set_brk]; omega),
    Run.some_bind]
  simp only [set_heap_listp]
  rw [e24, p2, PUT_valid _ (by unfold Heap.valid; simp only [set_lo, set_brk]; omega),
    Run.some_bind]
  simp only [set_heap_listp, set_lo, set_brk, set_max_addr, e16', hc]
  have hm : (((((
      { mem := fun _ => 0, lo := lo, brk := lo + 64, max_addr := max_addr,
        heap_listp := lo, free_listp := 0 } : Heap).set lo 0).set (lo + 8) 17).set
      (lo + 16) 17).set (lo + 24) 1).mem =
      fun a => if a = lo + 24 then 1 else if a = lo + 16 then 17
        else if a = lo + 8 then 17 else 0 := by
    funext a
    simp only [Heap.set]
    split_ifs <;> rfl
  rw [hm]

theorem set_brk_set (s : Heap) (p v w B : Nat) :
    ({ s.set p v with brk := B } : Heap).set p w = ({ s with brk := B } : Heap).set p w := by
  unfold Heap.set
  simp only [Heap.mk.injEq, and_true, true_and]
  funext a
  by_cases h : a = p <;> simp [h]

/-- The first extension of the heap in `mm_init`. -/
theorem init_extend {lo max_addr : Nat} {si : Heap} (hpos : 0 < lo) (hlo : lo % 16 = 0)
    (hroom : lo + 4160 ≤ max_addr) (hmax : max_addr < 18446744073709551616)
    (hsi : si = { mem := fun a => if a = lo + 24 then 1 else if a = lo + 16 then 17
                    else if a = lo + 8 then 17 else 0,
                  lo := lo, brk := lo + 64, max_addr := max_addr, heap_listp := lo + 16,
                  free_listp := lo + 16 }) :
    ∃ s', extend_heap si (4096 / 8) = some (lo + 64, s') ∧
      Inv s' [⟨lo + 64, 4096, 0⟩] [lo + 64] ∧ s'.lo = lo ∧ s'.brk = lo + 4160 ∧
      s'.max_addr = max_addr := by
  have k1 : si.lo = lo := by rw [hsi]
  have k2 : si.brk = lo + 64 := by rw [hsi]
  have k3 : si.max_addr = max_addr := by rw [hsi]
  have k4 : si.heap_listp = lo + 16 := by rw [hsi]
  have k5 : si.free_listp = lo + 16 := by rw [hsi]
  have km : ∀ a, si.mem a = if a = lo + 24 then 1 else if a = lo + 16 then 17
      else if a = lo + 8 then 17 else 0 := by intro a; rw [hsi]
  -- the state with an epilogue in its last word has the shape of an empty heap
  have hg0 : Geo (si.set (si.brk - 8) 1) [] [] := by
    refine ⟨by rw [set_lo, k1]; exact hpos, by rw [set_lo, k1]; exact hlo,
      by rw [set_brk, set_max_addr, k2, k3]; omega, by rw [set_max_addr, k3]; exact hmax,
      by rw [set_heap_listp, set_lo, k4, k1], ?_, ?_, ?_, ?_, ?_, ?_, trivial, ?_,
      List.nodup_nil, ?_⟩
    · rw [set_lo, k1, set_mem_ne (by rw [k2]; omega), km,
        if_neg (by omega), if_neg (by omega), if_pos rfl]
    · rw [set_lo, k1, set_mem_ne (by rw [k2]; omega), km,
        if_neg (by omega), if_neg (by omega), if_neg (by omega)]
    · rw [set_brk, set_mem_eq]
    · show (si.set (si.brk - 8) 1).lo + 64 = (si.set (si.brk - 8) 1).brk
      rw [set_lo, set_brk, k1, k2]
    · intro b hb; simp at hb
    · rw [set_lo, set_free_listp, k1, k5]; rfl
    · intro h; exact absurd rfl h
    · intro x hx; simp at hx
  obtain ⟨t, ht⟩ : ∃ t, t = ((({ si with brk := si.brk + 4096 } : Heap).set (si.brk - 8)
      4096).set (si.brk + 4096 - 16) 4096).set (si.brk + 4096 - 8) 1 := ⟨_, rfl⟩
  have ht' : t = ((({ si.set (si.brk - 8) 1 with brk := (si.set (si.brk - 8) 1).brk + 4096 } :
      Heap).set ((si.set (si.brk - 8) 1).brk - 8) 4096).set
      ((si.set (si.brk - 8) 1).brk + 4096 - 16) 4096).set
      ((si.set (si.brk - 8) 1).brk + 4096 - 8) 1 := by
    rw [ht]
    simp only [set_brk]
    rw [set_brk_set]
  have hg := @Geo.extend _ _ _ hg0 4096 (by decide) (by decide)
    (by rw [set_brk, set_max_addr, k2, k3]; omega) _ ht'
  rw [set_brk] at hg
  have hpc : PreCo t [] ⟨si.brk, 4096, 0⟩ [] [] := by
    refine ⟨hg, rfl, by simp, ?_, NoAdj_nil, NoAdj_nil⟩
    intro c hc; simp at hc
  obtain ⟨s', hco, hinv, f1, f2, f3, f4⟩ := coalesce_merge hpc
  have hrun := extend_run (s := si) (by rw [k1, k2]) (by rw [k2]; omega) (by decide)
    (by decide) (by rw [k2, k3]; omega) (by rw [k3]; exact hmax) ht hco
  have hbp : mergedBp [] ⟨si.brk, 4096, 0⟩ = lo + 64 := by
    show si.brk = _
    exact k2
  have hbs : mergedBlocks [] ⟨si.brk, 4096, 0⟩ [] = [⟨lo + 64, 4096, 0⟩] := by
    show [(⟨si.brk, 4096, 0⟩ : Blk)] = _
    rw [k2]
  have hkl : keptList [] [] [] = [] := rfl
  rw [hbp] at hrun
  rw [hbp, hbs, hkl] at hinv
  have g2 : s'.brk = lo + 4160 := by
    rw [f2, ht]
    show si.brk + 4096 = _
    rw [k2]
  exact ⟨s', hrun, hinv, by rw [f1, ht]; exact k1, g2, by rw [f3, ht]; exact k3⟩

/-- On a provider with room for 4160 bytes `mm_init` succeeds and leaves one
free block of 4096 bytes. -/
theorem mm_init_total {lo max_addr : Nat} (hpos : 0 < lo) (hlo : lo % 16 = 0)
    (hroom : lo + 4160 ≤ max_addr) (hmax : max_addr < 18446744073709551616) :
    ∃ s, mm_init (fresh lo max_addr) = some (0, s) ∧
      Inv s [⟨lo + 64, 4096, 0⟩] [lo + 64] ∧ s.lo = lo ∧ s.brk = lo + 4160 ∧
      s.max_addr = max_addr := by
  obtain ⟨s', h1, h2⟩ := init_extend hpos hlo hroom hmax rfl
  refine ⟨s', ?_, h2⟩
  rw [mm_init_run hpos hlo (by omega) hmax rfl, h1, Run.some_bind]
  simp only []
  rw [if_neg (by simp only [NULL]; omega)]
  rfl

/-- A successful `mm_init` leaves one free block of 4096 bytes. -/
theorem mm_init_spec {lo max_addr : Nat} {s : Heap} (hlo : lo % 16 = 0)
    (hmax : max_addr < 18446744073709551616)
    (h : mm_init (fresh lo max_addr) = some (0, s)) :
    Inv s [⟨lo + 64, 4096, 0⟩] [lo + 64] ∧ s.lo = lo ∧ s.brk = lo + 4160 ∧
      s.max_addr = max_addr := by
  by_cases hroom1 : lo + 64 ≤ max_addr
  · by_cases hpos : 0 < lo
    · by_cases hroom : lo + 4160 ≤ max_addr
      · obtain ⟨s', h1, h2⟩ := mm_init_total hpos hlo hroom hmax
        rw [h1] at h
        have : s' = s := by
          have := Option.some.inj h
          exact (Prod.mk.inj this).2
        rw [← this]
        exact h2
      · exfalso
        obtain ⟨si, hsi⟩ : ∃ si : Heap, si =
            { mem := fun a => if a = lo + 24 then 1 else if a = lo + 16 then 17
                else if a = lo + 8 then 17 else 0,
              lo := lo, brk := lo + 64, max_addr := max_addr, heap_listp := lo + 16,
              free_listp := lo + 16 } := ⟨_, rfl⟩
        have hf := @extend_fail si 4096 (by decide)
          (by unfold Fits; decide) (by rw [hsi]; simp only []; omega)
        rw [mm_init_run hpos hlo hroom1 hmax hsi, hf, Run.some_bind] at h
        simp only [] at h
        rw [if_pos trivial] at h
        have := (Prod.mk.inj (Option.some.inj h)).1
        exact absurd this (by decide)
    · exfalso
      have h0 : lo = 0 := by omega
      subst h0
      have hs : mem_sbrk (fresh 0 max_addr) (8 * WSIZE) =
          (0, { fresh 0 max_addr with brk := 64 }) := by
        unfold mem_sbrk fresh
        simp only [WSIZE]
        rw [if_pos (by omega)]
      unfold mm_init at h
      rw [hs] at h
      simp only [] at h
      rw [if_pos trivial] at h
      have := (Prod.mk.inj (Option.some.inj h)).1
      exact absurd this (by decide)
  · exfalso
    have hs : mem_sbrk (fresh lo max_addr) (8 * WSIZE) = (SBRK_FAIL, fresh lo max_addr) := by
      unfold mem_sbrk fresh
      simp only [WSIZE]
      rw [if_neg (by omega)]
    have hv : ¬ ({ fresh lo max_addr with heap_listp := SBRK_FAIL } : Heap).valid
        SBRK_FAIL := by
      unfold Heap.valid
      simp only [SBRK_FAIL, W64]
      omega
    unfold mm_init at h
    rw [hs] at h
    simp only [] at h
    rw [if_neg (by decide)] at h
    unfold PUT at h
    rw [if_neg hv] at h
    exact absurd h (by simp [Run.none_bind])

end MallocLab


namespace MallocLab

/-! ## The invariant in all reachable configurations -/

theorem isLive_iff {c : Config} {p : Nat} : c.isLive p = true ↔ ∃ x ∈ c.live, x.1 = p := by
  unfold Config.isLive
  simp [List.any_eq_true]

theorem isLive_cons {heap : Heap} {l : List (Nat × Nat)} {x : Nat × Nat} {p : Nat}
    (h : ({ heap := heap, live := x :: l } : Config).isLive p = true) :
    x.1 = p ∨ ({ heap := heap, live := l } : Config).isLive p = true := by
  rw [isLive_iff] at h
  obtain ⟨y, hy, hyp⟩ := h
  rcases List.mem_cons.1 hy with h1 | h1
  · left; rw [← h1]; exact hyp
  · right; exact isLive_iff.2 ⟨y, h1, hyp⟩

theorem isLive_drop {c : Config} {heap : Heap} {ptr p : Nat}
    (h : ({ heap := heap, live := c.drop ptr } : Config).isLive p = true) :
    p ≠ ptr ∧ c.isLive p = true := by
  rw [isLive_iff] at h
  obtain ⟨y, hy, hyp⟩ := h
  unfold Config.drop at hy
  simp only [ne_eq, List.mem_filter, decide_eq_true_eq] at hy
  exact ⟨by rw [← hyp]; exact hy.2, isLive_iff.2 ⟨y, hy.1, hyp⟩⟩

theorem Reachable.good {lo max_addr : Nat} {c : Config} (h : Reachable lo max_addr c)
    (hlo : lo % 16 = 0) (hmax : max_addr < 18446744073709551616) :
    ∃ bs fl, Good lo max_addr c bs fl := by
  induction h with
  | init s h =>
    obtain ⟨h1, h2, _, h4⟩ := mm_init_spec hlo hmax h
    refine ⟨_, _, h1, h2, h4, ?_⟩
    intro p hp
    rw [isLive_iff] at hp
    obtain ⟨x, hx, _⟩ := hp
    simp at hx
  | malloc c size p s _ hsize h ih =>
    obtain ⟨bs, fl, hgood⟩ := ih
    obtain ⟨p', s', hm, hres⟩ := mm_malloc_spec hgood.inv hsize
    rw [h] at hm
    obtain ⟨hp, hs⟩ := Prod.mk.inj (Option.some.inj hm)
    subst hp hs
    rcases hres with ⟨hp0, hs0⟩ | ⟨hp0, _, bs', fl', hi', g1, _, g3, _, ⟨a, ha, hap, haa, _⟩, hkeep⟩
    · subst hs0
      refine ⟨bs, fl, hgood.inv, hgood.lo_eq, hgood.max_eq, ?_⟩
      intro q hq
      rw [if_pos hp0] at hq
      exact hgood.live q hq
    · refine ⟨bs', fl', hi', by rw [g1]; exact hgood.lo_eq, by rw [g3]; exact hgood.max_eq, ?_⟩
      intro q hq
      rw [if_neg hp0] at hq
      rcases isLive_cons hq with h1 | h1
      · exact ⟨a, ha, by rw [hap]; exact h1, haa⟩
      · obtain ⟨b, hb, hbq, hba⟩ := hgood.live q h1
        exact ⟨b, hkeep b hb hba, hbq, hba⟩
  | free c ptr s _ hlive h ih =>
    obtain ⟨bs, fl, hgood⟩ := ih
    obtain ⟨b, hb, hbp, hba⟩ := hgood.live ptr hlive
    obtain ⟨pre, post, hbs⟩ := List.append_of_mem hb
    subst hbs
    obtain ⟨s', hf, hi', g1, _, g3, _⟩ := mm_free_spec hgood.inv hba
    rw [hbp, h] at hf
    have hs := Option.some.inj hf
    subst hs
    refine ⟨_, _, hi', by rw [g1]; exact hgood.lo_eq, by rw [g3]; exact hgood.max_eq, ?_⟩
    intro q hq
    obtain ⟨hne, hq'⟩ := isLive_drop hq
    obtain ⟨d, hd, hdq, hda⟩ := hgood.live q hq'
    have hdb : d ≠ b := fun e => hne (by rw [← hdq, e, hbp])
    refine ⟨d, merged_keeps ?_ hda, hdq, hda⟩
    rcases List.mem_append.1 hd with h1 | h1
    · exact List.mem_append_left _ h1
    · rcases List.mem_cons.1 h1 with h2 | h2
      · exact absurd h2 hdb
      · exact List.mem_append_right _ h2

end MallocLab


namespace MallocLab

/-! ## Results of `mm_malloc` and `mm_realloc` for every request size -/

theorem adjusted_any (size : Nat) :
    adjusted size % 16 = 0 ∧ adjusted size < 18446744073709551616 := by
  unfold adjusted
  by_cases h : size ≤ DSIZE
  · rw [if_pos h]; decide
  · rw [if_neg h]
    unfold mul64
    simp only [DSIZE, WSIZE, W64]
    omega

theorem MAX_any {a : Nat} (h16 : a % 16 = 0) (h : a < 18446744073709551616) :
    32 ≤ MAX a CHUNKSIZE ∧ MAX a CHUNKSIZE % 16 = 0 ∧ Fits (MAX a CHUNKSIZE) := by
  have hc : CHUNKSIZE = 4096 := by decide
  unfold MAX Fits
  rw [hc]
  by_cases h1 : a > 4096
  · rw [if_pos h1]; refine ⟨by omega, by omega, by omega⟩
  · rw [if_neg h1]; refine ⟨by omega, by omega, by omega⟩

theorem pure_eq_some {α : Type} {a b : α} (h : (pure a : Run α) = some b) : a = b :=
  Option.some.inj h

/-- Whatever the request size: `mm_malloc` returns `NULL` and leaves the state
as it is, or it returns the block pointer of a block. -/
theorem mm_malloc_result {s s' : Heap} {bs : List Blk} {fl : List Nat} (hi : Inv s bs fl)
    {size p : Nat} (h : mm_malloc s size = some (p, s')) :
    (p = 0 ∧ s' = s) ∨ (p ≠ 0 ∧ p % 16 = 0 ∧ s.lo + 64 ≤ p) := by
  rw [mm_malloc_eq] at h
  by_cases h0 : size ≤ 0
  · rw [if_pos h0] at h
    have := Prod.mk.inj (pure_eq_some h)
    exact Or.inl ⟨this.1.symm, this.2.symm⟩
  rw [if_neg h0] at h
  obtain ⟨a16, afit⟩ := adjusted_any size
  rcases find_fit_cases hi (adjusted size) with ⟨hf, _⟩ | ⟨b, hb, hf, _, _, _⟩
  · obtain ⟨m32, m16, mfit⟩ := MAX_any a16 afit
    rw [hf, Run.some_bind, if_neg (by simp),
      show MAX (adjusted size) CHUNKSIZE / WSIZE = MAX (adjusted size) CHUNKSIZE / 8
        from rfl] at h
    rcases extend_heap_spec hi m32 m16 mfit with ⟨_, he⟩ | ⟨_, s1, he, hi1, g1, _⟩
    · rw [he, Run.some_bind] at h
      simp only [] at h
      rw [if_pos trivial] at h
      have := Prod.mk.inj (pure_eq_some h)
      exact Or.inl ⟨this.1.symm, this.2.symm⟩
    · have hM := merged_mem bs [] ⟨s.brk, MAX (adjusted size) CHUNKSIZE, 0⟩
      have hB := hi1.geo.blk hM
      have hlo := hB.lo
      have hal := hB.al16
      simp only at hlo hal
      have hne : mergedBp bs ⟨s.brk, MAX (adjusted size) CHUNKSIZE, 0⟩ ≠ NULL := by
        simp only [NULL]; omega
      rw [he, Run.some_bind] at h
      simp only [] at h
      rw [if_neg hne] at h
      obtain ⟨s2, _, h2⟩ := Run.bind_eq_some h
      have := Prod.mk.inj (pure_eq_some h2)
      rw [← this.1]
      exact Or.inr ⟨hne, hal, by rw [← g1]; exact hlo⟩
  · have hB := hi.geo.blk hb
    have hlo := hB.lo
    have hne : b.bp ≠ NULL := by simp only [NULL]; omega
    rw [hf, Run.some_bind, if_pos hne] at h
    obtain ⟨s2, _, h2⟩ := Run.bind_eq_some h
    have := Prod.mk.inj (pure_eq_some h2)
    rw [← this.1]
    exact Or.inr ⟨hne, hB.al16, hlo⟩

/-- Whatever the request size: `mm_realloc` on `NULL` or on an aligned pointer returns
`NULL`, and then for a size other than 0 leaves the state as it is, or it returns an
aligned pointer. -/
theorem mm_realloc_result {s s' : Heap} {bs : List Blk} {fl : List Nat} (hi : Inv s bs fl)
    {ptr size p : Nat} (hptr : ptr = 0 ∨ ptr % 16 = 0)
    (h : mm_realloc s ptr size = some (p, s')) :
    (p = 0 ∧ (size ≠ 0 → s' = s)) ∨ (p ≠ 0 ∧ p % 16 = 0) := by
  unfold mm_realloc at h
  by_cases hneg : intCastNeg size = true
  · rw [if_pos hneg] at h
    have := Prod.mk.inj (pure_eq_some h)
    exact Or.inl ⟨this.1.symm, fun _ => this.2.symm⟩
  rw [if_neg hneg] at h
  by_cases h0 : size = 0
  · rw [if_pos h0] at h
    obtain ⟨s1, _, h1⟩ := Run.bind_eq_some h
    have := Prod.mk.inj (pure_eq_some h1)
    exact Or.inl ⟨this.1.symm, fun hne => absurd h0 hne⟩
  rw [if_neg h0] at h
  by_cases hnull : ptr = NULL
  · rw [if_pos hnull] at h
    rcases mm_malloc_result hi h with ⟨h1, h2⟩ | ⟨h1, h2, _⟩
    · exact Or.inl ⟨h1, fun _ => h2⟩
    · exact Or.inr ⟨h1, h2⟩
  rw [if_neg hnull] at h
  have hp16 : ptr % 16 = 0 := by
    rcases hptr with hp | hp
    · exact absurd hp hnull
    · exact hp
  obtain ⟨oldsize, _, h⟩ := Run.bind_eq_some h
  simp only [] at h
  by_cases hstay : add64 size (2 * WSIZE) ≤ oldsize
  · rw [if_pos hstay] at h
    have := Prod.mk.inj (pure_eq_some h)
    rw [← this.1]
    exact Or.inr ⟨hnull, hp16⟩
  rw [if_neg hstay] at h
  obtain ⟨nb, _, h⟩ := Run.bind_eq_some h
  obtain ⟨na, _, h⟩ := Run.bind_eq_some h
  obtain ⟨nsz, _, h⟩ := Run.bind_eq_some h
  by_cases habs : na = 0 ∧ add64 oldsize nsz ≥ add64 size (2 * WSIZE)
  · rw [if_pos habs] at h
    obtain ⟨s1, _, h⟩ := Run.bind_eq_some h
    obtain ⟨s2, _, h⟩ := Run.bind_eq_some h
    obtain ⟨f, _, h⟩ := Run.bind_eq_some h
    obtain ⟨s3, _, h⟩ := Run.bind_eq_some h
    have := Prod.mk.inj (pure_eq_some h)
    rw [← this.1]
    exact Or.inr ⟨hnull, hp16⟩
  rw [if_neg habs] at h
  obtain ⟨⟨newptr, s1⟩, hm, h⟩ := Run.bind_eq_some h
  simp only [] at h
  rcases mm_malloc_result hi hm with ⟨m1, m2⟩ | ⟨m1, m2, _⟩
  · rw [if_pos m1] at h
    have := Prod.mk.inj (pure_eq_some h)
    exact Or.inl ⟨this.1.symm, fun _ => by rw [← this.2, m2]⟩
  · rw [if_neg m1] at h
    obtain ⟨s2, _, h⟩ := Run.bind_eq_some h
    obtain ⟨s3, _, h⟩ := Run.bind_eq_some h
    obtain ⟨s4, _, h⟩ := Run.bind_eq_some h
    have := Prod.mk.inj (pure_eq_some h)
    rw [← this.1]
    exact Or.inr ⟨m1, m2⟩

end MallocLab


namespace MallocLab

/-! ## Reuse of the head of the free list -/

/-- A request that fits into the block at the head of the free list is
placed there, and the region does not grow. -/
theorem mm_malloc_head {s : Heap} {bs : List Blk} {fl : List Nat} {r : Nat}
    (hi : Inv s bs (r :: fl)) {size : Nat} (hpos : 0 < size)
    (hsz : size + 31 < 18446744073709551616) (hle : adjusted size ≤ bsize s r) :
    ∃ s', mm_malloc s size = some (r, s') ∧ s'.brk = s.brk := by
  obtain ⟨b, hb, hbr⟩ := hi.geo.fl_blk r (List.mem_cons_self _ _)
  have hal : b.al = 0 := (hi.free_iff b hb).2 (by rw [hbr]; exact List.mem_cons_self _ _)
  have hbs := hi.geo.bsize hb
  rw [hbr] at hbs
  obtain ⟨a32, a16, _, _⟩ := adjusted_facts hsz
  have hf : find_fit s (adjusted size) = some r := by
    rw [find_fit_spec hi, List.find?_cons_of_pos _ (by simpa using hle)]
    rfl
  have hlo := (hi.geo.blk hb).lo
  have hne : r ≠ NULL := by simp only [NULL]; omega
  obtain ⟨s', bs', fl', h1, _, _, h4, _⟩ :=
    @place_in _ _ _ hi _ hb hal (adjusted size) (by rw [← hbs]; exact hle) a32 a16
  rw [hbr] at h1
  refine ⟨s', ?_, h4⟩
  rw [mm_malloc_eq, if_neg (by omega), hf, Run.some_bind, if_pos hne, h1, Run.some_bind]
  rfl

/-! ## `mm_realloc`: growing in place -/

/-- The run of `mm_realloc` when it absorbs the successor. -/
theorem absorb_run {s s1 : Heap} {b n : Blk} {size : Nat} (hB : BlkAt s b) (hN : BlkAt s n)
    (hnb : n.bp = b.bp + b.size) (hn0 : n.al = 0)
    (hneg : intCastNeg size = false) (h0 : size ≠ 0)
    (hgrow : b.size < size + 16) (hfits : size + 16 ≤ b.size + n.size)
    (e1 : s1.lo = s.lo) (e2 : s1.brk = s.brk)
    (hd : delete_block_from_list s n.bp = some s1) :
    mm_realloc s b.bp size = some (b.bp,
      (s1.set (b.bp - 8) (b.size + n.size + 1)).set (b.bp + (b.size + n.size) - 16)
        (b.size + n.size + 1)) := by
  have hlo := hB.lo; have hhi := hN.hi; have hal16 := hB.al16
  have hb16 := hB.sz16; have hn16 := hN.sz16; have hb32 := hB.sz32; have hn32 := hN.sz32
  have hfitb : Fits (b.bp + (b.size + n.size) + 1) := by
    have := hB.fit
    have := hN.al16
    unfold Fits at *; omega
  have hnew : add64 size (2 * WSIZE) = size + 16 :=
    add64_fit (hfitb.mono (by simp only [WSIZE]; omega))
  have htot : add64 b.size n.size = b.size + n.size := add64_fit (hfitb.mono (by omega))
  have hv1 : s1.valid (b.bp - 8) := by
    unfold Heap.valid; rw [e1, e2]; omega
  have hv2 : (s1.set (b.bp - 8) (b.size + n.size + 1)).valid
      (b.bp + (b.size + n.size) - 16) := by
    show s1.valid _
    unfold Heap.valid; rw [e1, e2]; omega
  have hft : FTRP (s1.set (b.bp - 8) (b.size + n.size + 1)) b.bp =
      some (b.bp + (b.size + n.size) - 16) :=
    @FTRP_of _ _ _ 1 hv1 (by omega) (by rw [set_mem_eq]) (by omega) (le_refl 1) (by omega)
      hfitb
  have hna := hN.get_alloc
  rw [hn0] at hna
  unfold mm_realloc
  rw [if_neg (by rw [hneg]; decide), if_neg h0, if_neg (by simp only [NULL]; omega), hB.hdrp,
    hB.get_size, Run.some_bind]
  simp only []
  rw [hnew, if_neg (by omega), hB.next_blkp, Run.some_bind, ← hnb, hN.hdrp, hna,
    Run.some_bind, hN.get_size, Run.some_bind, htot, if_pos ⟨rfl, by omega⟩, hd,
    Run.some_bind, PACK_one _ (by omega), PUT_valid _ hv1, Run.some_bind, hft,
    Run.some_bind, PUT_valid _ hv2, Run.some_bind]
  rfl

/-- The cells of a block that is not in the free list hold no links of the list. -/
theorem Inv.alloc_not_link {s : Heap} {bs : List Blk} {fl : List Nat} (hi : Inv s bs fl)
    {b : Blk} (hb : b ∈ bs) (hal : b.al = 1) {a : Nat} (h1 : b.bp - 8 ≤ a)
    (h2 : a < b.bp + b.size - 8) : ¬ LinkCell s fl a := by
  have hB := hi.geo.blk hb
  have hlo := hB.lo; have h32 := hB.sz32
  rintro (h | ⟨y, hy, h⟩)
  · omega
  · obtain ⟨c, hc, hcy⟩ := hi.geo.fl_blk y hy
    have hc0 : c.al = 0 := (hi.free_iff c hc).2 (by rw [hcy]; exact hy)
    have hC := hi.geo.blk hc
    have := hC.sz32
    rcases Tile_apart hi.geo.tile hb hc with e | e | e
    · rw [e] at hal; omega
    · omega
    · omega

/-- Growing in place: `mm_realloc` absorbs the free successor. -/
theorem realloc_absorb {s : Heap} {pre post : List Blk} {b n : Blk} {fl : List Nat}
    (hi : Inv s (pre ++ b :: n :: post) fl) (hb1 : b.al = 1) (hn0 : n.al = 0)
    {size : Nat} (hneg : intCastNeg size = false) (h0 : size ≠ 0)
    (hgrow : b.size < size + 16) (hfits : size + 16 ≤ b.size + n.size) :
    ∃ s', mm_realloc s b.bp size = some (b.bp, s') ∧
      Inv s' (pre ++ ⟨b.bp, b.size + n.size, 1⟩ :: post) (fl.erase n.bp) ∧
      s'.lo = s.lo ∧ s'.brk = s.brk ∧ s'.max_addr = s.max_addr ∧
      (∀ a, b.bp ≤ a → a < b.bp + b.size - 16 → s'.mem a = s.mem a) := by
  have hg := hi.geo
  have hbm : b ∈ pre ++ b :: n :: post := by simp
  have hnm : n ∈ pre ++ b :: n :: post := by simp
  have hB := hg.blk hbm
  have hN := hg.blk hnm
  have hnb : n.bp = b.bp + b.size := (Tile_split hg.tile).2.1
  have hnfl : n.bp ∈ fl := (hi.free_iff n hnm).1 hn0
  have hbfl : b.bp ∉ fl := fun h => by have := (hi.free_iff b hbm).2 h; omega
  obtain ⟨s1, hd, hg1, e1, e2, e3, e4, efr⟩ := delete_spec hg hnfl
  have hb32 := hB.sz32; have hn32 := hN.sz32; have hlo := hB.lo
  obtain ⟨T, hT⟩ : ∃ T, T = b.size + n.size := ⟨_, rfl⟩
  have hrun := absorb_run hB hN hnb hn0 hneg h0 hgrow hfits e1 e2 hd
  rw [← hT] at hrun
  obtain ⟨s3, hs3⟩ : ∃ s3, s3 = (s1.set (b.bp - 8) (T + 1)).set (b.bp + T - 16) (T + 1) :=
    ⟨_, rfl⟩
  rw [← hs3] at hrun
  have hg3 : Geo s3 (pre ++ ⟨b.bp, T, 1⟩ :: post) (fl.erase n.bp) := by
    have hg1' : Geo s1 (pre ++ [b, n] ++ post) (fl.erase n.bp) := by simpa using hg1
    apply hg1'.merge (by rw [hs3]; rfl) (by rw [hs3]; rfl) (by rw [hs3]; rfl)
      (by rw [hs3]; rfl) (by rw [hs3]; rfl) (by simp)
      (show Tile b.bp [b, n] (b.bp + T) from ⟨rfl, hnb, by show _ = _; omega⟩)
      (le_refl 1)
    · intro a ha1 ha2
      rw [hs3, set_mem_ne ha2, set_mem_ne ha1]
    · rw [hs3, set_mem_ne (by omega), set_mem_eq]
    · rw [hs3, set_mem_eq]
    · intro c hc hcf
      simp only [List.mem_cons, List.mem_singleton, List.not_mem_nil, or_false] at hc
      rcases hc with hc | hc
      · rw [hc]
      · rw [hc] at hcf
        exact absurd hcf (List.Nodup.not_mem_erase hg.nodup)
  refine ⟨s3, hrun, ⟨by rw [← hT]; exact hg3, ?_, ?_⟩, by rw [hs3]; exact e1,
    by rw [hs3]; exact e2, by rw [hs3]; exact e3, ?_⟩
  · intro c hc
    have hcases : c ∈ pre ++ (n :: post) ∧ c ≠ n ∨ c = ⟨b.bp, b.size + n.size, 1⟩ := by
      rcases List.mem_append.1 hc with h | h
      · left
        refine ⟨List.mem_append_left _ h, ?_⟩
        intro e
        have := Tile_pre hg.tile h
        rw [e] at this; omega
      · rcases List.mem_cons.1 h with h | h
        · right; exact h
        · left
          refine ⟨List.mem_append_right _ (List.mem_cons_of_mem _ h), ?_⟩
          intro e
          have := @Tile_post _ _ (pre ++ [b]) _ n _ (by simpa using hg.tile) h
          rw [e] at this; omega
    rcases hcases with ⟨hcm, hcn⟩ | hcb
    · have hcm' : c ∈ pre ++ b :: n :: post := by
        rcases List.mem_append.1 hcm with h | h
        · exact List.mem_append_left _ h
        · exact List.mem_append_right _ (List.mem_cons_of_mem _ h)
      have hne : c.bp ≠ n.bp := fun e => hcn (hg.blk_inj hcm' hnm e)
      rw [hi.free_iff c hcm', hg.nodup.mem_erase_iff]
      simp [hne]
    · rw [hcb]
      have : b.bp ∉ fl.erase n.bp := fun h => hbfl (List.mem_of_mem_erase h)
      simp [this]
  · have h1 := NoAdj_split hi.nadj
    exact NoAdj_join h1.1 (NoAdj_tail h1.2) (Or.inl rfl) (Or.inl rfl)
  · intro a ha1 ha2
    rw [hs3, set_mem_ne (by omega), set_mem_ne (by omega)]
    exact efr a (hi.alloc_not_link hbm hb1 (by omega) (by omega))

end MallocLab


namespace MallocLab

/-! ## Further facts about lists and tilings -/

/-- In a doubly linked list whose last member is the backward link of the
sentinel, the backward link of a member's successor leads back to the member. -/
theorem Linked_back {m : Nat → Nat} {S : Nat} :
    ∀ {l : List Nat} {prev : Nat}, Linked m S prev l → (l ≠ [] → m S = l.getLastD 0) →
      ∀ x ∈ l, m (m (x + 8)) = x := by
  intro l
  induction l with
  | nil => intro prev _ _ x hx; simp at hx
  | cons y t ih =>
    intro prev h hb x hx
    obtain ⟨_, h2, h3⟩ := h
    cases t with
    | nil =>
      simp only [List.mem_singleton] at hx
      subst hx
      rw [h2]
      exact hb (by simp)
    | cons z r =>
      rcases List.mem_cons.1 hx with hxy | hxt
      · subst hxy
        rw [h2]
        exact h3.1
      · apply ih h3 _ x hxt
        intro _
        have := hb (by simp)
        rw [this]
        simp only [List.getLastD_cons]

theorem Tile_sum {a e : Nat} {bs : List Blk} (h : Tile a bs e) :
    a + (bs.map Blk.size).sum = e := by
  induction bs generalizing a with
  | nil => simp only [Tile] at h; simpa using h
  | cons b r ih =>
    obtain ⟨_, h2⟩ := h
    have := ih h2
    simp only [List.map_cons, List.sum_cons]
    omega

theorem Tile_sorted {a e : Nat} {bs : List Blk} (h : Tile a bs e)
    (hs : ∀ b ∈ bs, 0 < b.size) : (bs.map Blk.bp).Pairwise (fun x y => x < y) := by
  induction bs generalizing a with
  | nil => simp
  | cons b r ih =>
    obtain ⟨h1, h2⟩ := h
    simp only [List.map_cons, List.pairwise_cons]
    refine ⟨?_, ih h2 (fun c hc => hs c (List.mem_cons_of_mem _ hc))⟩
    intro x hx
    obtain ⟨c, hc, rfl⟩ := List.mem_map.1 hx
    have := Tile_mem h2 hc
    have := hs b (List.mem_cons_self _ _)
    omega

theorem Geo.walk_nodup {s : Heap} {bs : List Blk} {fl : List Nat} (hg : Geo s bs fl) :
    (bs.map Blk.bp).Nodup := by
  have := Tile_sorted hg.tile (fun b hb => by have := (hg.tag b hb).1; omega)
  exact this.imp (fun h => Nat.ne_of_lt h)

/-- The free blocks of the heap walk are the members of the free list. -/
theorem Inv.mem_free {s : Heap} {bs : List Blk} {fl : List Nat} (hi : Inv s bs fl)
    (x : Nat) : x ∈ fl ↔ x ∈ bs.map Blk.bp ∧ isFree s x = true := by
  constructor
  · intro hx
    obtain ⟨b, hb, hbx⟩ := hi.geo.fl_blk x hx
    have hal : b.al = 0 := (hi.free_iff b hb).2 (by rw [hbx]; exact hx)
    refine ⟨List.mem_map.2 ⟨b, hb, hbx⟩, ?_⟩
    rw [← hbx, hi.geo.isFree hb]
    simpa using hal
  · rintro ⟨hx, hf⟩
    obtain ⟨b, hb, hbx⟩ := List.mem_map.1 hx
    rw [← hbx, hi.geo.isFree hb] at hf
    rw [← hbx]
    exact (hi.free_iff b hb).1 (by simpa using hf)

theorem Inv.free_perm {s : Heap} {bs : List Blk} {fl : List Nat} (hi : Inv s bs fl) :
    ((bs.map Blk.bp).filter (fun bp => isFree s bp)).Perm fl := by
  apply (List.perm_ext_iff_of_nodup (hi.geo.walk_nodup.filter _) hi.geo.nodup).2
  intro x
  rw [hi.mem_free x, List.mem_filter]

/-! ## Runs of call sequences are reachable configurations -/

theorem step_reachable {lo max_addr : Nat} {c0 c : Config} {k : Call}
    (hr : Reachable lo max_addr c0) (hk : k.plain = true) (hs : c0.step k = some c) :
    Reachable lo max_addr c := by
  cases k with
  | malloc size =>
    unfold Config.step at hs
    obtain ⟨⟨p, s⟩, hm, hp⟩ := Run.bind_eq_some hs
    have := pure_eq_some hp
    rw [← this]
    exact Reachable.malloc c0 size p s hr (by simpa [Call.plain] using hk) hm
  | free ptr =>
    unfold Config.step at hs
    simp only [] at hs
    by_cases hl : c0.isLive ptr = true
    · rw [if_pos hl] at hs
      obtain ⟨s, hm, hp⟩ := Run.bind_eq_some hs
      have := pure_eq_some hp
      rw [← this]
      exact Reachable.free c0 ptr s hr hl hm
    · rw [if_neg hl] at hs
      exact absurd hs (by simp)
  | realloc ptr size => simp [Call.plain] at hk

theorem run_reachable {lo max_addr : Nat} :
    ∀ (ks : List Call) (c0 c : Config), Reachable lo max_addr c0 →
      ks.all Call.plain = true → c0.run ks = some c → Reachable lo max_addr c := by
  intro ks
  induction ks with
  | nil =>
    intro c0 c hr _ hs
    have := pure_eq_some hs
    rw [← this]; exact hr
  | cons k ks ih =>
    intro c0 c hr hk hs
    simp only [List.all_cons, Bool.and_eq_true] at hk
    unfold Config.run at hs
    obtain ⟨c1, h1, h2⟩ := Run.bind_eq_some hs
    exact ih c1 c (step_reachable hr hk.1 h1) hk.2 h2

/-- The configuration that a sequence of `mm_malloc` and `mm_free` calls reaches
is reachable. -/
theorem reached_reachable {lo max_addr : Nat} {ks : List Call}
    (hs : Option.isSome (runFrom lo max_addr ks) = true)
    (hk : ks.all Call.plain = true) : Reachable lo max_addr (reached lo max_addr ks) := by
  obtain ⟨c, hc⟩ := Option.isSome_iff_exists.1 hs
  have hre : reached lo max_addr ks = c := by
    unfold reached; rw [hc]
  rw [hre]
  unfold runFrom at hc
  obtain ⟨c0, h0, h1⟩ := Run.bind_eq_some hc
  refine run_reachable ks c0 c ?_ hk h1
  unfold start at h0
  obtain ⟨⟨r, s⟩, hi, h2⟩ := Run.bind_eq_some h0
  simp only [] at h2
  by_cases hr0 : r = 0
  · rw [if_pos hr0] at h2
    have := pure_eq_some h2
    rw [← this]
    subst hr0
    exact Reachable.init s hi
  · rw [if_neg hr0] at h2
    exact absurd h2 (by simp)

end MallocLab


namespace MallocLab

set_option maxRecDepth 100000

/-! ## Sample configurations -/

/-- The configuration right after `mm_init` at heap base 1024. -/
theorem reach_init : Reachable 1024 1099511627776 (reached 1024 1099511627776 []) :=
  reached_reachable (by decide) (by decide)

/-- The configuration after `mm_init` and `mm_malloc(100)` at heap base 1024. -/
theorem reach_one :
    Reachable 1024 1099511627776 (reached 1024 1099511627776 [.malloc 100]) :=
  reached_reachable (by decide) (by decide)

/-! ## When `mm_malloc` returns `NULL` -/

/-- For a request that does not overflow, `mm_malloc` returns `NULL` exactly
when the size is 0, or no block of the free list fits and the provider refuses
to grow the region. -/
theorem mm_malloc_null_iff {s : Heap} {bs : List Blk} {fl : List Nat} (hi : Inv s bs fl)
    {size : Nat} (hsz : size + 31 < 18446744073709551616) :
    (∃ s', mm_malloc s size = some (NULL, s')) ↔
      size = 0 ∨ (find_fit s (adjusted size) = some NULL ∧
        s.max_addr < s.brk + MAX (adjusted size) CHUNKSIZE) := by
  obtain ⟨a32, a16, _, afit⟩ := adjusted_facts hsz
  obtain ⟨m32, m16, mfit, _⟩ := MAX_facts a32 a16 afit
  by_cases h0 : size = 0
  · subst h0
    exact ⟨fun _ => Or.inl rfl, fun _ => ⟨s, rfl⟩⟩
  obtain ⟨p, s', hm, hres⟩ := mm_malloc_spec hi hsz
  rcases find_fit_cases hi (adjusted size) with ⟨hf, _⟩ | ⟨b, hb, hf, _, _, _⟩
  · rcases extend_heap_spec hi m32 m16 mfit with ⟨hno, he⟩ | ⟨hyes, s1, he, hi1, _⟩
    · constructor
      · intro _
        exact Or.inr ⟨hf, by omega⟩
      · intro _
        refine ⟨s, ?_⟩
        rw [mm_malloc_eq, if_neg (by omega), hf, Run.some_bind, if_neg (by simp),
          show MAX (adjusted size) CHUNKSIZE / WSIZE = MAX (adjusted size) CHUNKSIZE / 8
            from rfl, he, Run.some_bind]
        rfl
    · constructor
      · rintro ⟨s2, h2⟩
        exfalso
        have hM := merged_mem bs [] ⟨s.brk, MAX (adjusted size) CHUNKSIZE, 0⟩
        have hlo := (hi1.geo.blk hM).lo
        simp only at hlo
        have hne : mergedBp bs ⟨s.brk, MAX (adjusted size) CHUNKSIZE, 0⟩ ≠ NULL := by
          simp only [NULL]; omega
        rw [mm_malloc_eq, if_neg (by omega), hf, Run.some_bind, if_neg (by simp),
          show MAX (adjusted size) CHUNKSIZE / WSIZE = MAX (adjusted size) CHUNKSIZE / 8
            from rfl, he, Run.some_bind] at h2
        simp only [] at h2
        rw [if_neg hne] at h2
        obtain ⟨s3, _, h3⟩ := Run.bind_eq_some h2
        exact hne (Prod.mk.inj (pure_eq_some h3)).1
      · rintro (h | ⟨_, h⟩)
        · exact absurd h h0
        · omega
  · have hlo := (hi.geo.blk hb).lo
    have hne : b.bp ≠ NULL := by simp only [NULL]; omega
    constructor
    · rintro ⟨s2, h2⟩
      exfalso
      rw [mm_malloc_eq, if_neg (by omega), hf, Run.some_bind, if_pos hne] at h2
      obtain ⟨s3, _, h3⟩ := Run.bind_eq_some h2
      exact hne (Prod.mk.inj (pure_eq_some h3)).1
    · rintro (h | ⟨h, _⟩)
      · exact absurd h h0
      · rw [hf] at h
        exact absurd (Option.some.inj h) hne

end MallocLab


namespace MallocLab

/-! ## Properties of all reachable configurations -/

/-- C4: in every configuration reachable from a successful `mm_init` on a
16-byte aligned heap base by `mm_malloc` and `mm_free` calls, `mm_malloc`
returns a result for every size that does not overflow, and every non-null
pointer returned by `mm_malloc`, or by `mm_realloc` for `NULL` or a live
pointer, is a multiple of 16, whatever the size. -/
theorem returned_pointers_aligned {lo max_addr : Nat} {c : Config}
    (hr : Reachable lo max_addr c) (hlo : lo % 16 = 0) (hmax : max_addr < W64) :
    (∀ size, size + 31 < W64 → ∃ p s, mm_malloc c.heap size = some (p, s)) ∧
    (∀ size p s, mm_malloc c.heap size = some (p, s) → p ≠ NULL → p % 16 = 0) ∧
    (∀ ptr size p s, ptr = NULL ∨ c.isLive ptr = true →
      mm_realloc c.heap ptr size = some (p, s) → p ≠ NULL → p % 16 = 0) := by
  obtain ⟨bs, fl, hgood⟩ := hr.good hlo hmax
  refine ⟨?_, ?_, ?_⟩
  · intro size hsz
    obtain ⟨p, s, h, _⟩ := mm_malloc_spec hgood.inv hsz
    exact ⟨p, s, h⟩
  · intro size p s h hp
    rcases mm_malloc_result hgood.inv h with ⟨h1, _⟩ | ⟨_, h2, _⟩
    · exact absurd h1 hp
    · exact h2
  · intro ptr size p s hptr h hp
    have hal : ptr = 0 ∨ ptr % 16 = 0 := by
      rcases hptr with h1 | h1
      · exact Or.inl h1
      · obtain ⟨b, hb, hbp, _⟩ := hgood.live ptr h1
        right
        rw [← hbp]
        exact (hgood.inv.geo.blk hb).al16
    rcases mm_realloc_result hgood.inv hal h with ⟨h1, _⟩ | ⟨_, h2⟩
    · exact absurd h1 hp
    · exact h2

/-- A witness for `returned_pointers_aligned`: the configuration after `mm_init`
and `mm_malloc(100)` at heap base 1024. -/
theorem returned_pointers_aligned_witness :
    (∀ size, size + 31 < W64 → ∃ p s,
      mm_malloc (reached 1024 1099511627776 [.malloc 100]).heap size = some (p, s)) ∧
    (∀ size p s, mm_malloc (reached 1024 1099511627776 [.malloc 100]).heap size = some (p, s) →
      p ≠ NULL → p % 16 = 0) ∧
    (∀ ptr size p s,
      ptr = NULL ∨ (reached 1024 1099511627776 [.malloc 100]).isLive ptr = true →
      mm_realloc (reached 1024 1099511627776 [.malloc 100]).heap ptr size = some (p, s) →
      p ≠ NULL → p % 16 = 0) :=
  returned_pointers_aligned reach_one (by decide) (by decide)

/-- C6: in every reachable configuration the forward links from `free_listp`
lead, up to the prologue sentinel, through exactly the blocks of the heap walk
that are tagged free, each once; the backward link of a member's successor
leads back to the member, and the backward link of the first member is
`NULL`. -/
theorem free_list_complete {lo max_addr : Nat} {c : Config}
    (hr : Reachable lo max_addr c) (hlo : lo % 16 = 0) (hmax : max_addr < W64) :
    ∃ fl walk, freeList c.heap = some fl ∧ heapWalk c.heap = some (walk, c.heap.brk) ∧
      fl.Nodup ∧ walk.Nodup ∧
      (∀ bp, bp ∈ fl ↔ bp ∈ walk ∧ isFree c.heap bp = true) ∧
      (∀ bp ∈ fl, c.heap.mem (c.heap.mem (bp + 8)) = bp) ∧
      (∀ bp ∈ fl.head?, c.heap.mem bp = NULL) := by
  obtain ⟨bs, fl, hgood⟩ := hr.good hlo hmax
  have hg := hgood.inv.geo
  refine ⟨fl, bs.map Blk.bp, hg.freeList, hg.heapWalk, hg.nodup, hg.walk_nodup,
    hgood.inv.mem_free, Linked_back hg.link hg.back, ?_⟩
  intro bp hbp
  cases hfl : fl with
  | nil => rw [hfl] at hbp; simp at hbp
  | cons x xs =>
    rw [hfl] at hbp
    simp only [List.head?_cons, Option.mem_def, Option.some.injEq] at hbp
    have hl := hg.link
    rw [hfl] at hl
    rw [← hbp]
    exact hl.1

/-- A witness for `free_list_complete`: the configuration after `mm_init` and
`mm_malloc(100)` at heap base 1024. -/
theorem free_list_complete_witness :
    ∃ fl walk, freeList (reached 1024 1099511627776 [.malloc 100]).heap = some fl ∧
      heapWalk (reached 1024 1099511627776 [.malloc 100]).heap =
        some (walk, (reached 1024 1099511627776 [.malloc 100]).heap.brk) ∧
      fl.Nodup ∧ walk.Nodup ∧
      (∀ bp, bp ∈ fl ↔
        bp ∈ walk ∧ isFree (reached 1024 1099511627776 [.malloc 100]).heap bp = true) ∧
      (∀ bp ∈ fl, (reached 1024 1099511627776 [.malloc 100]).heap.mem
        ((reached 1024 1099511627776 [.malloc 100]).heap.mem (bp + 8)) = bp) ∧
      (∀ bp ∈ fl.head?, (reached 1024 1099511627776 [.malloc 100]).heap.mem bp = NULL) :=
  free_list_complete reach_one (by decide) (by decide)

/-- C7: in every reachable configuration the walk by header size from the
first block at heap base + 64 visits blocks whose size is a multiple of 16 and
at least 32 and whose footer equals their header; it ends at the end of the
region, where the last word holds the epilogue header, and no two consecutive
blocks of the walk are both free. -/
theorem blocks_well_formed {lo max_addr : Nat} {c : Config}
    (hr : Reachable lo max_addr c) (hlo : lo % 16 = 0) (hmax : max_addr < W64) :
    c.heap.lo = lo ∧
    ∃ walk, heapWalk c.heap = some (walk, c.heap.brk) ∧
      c.heap.mem (c.heap.brk - 8) = PACK 0 1 ∧
      (∀ bp ∈ walk, bsize c.heap bp % 16 = 0 ∧ 32 ≤ bsize c.heap bp ∧
        ftr c.heap bp = hdr c.heap bp) ∧
      walk.Chain' (fun x y => ¬ (isFree c.heap x = true ∧ isFree c.heap y = true)) := by
  obtain ⟨bs, fl, hgood⟩ := hr.good hlo hmax
  have hg := hgood.inv.geo
  refine ⟨hgood.lo_eq, bs.map Blk.bp, hg.heapWalk, hg.epi, ?_, ?_⟩
  · intro bp hbp
    obtain ⟨b, hb, rfl⟩ := List.mem_map.1 hbp
    have hB := hg.blk hb
    rw [hg.bsize hb, hg.ftr hb, hg.hdr hb]
    exact ⟨hB.sz16, hB.sz32, rfl⟩
  · rw [List.chain'_map]
    have hn := hgood.inv.nadj
    unfold NoAdj at hn
    rw [List.Chain'.iff_mem] at hn
    apply hn.imp
    rintro x y ⟨hx, hy, hxy⟩ ⟨h1, h2⟩
    rw [hg.isFree hx] at h1
    rw [hg.isFree hy] at h2
    simp only [decide_eq_true_eq] at h1 h2
    omega

/-- A witness for `blocks_well_formed`: the configuration after `mm_init` and
`mm_malloc(100)` at heap base 1024. -/
theorem blocks_well_formed_witness :
    (reached 1024 1099511627776 [.malloc 100]).heap.lo = 1024 ∧
    ∃ walk, heapWalk (reached 1024 1099511627776 [.malloc 100]).heap =
        some (walk, (reached 1024 1099511627776 [.malloc 100]).heap.brk) ∧
      (reached 1024 1099511627776 [.malloc 100]).heap.mem
        ((reached 1024 1099511627776 [.malloc 100]).heap.brk - 8) = PACK 0 1 ∧
      (∀ bp ∈ walk, bsize (reached 1024 1099511627776 [.malloc 100]).heap bp % 16 = 0 ∧
        32 ≤ bsize (reached 1024 1099511627776 [.malloc 100]).heap bp ∧
        ftr (reached 1024 1099511627776 [.malloc 100]).heap bp =
          hdr (reached 1024 1099511627776 [.malloc 100]).heap bp) ∧
      walk.Chain' (fun x y =>
        ¬ (isFree (reached 1024 1099511627776 [.malloc 100]).heap x = true ∧
           isFree (reached 1024 1099511627776 [.malloc 100]).heap y = true)) :=
  blocks_well_formed reach_one (by decide) (by decide)

/-- C9: in every reachable configuration `mm_malloc(0)` returns `NULL`; for a
size that does not overflow `mm_malloc` returns `NULL` exactly when the size is 0,
or no block of the free list fits and the provider refuses to grow the region;
and whenever `mm_malloc` (any size), or `mm_realloc` for `NULL` or a live
pointer and a size other than 0, returns `NULL`, the state after the call is the
state before it: the region, every word of memory and `free_listp`. -/
theorem null_result_changes_nothing {lo max_addr : Nat} {c : Config}
    (hr : Reachable lo max_addr c) (hlo : lo % 16 = 0) (hmax : max_addr < W64) :
    mm_malloc c.heap 0 = some (NULL, c.heap) ∧
    (∀ size, size + 31 < W64 →
      ((∃ s, mm_malloc c.heap size = some (NULL, s)) ↔
        size = 0 ∨ (find_fit c.heap (adjusted size) = some NULL ∧
          c.heap.max_addr < c.heap.brk + MAX (adjusted size) CHUNKSIZE))) ∧
    (∀ size s, mm_malloc c.heap size = some (NULL, s) → s = c.heap) ∧
    (∀ ptr size s, ptr = NULL ∨ c.isLive ptr = true → size ≠ 0 →
      mm_realloc c.heap ptr size = some (NULL, s) → s = c.heap) := by
  obtain ⟨bs, fl, hgood⟩ := hr.good hlo hmax
  refine ⟨rfl, fun size hsz => mm_malloc_null_iff hgood.inv hsz, ?_, ?_⟩
  · intro size s h
    rcases mm_malloc_result hgood.inv h with ⟨_, h2⟩ | ⟨h1, _⟩
    · exact h2
    · exact absurd rfl h1
  · intro ptr size s hptr hsize h
    have hal : ptr = 0 ∨ ptr % 16 = 0 := by
      rcases hptr with h1 | h1
      · exact Or.inl h1
      · obtain ⟨b, hb, hbp, _⟩ := hgood.live ptr h1
        right
        rw [← hbp]
        exact (hgood.inv.geo.blk hb).al16
    rcases mm_realloc_result hgood.inv hal h with ⟨_, h2⟩ | ⟨h1, _⟩
    · exact h2 hsize
    · exact absurd rfl h1

/-- A witness for `null_result_changes_nothing`: the configuration after
`mm_init` and `mm_malloc(100)` at heap base 1024. -/
theorem null_result_changes_nothing_witness :
    mm_malloc (reached 1024 1099511627776 [.malloc 100]).heap 0 =
      some (NULL, (reached 1024 1099511627776 [.malloc 100]).heap) ∧
    (∀ size, size + 31 < W64 →
      ((∃ s, mm_malloc (reached 1024 1099511627776 [.malloc 100]).heap size =
          some (NULL, s)) ↔
        size = 0 ∨
          (find_fit (reached 1024 1099511627776 [.malloc 100]).heap (adjusted size) =
              some NULL ∧
            (reached 1024 1099511627776 [.malloc 100]).heap.max_addr <
              (reached 1024 1099511627776 [.malloc 100]).heap.brk +
                MAX (adjusted size) CHUNKSIZE))) ∧
    (∀ size s, mm_malloc (reached 1024 1099511627776 [.malloc 100]).heap size =
        some (NULL, s) → s = (reached 1024 1099511627776 [.malloc 100]).heap) ∧
    (∀ ptr size s,
      ptr = NULL ∨ (reached 1024 1099511627776 [.malloc 100]).isLive ptr = true →
      size ≠ 0 →
      mm_realloc (reached 1024 1099511627776 [.malloc 100]).heap ptr size =
        some (NULL, s) → s = (reached 1024 1099511627776 [.malloc 100]).heap) :=
  null_result_changes_nothing reach_one (by decide) (by decide)

end MallocLab


namespace MallocLab

/-! ## Runs of the code on concrete call sequences -/

set_option maxRecDepth 100000

/-- C1: after this sequence of valid calls (it takes `mm_realloc` through its
allocate-copy-free path) the live allocations at 1088 (48 bytes requested) and
at 1120 (16 bytes requested) overlap. -/
theorem realloc_makes_live_ranges_overlap :
    liveAfter 1024 1099511627776
        [.malloc 16, .malloc 16, .malloc 16, .free 1120, .malloc 40, .realloc 1152 40,
          .realloc 1088 48, .free 1248, .malloc 3920, .malloc 16]
      = some [(1120, 16), (1248, 3920), (1088, 48), (1184, 40)] ∧
    rangesMeet (1088, 48) (1120, 16) = true := by
  decide

/-- C2: the allocation at 1088 (64 bytes requested) is live before and after
the call `mm_malloc(100)`, and that call changes its first byte from 0 to
16. -/
theorem malloc_changes_live_payload :
    byteAcross 1024 1099511627776
        [.malloc 80, .malloc 32, .free 1088, .realloc 1184 4000, .malloc 64]
        (.malloc 100) 1088
      = some ((0, [(1088, 64), (1232, 4000)]),
          (16, [(5264, 100), (1088, 64), (1232, 4000)])) := by
  decide

/-- C3: right after `mm_init`, `mm_malloc(2^64 - 31)` returns the non-null
pointer 1088 to a block whose header holds size 4096 and allocated bit 0. -/
theorem malloc_huge_returns_free_block :
    mallocTags 1024 1099511627776 [] (W64 - 31) = some (1088, 4096, 0) := by
  decide

/-- C5: in a state reached by `mm_malloc` and `mm_free` calls, with the
pointer 1216 live, its block of size 80 and its successor allocated,
`mm_realloc(1216, 72)` has no result: it makes an invalid memory access. -/
theorem realloc_move_faults :
    reallocResult 1024 1099511627776 [.malloc 112, .malloc 64, .malloc 1, .free 1088]
        1216 72
      = some (([(1296, 1), (1216, 64)], 80, 1), none) := by
  decide

/-- C8: after `mm_realloc(1088, 100)` has moved a block, the free list holds
the block 1088 only, while the blocks tagged free are 1088 and 1296. -/
theorem realloc_loses_free_block :
    listAndWalk 1024 1099511627776 [.malloc 16, .malloc 16, .realloc 1088 100]
      = some (some [1088], some [1088, 1296]) := by
  decide

/-- C10: for `size = 2^31`, `mm_realloc(NULL, size)` returns `NULL` and leaves
the region as it is, while `mm_malloc(size)` returns 1088 and grows it. -/
theorem realloc_null_differs_from_malloc :
    reallocNullVsMalloc 1024 1099511627776 2147483648
      = some ((0, 5184), (1088, 2147488848)) := by
  decide

/-- C10, amended: with a null pointer and a size whose `(int)` cast is not
negative and that is not 0, `mm_realloc` is `mm_malloc`; when the cast is
negative it returns `NULL` and changes nothing. -/
theorem realloc_null_is_malloc (s : Heap) (size : Nat) :
    (intCastNeg size = false → size ≠ 0 → mm_realloc s NULL size = mm_malloc s size) ∧
    (intCastNeg size = true → mm_realloc s NULL size = some (NULL, s)) := by
  constructor
  · intro h1 h2
    unfold mm_realloc
    rw [if_neg (by rw [h1]; decide), if_neg h2, if_pos rfl]
  · intro h1
    unfold mm_realloc
    rw [if_pos h1]
    rfl

/-- A witness for `realloc_null_is_malloc`: the sizes 100 and `2^31`. -/
theorem realloc_null_is_malloc_witness :
    mm_realloc (fresh 1024 2048) NULL 100 = mm_malloc (fresh 1024 2048) 100 ∧
    mm_realloc (fresh 1024 2048) NULL 2147483648 = some (NULL, fresh 1024 2048) :=
  ⟨(realloc_null_is_malloc (fresh 1024 2048) 100).1 (by decide) (by decide),
    (realloc_null_is_malloc (fresh 1024 2048) 2147483648).2 (by decide)⟩

/-- C13: when the provider refuses the initial 64-byte request, `mm_init` has
no result (it writes through the failure value); it returns -1 when only the
4096-byte extension is refused and 0 when both requests are granted. -/
theorem init_on_provider_failure :
    initResult 1024 1080 (fun _ => 0) = none ∧
    initResult 1024 2000 (fun _ => 0) = some (-1) ∧
    initResult 1024 20000 (fun _ => 0) = some 0 := by
  decide

/-- C14: right after a successful `mm_init`, `mm_check` returns -1 for both
values of `verbose`. -/
theorem check_rejects_initial_heap :
    checkResults 1024 1099511627776 [] = some (-1, -1) := by
  decide

/-- C16: right after a successful `mm_init` the prologue header holds 17,
the last word of the region holds 1, and the prologue footer holds 1088, the
address of the first free block. -/
theorem init_overwrites_prologue_footer :
    sentinelWords 1024 1099511627776 [] = some (17, 1088, 1) := by
  decide

/-- C19: for a provider at base 16 whose memory holds 16 in the word at
base + 48, `mm_init` succeeds and the first block is merged backwards: the
free block starts at base + 48, and the prologue header (base + 8) and the
word at base + 40 have been overwritten with 4096. -/
theorem first_block_merges_backwards :
    initShape 16 1099511627776 (fun a => if a = 64 then 16 else 0)
      = some (0, 64, 4096, 4096) := by
  decide

end MallocLab
